import Mathlib

/-!
# Red-black tree of `rbtree/rbtree.go`: heap model

The Go program keeps its nodes on the garbage-collected heap and links them by
pointers (`left`, `right`, `parent`), with one shared sentinel `t.null`.  The
model keeps the heap explicit: a pointer is `Option Nat` (`none` is Go's `nil`),
the store is a map from addresses to node records, and every field access
through a pointer is checked, so a `nil` dereference is the outcome
`Res.nilDeref`.  Loops are unrolled by a fuel counter; running out of it is the
separate outcome `Res.outOfFuel`.
-/

namespace RbSpec

/-- Outcome of running a piece of the program. -/
inductive Res (α : Type) where
  | ok (a : α) : Res α
  | nilDeref : Res α
  | outOfFuel : Res α
  deriving DecidableEq, Repr

/-- Sequencing of outcomes: the first failure wins. -/
def Res.bind {α β : Type} : Res α → (α → Res β) → Res β
  | .ok a, f => f a
  | .nilDeref, _ => .nilDeref
  | .outOfFuel, _ => .outOfFuel

instance : Monad Res where
  pure := Res.ok
  bind := Res.bind

/-- Color of a node: the constants `RED` and `BLACK` of the source. -/
inductive Color where
  | RED : Color
  | BLACK : Color
  deriving DecidableEq, Repr

open Color

/-- A pointer to a node; `none` is `nil`. -/
abbrev Ptr := Option Nat

/-- Record `RbTreeNode`: key and value are interface values (`none` is `nil`). -/
structure RbTreeNode (K V : Type) where
  Key : Option K
  Value : Option V
  color : Color
  left : Ptr
  right : Ptr
  parent : Ptr
  deriving DecidableEq, Repr

/-- Record `RbTree` together with the store its pointers point into; `next` is
the first address never handed out by an allocation. -/
structure RbTree (K V : Type) where
  null : Ptr
  root : Ptr
  count : Int
  mem : Nat → RbTreeNode K V
  next : Nat

variable {K V : Type}

namespace RbTree

/-- Dereference a pointer. -/
def node (t : RbTree K V) : Ptr → Res (RbTreeNode K V)
  | none => .nilDeref
  | some a => .ok (t.mem a)

/-- Overwrite the record a pointer points to. -/
def store (t : RbTree K V) (p : Ptr) (f : RbTreeNode K V → RbTreeNode K V) : Res (RbTree K V) :=
  match p with
  | none => .nilDeref
  | some a => .ok { t with mem := Function.update t.mem a (f (t.mem a)) }

/-- Read `p.color`. -/
def getColor (t : RbTree K V) (p : Ptr) : Res Color :=
  match p with
  | none => .nilDeref
  | some a => .ok (t.mem a).color

/-- Read `p.left`. -/
def getLeft (t : RbTree K V) (p : Ptr) : Res Ptr :=
  match p with
  | none => .nilDeref
  | some a => .ok (t.mem a).left

/-- Read `p.right`. -/
def getRight (t : RbTree K V) (p : Ptr) : Res Ptr :=
  match p with
  | none => .nilDeref
  | some a => .ok (t.mem a).right

/-- Read `p.parent`. -/
def getParent (t : RbTree K V) (p : Ptr) : Res Ptr :=
  match p with
  | none => .nilDeref
  | some a => .ok (t.mem a).parent

/-- Read `p.Key` (the interface value, possibly `nil`). -/
def getKey (t : RbTree K V) (p : Ptr) : Res (Option K) :=
  match p with
  | none => .nilDeref
  | some a => .ok (t.mem a).Key

/-- Read `p.Value`. -/
def getValue (t : RbTree K V) (p : Ptr) : Res (Option V) :=
  match p with
  | none => .nilDeref
  | some a => .ok (t.mem a).Value

/-- Read `p.Key` in order to call a method on it: a `nil` key faults. -/
def recvKey (t : RbTree K V) (p : Ptr) : Res K :=
  match p with
  | none => .nilDeref
  | some a =>
    match (t.mem a).Key with
    | none => .nilDeref
    | some k => .ok k

/-- Assignment `p.color = c`. -/
def setColor (t : RbTree K V) (p : Ptr) (c : Color) : Res (RbTree K V) :=
  t.store p (fun n => { n with color := c })

/-- Assignment `p.left = q`. -/
def setLeft (t : RbTree K V) (p q : Ptr) : Res (RbTree K V) :=
  t.store p (fun n => { n with left := q })

/-- Assignment `p.right = q`. -/
def setRight (t : RbTree K V) (p q : Ptr) : Res (RbTree K V) :=
  t.store p (fun n => { n with right := q })

/-- Assignment `p.parent = q`. -/
def setParent (t : RbTree K V) (p q : Ptr) : Res (RbTree K V) :=
  t.store p (fun n => { n with parent := q })

/-- Assignment `p.Key = k`. -/
def setKey (t : RbTree K V) (p : Ptr) (k : Option K) : Res (RbTree K V) :=
  t.store p (fun n => { n with Key := k })

/-- Assignment `p.Value = v`. -/
def setValue (t : RbTree K V) (p : Ptr) (v : Option V) : Res (RbTree K V) :=
  t.store p (fun n => { n with Value := v })

/-- Number of loop rounds granted to one call: more than the number of cells ever
allocated, hence more than the length of any chain of distinct nodes. -/
def fuel (t : RbTree K V) : Nat := t.next + 1

/-- Method `newRbTreeNode`: allocate a RED node with both children the sentinel. -/
def newRbTreeNode (t : RbTree K V) (key : K) (val : V) (parent : Ptr) : RbTree K V × Ptr :=
  ({ t with
      mem := Function.update t.mem t.next
        { Key := some key, Value := some val, color := RED,
          left := t.null, right := t.null, parent := parent }
      next := t.next + 1 },
   some t.next)

end RbTree

/-- Function `NewRbTree`: the sentinel is allocated at address `0`, BLACK, with
`nil` key, value and links; it is both `null` and `root`. -/
def NewRbTree : RbTree K V :=
  { null := some 0
    root := some 0
    count := 0
    mem := fun _ =>
      { Key := none, Value := none, color := BLACK, left := none, right := none, parent := none }
    next := 1 }

namespace RbTree

/-- Method `rbTreeLeftRotate`. -/
def rbTreeLeftRotate (t : RbTree K V) (X : Ptr) : Res (RbTree K V) := do
  let xr ← t.getRight X
  if xr = t.null then pure t
  else do
    let Y := xr
    let yl ← t.getLeft Y
    let t1 ← t.setRight X yl
    let yl1 ← t1.getLeft Y
    let t2 ← if yl1 ≠ t1.null then t1.setParent yl1 X else pure t1
    let xp ← t2.getParent X
    let t3 ← t2.setParent Y xp
    let yp ← t3.getParent Y
    let t4 ←
      if yp = t3.null then pure { t3 with root := Y }
      else do
        let ypl ← t3.getLeft yp
        if ypl = X then t3.setLeft yp Y
        else do
          let ypr ← t3.getRight yp
          if ypr = X then t3.setRight yp Y else pure t3
    let t5 ← t4.setLeft Y X
    t5.setParent X Y

/-- Method `rbTreeRightRotate`. -/
def rbTreeRightRotate (t : RbTree K V) (X : Ptr) : Res (RbTree K V) := do
  let xl ← t.getLeft X
  if xl = t.null then pure t
  else do
    let Y := xl
    let yr ← t.getRight Y
    let t1 ← t.setLeft X yr
    let xl1 ← t1.getLeft X
    let t2 ← if xl1 ≠ t1.null then t1.setParent xl1 X else pure t1
    let xp ← t2.getParent X
    let t3 ← t2.setParent Y xp
    let yp ← t3.getParent Y
    let t4 ←
      if yp = t3.null then pure { t3 with root := Y }
      else do
        let ypl ← t3.getLeft yp
        if ypl = X then t3.setLeft yp Y
        else do
          let ypr ← t3.getRight yp
          if ypr = X then t3.setRight yp Y else pure t3
    let t5 ← t4.setRight Y X
    t5.setParent X Y

/-- Method `Less` of the key interface: the strict order of the key type. -/
def Less [LinearOrder K] (a b : K) : Bool := decide (a < b)

/-- Method `Equal` of the key interface. -/
def Equal [LinearOrder K] (a b : K) : Bool := decide (a = b)

variable [LinearOrder K]

/-- Loop of `Update`. -/
def UpdateLoop (t : RbTree K V) (key : K) (val : V) : Nat → Ptr → Res (RbTree K V × Bool)
  | 0, _ => .outOfFuel
  | n + 1, curr =>
    if curr ≠ t.null then do
      let ck ← t.recvKey curr
      if Less ck key then do
        let r ← t.getRight curr
        UpdateLoop t key val n r
      else if Equal ck key then do
        let t1 ← t.setValue curr (some val)
        pure (t1, true)
      else do
        let l ← t.getLeft curr
        UpdateLoop t key val n l
    else pure (t, false)

/-- Method `Update`. -/
def Update (t : RbTree K V) (key : K) (val : V) : Res (RbTree K V × Bool) :=
  UpdateLoop t key val t.fuel t.root

/-- Descent loop of `Insert`: `none` when an equal key is met (the method
returns false there), otherwise the last node visited (`prev`). -/
def InsertLoop (t : RbTree K V) (key : K) : Nat → Ptr → Ptr → Res (Option Ptr)
  | 0, _, _ => .outOfFuel
  | n + 1, prev, curr =>
    if curr ≠ t.null then do
      let ck ← t.recvKey curr
      if Less ck key then do
        let r ← t.getRight curr
        InsertLoop t key n curr r
      else if Equal ck key then pure none
      else do
        let l ← t.getLeft curr
        InsertLoop t key n curr l
    else pure (some prev)

/-- One round of the loop of `insertFixUp` (the guard `cur.parent.color == RED`
has been passed): the new state and the new `cur`. -/
def insertFixUpBody (t : RbTree K V) (cur : Ptr) : Res (RbTree K V × Ptr) := do
  let p ← t.getParent cur
  let g ← t.getParent p
  let gl ← t.getLeft g
  if p = gl then do
    let uncle ← t.getRight g
    let uc ← t.getColor uncle
    if uc = RED then do
      let t1 ← t.setColor p BLACK
      let t2 ← t1.setColor uncle BLACK
      let p2 ← t2.getParent cur
      let g2 ← t2.getParent p2
      let t3 ← t2.setColor g2 RED
      let p3 ← t3.getParent cur
      let g3 ← t3.getParent p3
      pure (t3, g3)
    else do
      let pr ← t.getRight p
      let (t1, cur1) ←
        if cur = pr then do
          let t1 ← t.rbTreeLeftRotate p
          pure (t1, p)
        else pure (t, cur)
      let p1 ← t1.getParent cur1
      let t2 ← t1.setColor p1 BLACK
      let p2 ← t2.getParent cur1
      let g2 ← t2.getParent p2
      let t3 ← t2.setColor g2 RED
      let p3 ← t3.getParent cur1
      let g3 ← t3.getParent p3
      let t4 ← t3.rbTreeRightRotate g3
      pure (t4, cur1)
  else do
    let uncle ← t.getLeft g
    let uc ← t.getColor uncle
    if uc = RED then do
      let t1 ← t.setColor p BLACK
      let t2 ← t1.setColor uncle BLACK
      let p2 ← t2.getParent cur
      let g2 ← t2.getParent p2
      let t3 ← t2.setColor g2 RED
      let p3 ← t3.getParent cur
      let g3 ← t3.getParent p3
      pure (t3, g3)
    else do
      let pl ← t.getLeft p
      let (t1, cur1) ←
        if cur = pl then do
          let t1 ← t.rbTreeRightRotate p
          pure (t1, p)
        else pure (t, cur)
      let p1 ← t1.getParent cur1
      let t2 ← t1.setColor p1 BLACK
      let p2 ← t2.getParent cur1
      let g2 ← t2.getParent p2
      let t3 ← t2.setColor g2 RED
      let p3 ← t3.getParent cur1
      let g3 ← t3.getParent p3
      let t4 ← t3.rbTreeLeftRotate g3
      pure (t4, cur1)

/-- Loop of `insertFixUp`: `for cur.parent.color == RED`. -/
def insertFixUpLoop : Nat → RbTree K V → Ptr → Res (RbTree K V)
  | 0, _, _ => .outOfFuel
  | n + 1, t, cur => do
    let p ← t.getParent cur
    let pc ← t.getColor p
    if pc = RED then do
      let (t1, cur1) ← insertFixUpBody t cur
      insertFixUpLoop n t1 cur1
    else pure t

/-- Method `insertFixUp`: the loop, then `t.root.color = BLACK`. -/
def insertFixUp (t : RbTree K V) (newNode : Ptr) : Res (RbTree K V) := do
  let t1 ← insertFixUpLoop t.fuel t newNode
  t1.setColor t1.root BLACK

/-- Method `Insert`. -/
def Insert (t : RbTree K V) (key : K) (val : V) : Res (RbTree K V × Bool) := do
  let found ← InsertLoop t key t.fuel t.null t.root
  match found with
  | none => pure (t, false)
  | some prev =>
    let (t1, newNode) := t.newRbTreeNode key val prev
    let t2 ←
      if prev = t1.null then pure { t1 with root := newNode }
      else do
        let pk ← t1.recvKey prev
        let nk ← t1.recvKey newNode
        if Less pk nk then t1.setRight prev newNode
        else t1.setLeft prev newNode
    let t3 := { t2 with count := t2.count + 1 }
    let t4 ← insertFixUp t3 newNode
    pure (t4, true)

/-- Loop of `Get`. -/
def GetLoop (t : RbTree K V) (key : K) : Nat → Ptr → Res (Option V × Bool)
  | 0, _ => .outOfFuel
  | n + 1, curr =>
    if curr ≠ t.null then do
      let ck ← t.recvKey curr
      if Less ck key then do
        let l ← t.getLeft curr
        GetLoop t key n l
      else if Equal ck key then do
        let v ← t.getValue curr
        pure (v, true)
      else do
        let r ← t.getRight curr
        GetLoop t key n r
    else pure (none, false)

/-- Method `Get`. -/
def Get (t : RbTree K V) (key : K) : Res (Option V × Bool) :=
  GetLoop t key t.fuel t.root

/-- Loop of `min`: `for cur.left != t.null`. -/
def minLoop (t : RbTree K V) : Nat → Ptr → Res Ptr
  | 0, _ => .outOfFuel
  | n + 1, cur => do
    let l ← t.getLeft cur
    if l ≠ t.null then minLoop t n l else pure cur

/-- Method `min`: note the assignment `cur = t.root` before the loop. -/
def min (t : RbTree K V) (cur : Ptr) : Res Ptr :=
  if cur = t.null then pure t.null
  else minLoop t t.fuel t.root

/-- Method `Min`. -/
def Min (t : RbTree K V) : Res Ptr := t.min t.root

/-- Loop of `max`: `for cur.right != t.null`. -/
def maxLoop (t : RbTree K V) : Nat → Ptr → Res Ptr
  | 0, _ => .outOfFuel
  | n + 1, cur => do
    let r ← t.getRight cur
    if r ≠ t.null then maxLoop t n r else pure cur

/-- Method `max`: note the assignment `cur = t.root` before the loop. -/
def max (t : RbTree K V) (cur : Ptr) : Res Ptr :=
  if cur = t.null then pure t.null
  else maxLoop t t.fuel t.root

/-- Method `Max`. -/
def Max (t : RbTree K V) : Res Ptr := t.max t.root

/-- Loop of `successor`: `for y != t.null && x == y.right`. -/
def successorLoop (t : RbTree K V) : Nat → Ptr → Ptr → Res Ptr
  | 0, _, _ => .outOfFuel
  | n + 1, x, y =>
    if y ≠ t.null then do
      let yr ← t.getRight y
      if x = yr then do
        let yp ← t.getParent y
        successorLoop t n y yp
      else pure y
    else pure y

/-- Method `successor`. -/
def successor (t : RbTree K V) (x : Ptr) : Res Ptr :=
  if x = t.null then pure t.null
  else do
    let xr ← t.getRight x
    if xr ≠ t.null then t.min xr
    else do
      let y ← t.getParent x
      successorLoop t t.fuel x y

/-- Descent loop of `Delete`: the node holding an equal key, or the sentinel. -/
def DeleteLoop (t : RbTree K V) (key : K) : Nat → Ptr → Res Ptr
  | 0, _ => .outOfFuel
  | n + 1, curr =>
    if curr ≠ t.null then do
      let ck ← t.recvKey curr
      if Less ck key then do
        let r ← t.getRight curr
        DeleteLoop t key n r
      else if Equal ck key then pure curr
      else do
        let l ← t.getLeft curr
        DeleteLoop t key n l
    else pure curr

/-- In the branch `x == x.parent.left` of one round of `deleteFixUp`: the block
`if w.color == RED { ... }`; returns the state and `w`. -/
def deleteFixUpLeftRed (t : RbTree K V) (x w : Ptr) : Res (RbTree K V × Ptr) := do
  let wc ← t.getColor w
  if wc = RED then do
    let t1 ← t.setColor w BLACK
    let xp1 ← t1.getParent x
    let t2 ← t1.setColor xp1 RED
    let xp2 ← t2.getParent x
    let t3 ← t2.rbTreeLeftRotate xp2
    let xp3 ← t3.getParent x
    let w3 ← t3.getRight xp3
    pure (t3, w3)
  else pure (t, w)

/-- In the branch `x == x.parent.left`: the statement
`if w.left.color == BLACK && w.right.color == BLACK { ... } else { ... }`;
returns the state and the new `x`. -/
def deleteFixUpLeftBlack (t : RbTree K V) (x w : Ptr) : Res (RbTree K V × Ptr) := do
  let wl ← t.getLeft w
  let wlc ← t.getColor wl
  let bothBlack ←
    if wlc = BLACK then do
      let wr ← t.getRight w
      let wrc ← t.getColor wr
      pure (decide (wrc = BLACK))
    else pure false
  if bothBlack then do
    let t3 ← t.setColor w RED
    let xp3 ← t3.getParent x
    pure (t3, xp3)
  else do
    let wr ← t.getRight w
    let wrc ← t.getColor wr
    let (t4, w4) ←
      if wrc = BLACK then do
        let wl ← t.getLeft w
        let t3 ← t.setColor wl BLACK
        let t4 ← t3.setColor w RED
        let t5 ← t4.rbTreeRightRotate w
        let xp5 ← t5.getParent x
        let w5 ← t5.getRight xp5
        pure (t5, w5)
      else pure (t, w)
    let xp4 ← t4.getParent x
    let xpc ← t4.getColor xp4
    let t5 ← t4.setColor w4 xpc
    let xp5 ← t5.getParent x
    let t6 ← t5.setColor xp5 BLACK
    let wr6 ← t6.getRight w4
    let t7 ← t6.setColor wr6 BLACK
    let xp7 ← t7.getParent x
    let t8 ← t7.rbTreeLeftRotate xp7
    pure (t8, t8.root)

/-- The branch `x == x.parent.left` of one round of `deleteFixUp`. -/
def deleteFixUpLeft (t : RbTree K V) (x : Ptr) : Res (RbTree K V × Ptr) := do
  let xp ← t.getParent x
  let w ← t.getRight xp
  let (t2, w2) ← deleteFixUpLeftRed t x w
  deleteFixUpLeftBlack t2 x w2

/-- In the `else` branch of one round of `deleteFixUp`: the block
`if w.color == RED { ... }`; returns the state and `w`. -/
def deleteFixUpRightRed (t : RbTree K V) (x w : Ptr) : Res (RbTree K V × Ptr) := do
  let wc ← t.getColor w
  if wc = RED then do
    let t1 ← t.setColor w BLACK
    let xp1 ← t1.getParent x
    let t2 ← t1.setColor xp1 RED
    let xp2 ← t2.getParent x
    let t3 ← t2.rbTreeRightRotate xp2
    let xp3 ← t3.getParent x
    let w3 ← t3.getLeft xp3
    pure (t3, w3)
  else pure (t, w)

/-- In the `else` branch: the statement
`if w.left.color == BLACK && w.right.color == BLACK { ... } else { ... }`;
returns the state and the new `x`. -/
def deleteFixUpRightBlack (t : RbTree K V) (x w : Ptr) : Res (RbTree K V × Ptr) := do
  let wl ← t.getLeft w
  let wlc ← t.getColor wl
  let bothBlack ←
    if wlc = BLACK then do
      let wr ← t.getRight w
      let wrc ← t.getColor wr
      pure (decide (wrc = BLACK))
    else pure false
  if bothBlack then do
    let t3 ← t.setColor w RED
    let xp3 ← t3.getParent x
    pure (t3, xp3)
  else do
    let wl ← t.getLeft w
    let wlc ← t.getColor wl
    let (t4, w4) ←
      if wlc = BLACK then do
        let wr ← t.getRight w
        let t3 ← t.setColor wr BLACK
        let t4 ← t3.setColor w RED
        let t5 ← t4.rbTreeLeftRotate w
        let xp5 ← t5.getParent x
        let w5 ← t5.getLeft xp5
        pure (t5, w5)
      else pure (t, w)
    let xp4 ← t4.getParent x
    let xpc ← t4.getColor xp4
    let t5 ← t4.setColor w4 xpc
    let xp5 ← t5.getParent x
    let t6 ← t5.setColor xp5 BLACK
    let wl6 ← t6.getLeft w4
    let t7 ← t6.setColor wl6 BLACK
    let xp7 ← t7.getParent x
    let t8 ← t7.rbTreeRightRotate xp7
    pure (t8, t8.root)

/-- The `else` branch of one round of `deleteFixUp` (left and right switched). -/
def deleteFixUpRight (t : RbTree K V) (x : Ptr) : Res (RbTree K V × Ptr) := do
  let xp ← t.getParent x
  let w ← t.getLeft xp
  let (t2, w2) ← deleteFixUpRightRed t x w
  deleteFixUpRightBlack t2 x w2

/-- Loop of `deleteFixUp`: `for x != t.root && x.color == BLACK`; returns the
state and the final `x`. -/
def deleteFixUpLoop : Nat → RbTree K V → Ptr → Res (RbTree K V × Ptr)
  | 0, _, _ => .outOfFuel
  | n + 1, t, x =>
    if x ≠ t.root then do
      let xc ← t.getColor x
      if xc = BLACK then do
        let xp ← t.getParent x
        let xpl ← t.getLeft xp
        let (t1, x1) ← if x = xpl then deleteFixUpLeft t x else deleteFixUpRight t x
        deleteFixUpLoop n t1 x1
      else pure (t, x)
    else pure (t, x)

/-- Method `deleteFixUp`: the loop, then `x.color = BLACK`. -/
def deleteFixUp (t : RbTree K V) (x : Ptr) : Res (RbTree K V) := do
  let (t1, x1) ← deleteFixUpLoop t.fuel t x
  t1.setColor x1 BLACK

/-- The statements of `Delete` from `if y.left != t.null` to the relinking of the
parent of `y`: the child `x` of `y` takes the place of `y`.  Returns the state
and `x`. -/
def deleteSplice (t : RbTree K V) (y : Ptr) : Res (RbTree K V × Ptr) := do
  let yl ← t.getLeft y
  let x ← if yl ≠ t.null then pure yl else t.getRight y
  let yp ← t.getParent y
  let t1 ← t.setParent x yp
  let yp1 ← t1.getParent y
  let t2 ←
    if yp1 = t1.null then pure { t1 with root := x }
    else do
      let ypl ← t1.getLeft yp1
      if y = ypl then t1.setLeft yp1 x
      else t1.setRight yp1 x
  pure (t2, x)

/-- The statements of `Delete` after the choice of `y` and before `t.count--`:
`y` is unlinked, `curr` takes the key of `y` when they differ, and
`deleteFixUp(x)` runs when `y` was BLACK. -/
def deleteUnlink (t : RbTree K V) (curr y : Ptr) : Res (RbTree K V) := do
  let (t2, x) ← t.deleteSplice y
  let t3 ←
    if y ≠ curr then do
      let yk ← t2.getKey y
      t2.setKey curr yk
    else pure t2
  let yc ← t3.getColor y
  if yc = BLACK then deleteFixUp t3 x else pure t3

/-- Method `Delete`.  The receipt `ret` is a fresh record reachable from nothing
in the tree; it is returned by value (`none` is the `nil` result). -/
def Delete (t : RbTree K V) (key : K) : Res (RbTree K V × Option (RbTreeNode K V)) := do
  let curr ← DeleteLoop t key t.fuel t.root
  if curr = t.null then pure (t, none)
  else do
    let ck ← t.getKey curr
    let cv ← t.getValue curr
    let cc ← t.getColor curr
    let ret : RbTreeNode K V :=
      { Key := ck, Value := cv, color := cc, left := t.null, right := t.null, parent := t.null }
    let cl ← t.getLeft curr
    let cr ← t.getRight curr
    let y ← if cl = t.null ∨ cr = t.null then pure curr else t.successor curr
    let t4 ← t.deleteUnlink curr y
    pure ({ t4 with count := t4.count - 1 }, some ret)

/-- The closure `dfs` of `Range`; the calls of `f` are recorded as the list of
the pairs it is called with. -/
def dfs (t : RbTree K V) : Nat → Ptr → Res (List (Option K × Option V))
  | 0, _ => .outOfFuel
  | n + 1, cur =>
    if cur = t.null then pure []
    else do
      let l ← t.getLeft cur
      let ls ← dfs t n l
      let k ← t.getKey cur
      let v ← t.getValue cur
      let r ← t.getRight cur
      let rs ← dfs t n r
      pure (ls ++ (k, v) :: rs)

/-- Method `Range`: the sequence of `(key, val)` pairs the callback receives. -/
def Range (t : RbTree K V) : Res (List (Option K × Option V)) :=
  dfs t t.fuel t.root

/-- Method `Size`. -/
def Size (t : RbTree K V) : Int := t.count

end RbTree

end RbSpec

namespace RbSpec

open Color

variable {K V : Type}

/-! ## The tree a store holds

`Tree` is the shape of the nodes reachable from a pointer through `left` and
`right`: every real node with its color, its address, its key and its value;
`leaf` stands for a link to the sentinel. -/

/-- Binary tree of the real nodes below a link. -/
inductive Tree (K V : Type) where
  | leaf : Tree K V
  | node (c : Color) (l : Tree K V) (a : Nat) (k : K) (v : V) (r : Tree K V) : Tree K V
  deriving DecidableEq, Repr

namespace Tree

/-- Color of the node a link points to; the sentinel counts as BLACK. -/
def color : Tree K V → Color
  | leaf => BLACK
  | node c _ _ _ _ _ => c

/-- Address a link points to; the sentinel is at address `0`. -/
def ptr : Tree K V → Nat
  | leaf => 0
  | node _ _ a _ _ _ => a

/-- Addresses of the real nodes, in order. -/
def addrs : Tree K V → List Nat
  | leaf => []
  | node _ l a _ _ r => l.addrs ++ a :: r.addrs

/-- In-order sequence of the entries. -/
def toList : Tree K V → List (K × V)
  | leaf => []
  | node _ l _ k v r => l.toList ++ (k, v) :: r.toList

/-- In-order sequence of the keys. -/
def keys (T : Tree K V) : List K := T.toList.map Prod.fst

/-- Number of nodes on the longest path down to a sentinel link. -/
def height : Tree K V → Nat
  | leaf => 0
  | node _ l _ _ _ r => Nat.max l.height r.height + 1

/-- One if the color is BLACK, else zero. -/
def blk (c : Color) : Nat := if c = BLACK then 1 else 0

/-- For every path from the root down to a sentinel link, the number of BLACK
nodes on it. -/
def pathBlacks : Tree K V → List Nat
  | leaf => [0]
  | node c l _ _ _ r => (l.pathBlacks ++ r.pathBlacks).map (fun n => n + blk c)

/-- No RED node has a RED child. -/
def noRedRed : Tree K V → Prop
  | leaf => True
  | node c l _ _ _ r =>
    (c = RED → l.color = BLACK ∧ r.color = BLACK) ∧ l.noRedRed ∧ r.noRedRed

/-- Every path from the root to a sentinel link passes through the same number of
BLACK nodes. -/
def pathsEqual (T : Tree K V) : Prop :=
  ∀ n ∈ T.pathBlacks, ∀ m ∈ T.pathBlacks, n = m

/-- Number of BLACK nodes on the leftmost path. -/
def bh : Tree K V → Nat
  | leaf => 0
  | node c l _ _ _ _ => l.bh + blk c

/-- At every node both subtrees have the same black height. -/
def balanced : Tree K V → Prop
  | leaf => True
  | node _ l _ _ _ r => l.balanced ∧ r.balanced ∧ l.bh = r.bh

/-- The record a real node must hold in the store, given the address of its parent. -/
def cell (c : Color) (l : Tree K V) (k : K) (v : V) (r : Tree K V) (par : Nat) :
    RbTreeNode K V :=
  { Key := some k, Value := some v, color := c,
    left := some l.ptr, right := some r.ptr, parent := some par }

/-- All the records of a tree whose root has its parent at address `par`. -/
def cells : Tree K V → Nat → List (Nat × RbTreeNode K V)
  | leaf, _ => []
  | node c l a k v r, par => l.cells a ++ (a, cell c l k v r par) :: r.cells a

end Tree

namespace RbTree

/-- Read back the tree below a pointer by following `left` and `right` until the
sentinel; the traversal faults on a `nil` link, key or value. -/
def viewFrom (t : RbTree K V) : Nat → Ptr → Res (Tree K V)
  | 0, _ => .outOfFuel
  | n + 1, cur =>
    if cur = t.null then pure Tree.leaf
    else
      match cur with
      | none => .nilDeref
      | some a =>
        match (t.mem a).Key, (t.mem a).Value with
        | some k, some v => do
          let l ← viewFrom t n (t.mem a).left
          let r ← viewFrom t n (t.mem a).right
          pure (Tree.node (t.mem a).color l a k v r)
        | _, _ => .nilDeref

/-- The tree below the root. -/
def view (t : RbTree K V) : Res (Tree K V) := t.viewFrom t.fuel t.root

end RbTree

/-- The store of `t` holds exactly the tree `T` below its root: every node of `T`
has its record at its address (with the parent link of its parent's address, the
sentinel's for the root), addresses are distinct, allocated and not the
sentinel's, the sentinel is BLACK with `nil` children, and `count` is the number
of nodes plus `d` (`d` is zero between the calls of the public methods, and one
inside `Delete` between the unlinking of a node and `t.count--`). -/
structure Shape (d : Int) (t : RbTree K V) (T : Tree K V) : Prop where
  null_eq : t.null = some 0
  root_eq : t.root = some T.ptr
  cells : ∀ c ∈ T.cells 0, t.mem c.1 = c.2
  nodup : T.addrs.Nodup
  pos : ∀ a ∈ T.addrs, 0 < a ∧ a < t.next
  nil_color : (t.mem 0).color = BLACK
  nil_left : (t.mem 0).left = none
  nil_right : (t.mem 0).right = none
  next_pos : 0 < t.next
  count_eq : t.count = T.addrs.length + d

/-! ## Basic facts -/

@[simp] theorem Res.pure_eq {α : Type} (a : α) : (pure a : Res α) = Res.ok a := rfl

@[simp] theorem Res.ok_bind {α β : Type} (a : α) (f : α → Res β) :
    (Res.ok a >>= f) = f a := rfl

@[simp] theorem Res.nilDeref_bind {α β : Type} (f : α → Res β) :
    ((Res.nilDeref : Res α) >>= f) = Res.nilDeref := rfl

@[simp] theorem Res.outOfFuel_bind {α β : Type} (f : α → Res β) :
    ((Res.outOfFuel : Res α) >>= f) = Res.outOfFuel := rfl

namespace Tree

@[simp] theorem ptr_leaf : (leaf : Tree K V).ptr = 0 := rfl

@[simp] theorem ptr_node (c : Color) (l : Tree K V) (a : Nat) (k : K) (v : V) (r : Tree K V) :
    (node c l a k v r).ptr = a := rfl

@[simp] theorem color_leaf : (leaf : Tree K V).color = BLACK := rfl

@[simp] theorem color_node (c : Color) (l : Tree K V) (a : Nat) (k : K) (v : V)
    (r : Tree K V) : (node c l a k v r).color = c := rfl

theorem cells_fst (T : Tree K V) : ∀ par, (T.cells par).map Prod.fst = T.addrs := by
  induction T with
  | leaf => intro par; rfl
  | node c l a k v r ihl ihr =>
    intro par
    simp [cells, addrs, ihl, ihr]

theorem mem_cells_addr {T : Tree K V} {par : Nat} {c : Nat × RbTreeNode K V}
    (h : c ∈ T.cells par) : c.1 ∈ T.addrs := by
  rw [← cells_fst T par]
  exact List.mem_map_of_mem _ h

theorem height_le_length (T : Tree K V) : T.height ≤ T.addrs.length := by
  induction T with
  | leaf => simp [height, addrs]
  | node c l a k v r ihl ihr =>
    simp only [height, addrs, List.length_append, List.length_cons]
    have : Nat.max l.height r.height ≤ l.addrs.length + r.addrs.length := by
      apply Nat.max_le.2
      constructor <;> omega
    omega

theorem ptr_eq_zero_of_pos {T : Tree K V} (hp : ∀ a ∈ T.addrs, 0 < a) (h0 : T.ptr = 0) :
    T = leaf := by
  cases T with
  | leaf => rfl
  | node c l a k v r =>
    exfalso
    have := hp a (by simp [addrs])
    simp at h0
    omega

theorem ptr_mem_addrs {c : Color} {l r : Tree K V} {a : Nat} {k : K} {v : V} :
    (node c l a k v r).ptr ∈ (node c l a k v r).addrs := by
  simp [addrs]

end Tree

/-- A duplicate-free list of numbers below `n` and above zero is shorter than `n`. -/
theorem length_lt_of_nodup_pos {l : List Nat} {n : Nat} (hn : l.Nodup)
    (hp : ∀ a ∈ l, 0 < a ∧ a < n) : l.length + 1 ≤ n ∨ (l = [] ∧ n = 0) := by
  by_cases h0 : n = 0
  · right
    refine ⟨?_, h0⟩
    cases l with
    | nil => rfl
    | cons a l => have := hp a (by simp); omega
  · left
    have hsub : l.toFinset ⊆ (Finset.range n).erase 0 := by
      intro a ha
      have := hp a (List.mem_toFinset.1 ha)
      simp only [Finset.mem_erase, Finset.mem_range]
      omega
    have hc := Finset.card_le_card hsub
    rw [List.toFinset_card_of_nodup hn, Finset.card_erase_of_mem (by simp; omega)] at hc
    simp at hc
    omega

end RbSpec

namespace RbSpec

open Color Tree

variable {K V : Type}

variable {d : Int}

/-! ## Trees with a focus

A position in a tree is given by the frames above it, innermost first.  The
loops of the program that walk up through `parent` links are followed on this
decomposition. -/

/-- One step of the path above a focus: the node there and its other subtree. -/
inductive Frame (K V : Type) where
  | L (c : Color) (a : Nat) (k : K) (v : V) (r : Tree K V) : Frame K V
  | R (c : Color) (l : Tree K V) (a : Nat) (k : K) (v : V) : Frame K V

namespace Frame

/-- Put a subtree into the hole of a frame. -/
def fill : Frame K V → Tree K V → Tree K V
  | L c a k v r, s => node c s a k v r
  | R c l a k v, s => node c l a k v s

/-- Address of the node of a frame. -/
def ptr : Frame K V → Nat
  | L _ a _ _ _ => a
  | R _ _ a _ _ => a

/-- Color of the node of a frame. -/
def color : Frame K V → Color
  | L c _ _ _ _ => c
  | R c _ _ _ _ => c

/-- The subtree on the other side of the hole. -/
def sib : Frame K V → Tree K V
  | L _ _ _ _ r => r
  | R _ l _ _ _ => l

/-- The record of the node of a frame when the hole holds a link to `q` and the
parent is at `par`. -/
def cell : Frame K V → Nat → Nat → RbTreeNode K V
  | L c _ k v r, q, par =>
    { Key := some k, Value := some v, color := c,
      left := some q, right := some r.ptr, parent := some par }
  | R c l _ k v, q, par =>
    { Key := some k, Value := some v, color := c,
      left := some l.ptr, right := some q, parent := some par }

end Frame

/-- Rebuild the whole tree from a focus and the frames above it. -/
def plug : List (Frame K V) → Tree K V → Tree K V
  | [], s => s
  | f :: fs, s => plug fs (f.fill s)

/-- Address of the parent of the focus (the sentinel's when there is none). -/
def ctxPtr : List (Frame K V) → Nat
  | [] => 0
  | f :: _ => f.ptr

/-- Color of the parent of the focus (BLACK when there is none). -/
def ctxColor : List (Frame K V) → Color
  | [] => BLACK
  | f :: _ => f.color

/-- Address of the root given the address in the hole. -/
def ctxRoot : List (Frame K V) → Nat → Nat
  | [], q => q
  | f :: fs, _ => ctxRoot fs f.ptr

/-- Addresses of the nodes outside the focus. -/
def ctxAddrs : List (Frame K V) → List Nat
  | [] => []
  | f :: fs => f.ptr :: (f.sib.addrs ++ ctxAddrs fs)

/-- Records of the nodes outside the focus, given the address in the hole. -/
def ctxCells : List (Frame K V) → Nat → List (Nat × RbTreeNode K V)
  | [], _ => []
  | f :: fs, q => (f.ptr, f.cell q (ctxPtr fs)) :: (f.sib.cells f.ptr ++ ctxCells fs f.ptr)

namespace Frame

variable (c : Color) (a : Nat) (k : K) (v : V) (l r s : Tree K V)

@[simp] theorem ptr_L : (L c a k v r).ptr = a := rfl

@[simp] theorem ptr_R : (R c l a k v).ptr = a := rfl

@[simp] theorem color_L : (L c a k v r).color = c := rfl

@[simp] theorem color_R : (R c l a k v).color = c := rfl

@[simp] theorem sib_L : (L c a k v r).sib = r := rfl

@[simp] theorem sib_R : (R c l a k v).sib = l := rfl

@[simp] theorem fill_L : (L c a k v r).fill s = node c s a k v r := rfl

@[simp] theorem fill_R : (R c l a k v).fill s = node c l a k v s := rfl

end Frame

@[simp] theorem ctxPtr_nil : ctxPtr ([] : List (Frame K V)) = 0 := rfl

@[simp] theorem ctxPtr_cons (f : Frame K V) (fs : List (Frame K V)) :
    ctxPtr (f :: fs) = f.ptr := rfl

@[simp] theorem ctxColor_nil : ctxColor ([] : List (Frame K V)) = BLACK := rfl

@[simp] theorem ctxColor_cons (f : Frame K V) (fs : List (Frame K V)) :
    ctxColor (f :: fs) = f.color := rfl

@[simp] theorem plug_nil (s : Tree K V) : plug [] s = s := rfl

theorem plug_cons (f : Frame K V) (fs : List (Frame K V)) (s : Tree K V) :
    plug (f :: fs) s = plug fs (f.fill s) := rfl

@[simp] theorem Frame.fill_ptr (f : Frame K V) (s : Tree K V) : (f.fill s).ptr = f.ptr := by
  cases f <;> rfl

theorem ptr_plug (fs : List (Frame K V)) (s : Tree K V) :
    (plug fs s).ptr = ctxRoot fs s.ptr := by
  induction fs generalizing s with
  | nil => rfl
  | cons f fs ih => simp [plug, ctxRoot, ih]

theorem Frame.addrs_fill (f : Frame K V) (s : Tree K V) :
    (f.fill s).addrs.Perm (s.addrs ++ f.ptr :: f.sib.addrs) := by
  cases f with
  | L c a k v r => simp [Frame.fill, Tree.addrs, Frame.ptr, Frame.sib]
  | R c l a k v =>
    simp only [Frame.fill, Tree.addrs, Frame.ptr, Frame.sib]
    have h1 : (l.addrs ++ a :: s.addrs).Perm ((a :: s.addrs) ++ l.addrs) := List.perm_append_comm
    refine h1.trans ?_
    simp only [List.cons_append]
    have h2 : (a :: (s.addrs ++ l.addrs)).Perm (s.addrs ++ a :: l.addrs) :=
      (List.perm_middle).symm
    exact h2

theorem addrs_plug (fs : List (Frame K V)) (s : Tree K V) :
    (plug fs s).addrs.Perm (s.addrs ++ ctxAddrs fs) := by
  induction fs generalizing s with
  | nil => simp [plug, ctxAddrs]
  | cons f fs ih =>
    simp only [plug, ctxAddrs]
    refine (ih (f.fill s)).trans ?_
    have h1 := (Frame.addrs_fill f s).append_right (ctxAddrs fs)
    refine h1.trans ?_
    simp [List.append_assoc]

theorem Frame.mem_cells_fill (f : Frame K V) (s : Tree K V) (par : Nat)
    (c : Nat × RbTreeNode K V) :
    c ∈ (f.fill s).cells par ↔
      c ∈ s.cells f.ptr ∨ c = (f.ptr, f.cell s.ptr par) ∨ c ∈ f.sib.cells f.ptr := by
  cases f with
  | L c0 a k v r =>
    simp [Frame.fill, Tree.cells, Frame.ptr, Frame.sib, Frame.cell, Tree.cell]
  | R c0 l a k v =>
    simp only [Frame.fill, Tree.cells, Frame.ptr, Frame.sib, Frame.cell, Tree.cell,
      List.mem_append, List.mem_cons]
    tauto

theorem mem_cells_plug (fs : List (Frame K V)) (s : Tree K V) (c : Nat × RbTreeNode K V) :
    c ∈ (plug fs s).cells 0 ↔ c ∈ s.cells (ctxPtr fs) ∨ c ∈ ctxCells fs s.ptr := by
  induction fs generalizing s with
  | nil => simp [plug, ctxCells, ctxPtr]
  | cons f fs ih =>
    simp only [plug, ih, Frame.mem_cells_fill, ctxCells, ctxPtr, Frame.fill_ptr,
      List.mem_cons, List.mem_append]
    tauto

theorem mem_ctxCells_addr {fs : List (Frame K V)} {q : Nat} {c : Nat × RbTreeNode K V}
    (h : c ∈ ctxCells fs q) : c.1 ∈ ctxAddrs fs := by
  induction fs generalizing q with
  | nil => simp [ctxCells] at h
  | cons f fs ih =>
    simp only [ctxCells, List.mem_cons, List.mem_append] at h
    simp only [ctxAddrs, List.mem_cons, List.mem_append]
    rcases h with h | h | h
    · left; rw [h]
    · right; left; exact Tree.mem_cells_addr h
    · right; right; exact ih h

namespace Shape

variable {t : RbTree K V} {fs : List (Frame K V)} {s : Tree K V}

theorem focus_cells (h : Shape d t (plug fs s)) :
    ∀ c ∈ s.cells (ctxPtr fs), t.mem c.1 = c.2 :=
  fun c hc => h.cells c ((mem_cells_plug fs s c).2 (Or.inl hc))

theorem ctx_cells (h : Shape d t (plug fs s)) :
    ∀ c ∈ ctxCells fs s.ptr, t.mem c.1 = c.2 :=
  fun c hc => h.cells c ((mem_cells_plug fs s c).2 (Or.inr hc))

theorem nodup_plug (h : Shape d t (plug fs s)) : (s.addrs ++ ctxAddrs fs).Nodup :=
  (addrs_plug fs s).nodup_iff.1 h.nodup

theorem pos_plug (h : Shape d t (plug fs s)) :
    ∀ a ∈ s.addrs ++ ctxAddrs fs, 0 < a ∧ a < t.next :=
  fun a ha => h.pos a ((addrs_plug fs s).mem_iff.2 ha)

theorem root_plug (h : Shape d t (plug fs s)) : t.root = some (ctxRoot fs s.ptr) := by
  rw [h.root_eq, ptr_plug]

/-- The record at the root of the focus. -/
theorem mem_focus {c : Color} {l r : Tree K V} {a : Nat} {k : K} {v : V}
    (h : Shape d t (plug fs (node c l a k v r))) :
    t.mem a = Tree.cell c l k v r (ctxPtr fs) := by
  have := h.focus_cells (a, Tree.cell c l k v r (ctxPtr fs)) (by simp [Tree.cells])
  exact this

/-- Build a shape for a tree given as a focus below frames. -/
theorem mk_plug {t1 : RbTree K V} {s1 : Tree K V}
    (hnull : t1.null = some 0)
    (hroot : t1.root = some (ctxRoot fs s1.ptr))
    (hfocus : ∀ c ∈ s1.cells (ctxPtr fs), t1.mem c.1 = c.2)
    (hctx : ∀ c ∈ ctxCells fs s1.ptr, t1.mem c.1 = c.2)
    (hnodup : (s1.addrs ++ ctxAddrs fs).Nodup)
    (hpos : ∀ a ∈ s1.addrs ++ ctxAddrs fs, 0 < a ∧ a < t1.next)
    (hcol : (t1.mem 0).color = BLACK) (hleft : (t1.mem 0).left = none)
    (hright : (t1.mem 0).right = none) (hnext : 0 < t1.next)
    (hcount : t1.count = (s1.addrs ++ ctxAddrs fs).length + d) :
    Shape d t1 (plug fs s1) where
  null_eq := hnull
  root_eq := by rw [hroot, ptr_plug]
  cells := fun c hc => by
    rcases (mem_cells_plug fs s1 c).1 hc with h | h
    · exact hfocus c h
    · exact hctx c h
  nodup := (addrs_plug fs s1).nodup_iff.2 hnodup
  pos := fun a ha => hpos a ((addrs_plug fs s1).mem_iff.1 ha)
  nil_color := hcol
  nil_left := hleft
  nil_right := hright
  next_pos := hnext
  count_eq := by rw [hcount, (addrs_plug fs s1).length_eq]

/-- Replace the focus by a tree on the same addresses with the same root, the
store being changed only at addresses of the focus (and possibly in the parent
field of the sentinel). -/
theorem replace {t1 : RbTree K V} {s1 : Tree K V} (h : Shape d t (plug fs s))
    (hptr : s1.ptr = s.ptr) (hperm : s1.addrs.Perm s.addrs)
    (hnull : t1.null = t.null) (hroot : t1.root = t.root) (hnext : t1.next = t.next)
    (hcount : t1.count = t.count)
    (hframe : ∀ a, a ∉ s.addrs → 0 < a → t1.mem a = t.mem a)
    (hcol : (t1.mem 0).color = BLACK) (hleft : (t1.mem 0).left = none)
    (hright : (t1.mem 0).right = none)
    (hfocus : ∀ c ∈ s1.cells (ctxPtr fs), t1.mem c.1 = c.2) :
    Shape d t1 (plug fs s1) := by
  have hnd := h.nodup_plug
  have hpp := h.pos_plug
  have hp2 : (s1.addrs ++ ctxAddrs fs).Perm (s.addrs ++ ctxAddrs fs) :=
    hperm.append_right _
  refine mk_plug (hnull.trans h.null_eq) ?_ hfocus ?_ (hp2.nodup_iff.2 hnd) ?_ hcol hleft
    hright (hnext ▸ h.next_pos) ?_
  · rw [hroot, h.root_plug, hptr]
  · intro c hc
    rw [hptr] at hc
    have hin := mem_ctxCells_addr hc
    have hnot : c.1 ∉ s.addrs := fun hm =>
      (List.nodup_append.1 hnd).2.2 hm hin
    have hpos := (hpp c.1 (List.mem_append_right _ hin)).1
    rw [hframe c.1 hnot hpos]
    exact h.ctx_cells c hc
  · intro a ha
    rw [hnext]
    exact hpp a (hp2.mem_iff.1 ha)
  · rw [hcount, h.count_eq, (addrs_plug fs s).length_eq, hp2.length_eq]

end Shape

end RbSpec

namespace RbSpec

open Color Tree

variable {K V : Type}

/-! ## Rotations on the store -/

namespace RbTree

theorem rbTreeLeftRotate_raw (t : RbTree K V) (x y bp P : Nat)
    (hnull : t.null = some 0)
    (hxr : (t.mem x).right = some y) (hyl : (t.mem y).left = some bp)
    (hxp : (t.mem x).parent = some P)
    (hy0 : y ≠ 0) (hxy : x ≠ y) (hbx : bp ≠ x) (hby : bp ≠ y)
    (hPx : P ≠ x) (hPy : P ≠ y) (hPb : P ≠ bp ∨ P = 0)
    (hP : P ≠ 0 → (t.mem P).left = some x ∨
      ((t.mem P).left ≠ some x ∧ (t.mem P).right = some x)) :
    ∃ t1, t.rbTreeLeftRotate (some x) = .ok t1 ∧
      t1.null = t.null ∧ t1.next = t.next ∧ t1.count = t.count ∧
      t1.root = (if P = 0 then some y else t.root) ∧
      t1.mem x = { t.mem x with right := some bp, parent := some y } ∧
      t1.mem y = { t.mem y with left := some x, parent := some P } ∧
      (bp ≠ 0 → t1.mem bp = { t.mem bp with parent := some x }) ∧
      (P ≠ 0 → t1.mem P =
        if (t.mem P).left = some x then { t.mem P with left := some y }
        else { t.mem P with right := some y }) ∧
      (∀ a, a ≠ x → a ≠ y → (a ≠ bp ∨ bp = 0) → (a ≠ P ∨ P = 0) → t1.mem a = t.mem a) := by
  have hyx : y ≠ x := fun h => hxy h.symm
  have hxb : x ≠ bp := fun h => hbx h.symm
  have hyb : y ≠ bp := fun h => hby h.symm
  have hxP : x ≠ P := fun h => hPx h.symm
  have hyP : y ≠ P := fun h => hPy h.symm
  by_cases hb0 : bp = 0 <;> by_cases hP0 : P = 0
  · subst hb0; subst hP0
    simp [rbTreeLeftRotate, getRight, getLeft, getParent, setRight, setLeft, setParent, store,
      hnull, hxr, hyl, hxp, hy0, hxy, hyx, Function.update_apply]
    intro a h1 h2
    simp [h1, h2]
  · subst hb0
    have hPb1 : P ≠ 0 := hP0
    rcases hP hP0 with hl | ⟨hl, hr⟩
    · simp [rbTreeLeftRotate, getRight, getLeft, getParent, setRight, setLeft, setParent, store,
        hnull, hxr, hyl, hxp, hy0, hxy, hyx, hP0, hPx, hPy, hxP, hyP, hl, Function.update_apply]
      intro a h1 h2 h3
      simp [h1, h2, h3]
    · simp [rbTreeLeftRotate, getRight, getLeft, getParent, setRight, setLeft, setParent, store,
        hnull, hxr, hyl, hxp, hy0, hxy, hyx, hP0, hPx, hPy, hxP, hyP, hl, hr,
        Function.update_apply]
      intro a h1 h2 h3
      simp [h1, h2, h3]
  · subst hP0
    simp [rbTreeLeftRotate, getRight, getLeft, getParent, setRight, setLeft, setParent, store,
      hnull, hxr, hyl, hxp, hy0, hxy, hyx, hb0, hbx, hby, hxb, hyb, Function.update_apply]
    intro a h1 h2 h3
    simp [h1, h2, h3]
  · have hPb1 : P ≠ bp := by
      rcases hPb with h | h
      · exact h
      · exact absurd h hP0
    have hbP : bp ≠ P := fun h => hPb1 h.symm
    rcases hP hP0 with hl | ⟨hl, hr⟩
    · simp [rbTreeLeftRotate, getRight, getLeft, getParent, setRight, setLeft, setParent, store,
        hnull, hxr, hyl, hxp, hy0, hxy, hyx, hP0, hPx, hPy, hxP, hyP, hl, hb0, hbx, hby, hxb,
        hyb, hPb1, hbP, Function.update_apply]
      intro a h1 h2 h3 h4
      simp [h1, h2, h3, h4]
    · simp [rbTreeLeftRotate, getRight, getLeft, getParent, setRight, setLeft, setParent, store,
        hnull, hxr, hyl, hxp, hy0, hxy, hyx, hP0, hPx, hPy, hxP, hyP, hl, hr, hb0, hbx, hby,
        hxb, hyb, hPb1, hbP, Function.update_apply]
      intro a h1 h2 h3 h4
      simp [h1, h2, h3, h4]

theorem rbTreeRightRotate_raw (t : RbTree K V) (x y bp P : Nat)
    (hnull : t.null = some 0)
    (hxl : (t.mem x).left = some y) (hyr : (t.mem y).right = some bp)
    (hxp : (t.mem x).parent = some P)
    (hy0 : y ≠ 0) (hxy : x ≠ y) (hbx : bp ≠ x) (hby : bp ≠ y)
    (hPx : P ≠ x) (hPy : P ≠ y) (hPb : P ≠ bp ∨ P = 0)
    (hP : P ≠ 0 → (t.mem P).left = some x ∨
      ((t.mem P).left ≠ some x ∧ (t.mem P).right = some x)) :
    ∃ t1, t.rbTreeRightRotate (some x) = .ok t1 ∧
      t1.null = t.null ∧ t1.next = t.next ∧ t1.count = t.count ∧
      t1.root = (if P = 0 then some y else t.root) ∧
      t1.mem x = { t.mem x with left := some bp, parent := some y } ∧
      t1.mem y = { t.mem y with right := some x, parent := some P } ∧
      (bp ≠ 0 → t1.mem bp = { t.mem bp with parent := some x }) ∧
      (P ≠ 0 → t1.mem P =
        if (t.mem P).left = some x then { t.mem P with left := some y }
        else { t.mem P with right := some y }) ∧
      (∀ a, a ≠ x → a ≠ y → (a ≠ bp ∨ bp = 0) → (a ≠ P ∨ P = 0) → t1.mem a = t.mem a) := by
  have hyx : y ≠ x := fun h => hxy h.symm
  have hxb : x ≠ bp := fun h => hbx h.symm
  have hyb : y ≠ bp := fun h => hby h.symm
  have hxP : x ≠ P := fun h => hPx h.symm
  have hyP : y ≠ P := fun h => hPy h.symm
  by_cases hb0 : bp = 0 <;> by_cases hP0 : P = 0
  · subst hb0; subst hP0
    simp [rbTreeRightRotate, getRight, getLeft, getParent, setRight, setLeft, setParent, store,
      hnull, hxl, hyr, hxp, hy0, hxy, hyx, Function.update_apply]
    intro a h1 h2
    simp [h1, h2]
  · subst hb0
    have hPb1 : P ≠ 0 := hP0
    rcases hP hP0 with hl | ⟨hl, hr⟩
    · simp [rbTreeRightRotate, getRight, getLeft, getParent, setRight, setLeft, setParent, store,
        hnull, hxl, hyr, hxp, hy0, hxy, hyx, hP0, hPx, hPy, hxP, hyP, hl, Function.update_apply]
      intro a h1 h2 h3
      simp [h1, h2, h3]
    · simp [rbTreeRightRotate, getRight, getLeft, getParent, setRight, setLeft, setParent, store,
        hnull, hxl, hyr, hxp, hy0, hxy, hyx, hP0, hPx, hPy, hxP, hyP, hl, hr,
        Function.update_apply]
      intro a h1 h2 h3
      simp [h1, h2, h3]
  · subst hP0
    simp [rbTreeRightRotate, getRight, getLeft, getParent, setRight, setLeft, setParent, store,
      hnull, hxl, hyr, hxp, hy0, hxy, hyx, hb0, hbx, hby, hxb, hyb, Function.update_apply]
    intro a h1 h2 h3
    simp [h1, h2, h3]
  · have hPb1 : P ≠ bp := by
      rcases hPb with h | h
      · exact h
      · exact absurd h hP0
    have hbP : bp ≠ P := fun h => hPb1 h.symm
    rcases hP hP0 with hl | ⟨hl, hr⟩
    · simp [rbTreeRightRotate, getRight, getLeft, getParent, setRight, setLeft, setParent, store,
        hnull, hxl, hyr, hxp, hy0, hxy, hyx, hP0, hPx, hPy, hxP, hyP, hl, hb0, hbx, hby, hxb,
        hyb, hPb1, hbP, Function.update_apply]
      intro a h1 h2 h3 h4
      simp [h1, h2, h3, h4]
    · simp [rbTreeRightRotate, getRight, getLeft, getParent, setRight, setLeft, setParent, store,
        hnull, hxl, hyr, hxp, hy0, hxy, hyx, hP0, hPx, hPy, hxP, hyP, hl, hr, hb0, hbx, hby,
        hxb, hyb, hPb1, hbP, Function.update_apply]
      intro a h1 h2 h3 h4
      simp [h1, h2, h3, h4]

end RbTree

end RbSpec

namespace RbSpec

open Color Tree

variable {K V : Type}

variable {d : Int}

namespace Tree

theorem ptr_cases (S : Tree K V) : S = leaf ∨ S.ptr ∈ S.addrs := by
  cases S with
  | leaf => left; rfl
  | node c l a k v r => right; simp [addrs]

theorem ptr_ne_of_not_mem {S : Tree K V} {x : Nat} (hx : x ∉ S.addrs) (h0 : x ≠ 0) :
    S.ptr ≠ x := by
  rcases S.ptr_cases with h | h
  · subst h; exact fun e => h0 e.symm
  · intro e; rw [e] at h; exact hx h

/-- Records of an untouched subtree stay valid. -/
theorem cells_keep {t t1 : RbTree K V} {S : Tree K V} {par : Nat}
    (hold : ∀ c ∈ S.cells par, t.mem c.1 = c.2)
    (hag : ∀ a ∈ S.addrs, t1.mem a = t.mem a) :
    ∀ c ∈ S.cells par, t1.mem c.1 = c.2 := by
  intro c hc
  rw [hag c.1 (mem_cells_addr hc)]
  exact hold c hc

/-- Records of a subtree whose root got a new parent link. -/
theorem cells_reparent {t t1 : RbTree K V} {S : Tree K V} {par par1 : Nat}
    (hold : ∀ c ∈ S.cells par, t.mem c.1 = c.2)
    (hroot : S.ptr ≠ 0 → t1.mem S.ptr = { t.mem S.ptr with parent := some par1 })
    (hag : ∀ a ∈ S.addrs, a ≠ S.ptr → t1.mem a = t.mem a)
    (hnd : S.addrs.Nodup) (hpos : ∀ a ∈ S.addrs, 0 < a) :
    ∀ c ∈ S.cells par1, t1.mem c.1 = c.2 := by
  cases S with
  | leaf => intro c hc; simp [cells] at hc
  | node c0 l a k v r =>
    have ha0 : a ≠ 0 := by
      have := hpos a (by simp [addrs]); omega
    simp only [addrs, List.nodup_append, List.nodup_cons] at hnd
    obtain ⟨hl, ⟨har, hr⟩, hdis⟩ := hnd
    have hal : a ∉ l.addrs := fun hm => hdis hm (by simp)
    intro c hc
    simp only [cells, List.mem_append, List.mem_cons] at hc
    rcases hc with hc | hc | hc
    · have hm := mem_cells_addr hc
      have hne : c.1 ≠ a := fun e => hal (e ▸ hm)
      rw [hag c.1 (by simp [addrs, hm]) hne]
      exact hold c (by simp [cells, hc])
    · subst hc
      have h1 := hroot ha0
      simp only [ptr_node] at h1
      have h2 := hold (a, cell c0 l k v r par) (by simp [cells])
      simp only at h2
      simp only [h1, h2, cell]
    · have hm := mem_cells_addr hc
      have hne : c.1 ≠ a := fun e => har (e ▸ hm)
      rw [hag c.1 (by simp [addrs, hm]) hne]
      exact hold c (by simp [cells, hc])

end Tree

namespace Shape

variable {t : RbTree K V} {fs : List (Frame K V)}

theorem ctx_top_cell {f : Frame K V} {s : Tree K V} (h : Shape d t (plug (f :: fs) s)) :
    t.mem f.ptr = f.cell s.ptr (ctxPtr fs) :=
  h.ctx_cells (f.ptr, f.cell s.ptr (ctxPtr fs)) (List.mem_cons_self _ _)

/-- Left rotation at the root of the focus. -/
theorem leftRotate {c c2 : Color} {A B C : Tree K V} {x y : Nat} {k k2 : K} {v v2 : V}
    (h : Shape d t (plug fs (node c A x k v (node c2 B y k2 v2 C)))) :
    ∃ t1, t.rbTreeLeftRotate (some x) = .ok t1 ∧
      Shape d t1 (plug fs (node c2 (node c A x k v B) y k2 v2 C)) ∧ t1.mem 0 = t.mem 0 := by
  have haddr : (node c2 (node c A x k v B) y k2 v2 C).addrs =
      (node c A x k v (node c2 B y k2 v2 C)).addrs := by
    simp [Tree.addrs]
  have hx := h.mem_focus
  have hfc := h.focus_cells
  have hy : t.mem y = Tree.cell c2 B k2 v2 C x := hfc (y, Tree.cell c2 B k2 v2 C x) (by simp [Tree.cells])
  have hnd := h.nodup_plug
  have hpp := h.pos_plug
  have hcc := h.ctx_cells
  simp only [Tree.addrs, List.nodup_append, List.nodup_cons, List.mem_append, List.mem_cons,
    List.append_assoc, List.cons_append, List.disjoint_cons_right, List.disjoint_append_right,
    not_or] at hnd hpp
  obtain ⟨hAnd, ⟨⟨hxB, hxy, hxC, hxF⟩, hBnd, ⟨⟨hyC, hyF⟩, hCnd, hFnd, hCF⟩, hyB, hBC, hBF⟩,
    hxA, hAB, hyA, hAC, hAF⟩ := hnd
  have hx0 : x ≠ 0 := by have := hpp x (by simp); omega
  have hy0 : y ≠ 0 := by have := hpp y (by simp); omega
  have hbx : B.ptr ≠ x := Tree.ptr_ne_of_not_mem hxB hx0
  have hby : B.ptr ≠ y := Tree.ptr_ne_of_not_mem hyB hy0
  have hPmem : ctxPtr fs = 0 ∨ ctxPtr fs ∈ ctxAddrs fs := by
    cases fs with
    | nil => left; rfl
    | cons f fs1 => right; simp [ctxPtr, ctxAddrs]
  have hBmem : B.ptr = 0 ∨ B.ptr ∈ B.addrs := by
    rcases B.ptr_cases with e | e
    · left; rw [e]; rfl
    · right; exact e
  have hPx : ctxPtr fs ≠ x := by
    rcases hPmem with e | e
    · rw [e]; exact fun e1 => hx0 e1.symm
    · intro e1; rw [e1] at e; exact hxF e
  have hPy : ctxPtr fs ≠ y := by
    rcases hPmem with e | e
    · rw [e]; exact fun e1 => hy0 e1.symm
    · intro e1; rw [e1] at e; exact hyF e
  have hPb : ctxPtr fs ≠ B.ptr ∨ ctxPtr fs = 0 := by
    rcases hPmem with e | e
    · right; exact e
    · rcases hBmem with e1 | e1
      · by_cases e2 : ctxPtr fs = 0
        · right; exact e2
        · left; rw [e1]; exact e2
      · left; intro e2; rw [e2] at e; exact hBF e1 e
  have hP : ctxPtr fs ≠ 0 → (t.mem (ctxPtr fs)).left = some x ∨
      ((t.mem (ctxPtr fs)).left ≠ some x ∧ (t.mem (ctxPtr fs)).right = some x) := by
    intro hne
    cases fs with
    | nil => exact absurd rfl hne
    | cons f fs1 =>
      have hc := h.ctx_top_cell
      cases f with
      | L c0 a k0 v0 r =>
        left
        simp only [Frame.ptr, Frame.cell] at hc
        simp [ctxPtr, Frame.ptr, hc]
      | R c0 l a k0 v0 =>
        right
        have hxl : x ∉ l.addrs := fun hm => hxF (by simp [ctxAddrs, Frame.sib, hm])
        have := Tree.ptr_ne_of_not_mem hxl hx0
        simp only [Frame.ptr, Frame.cell] at hc
        simp [ctxPtr, Frame.ptr, hc, this]
  obtain ⟨t1, hrot, hnull, hnext, hcount, hroot, h1x, h1y, h1b, h1P, hother⟩ :=
    RbTree.rbTreeLeftRotate_raw t x y B.ptr (ctxPtr fs) h.null_eq
      (by simp [hx, Tree.cell]) (by simp [hy, Tree.cell]) (by simp [hx, Tree.cell])
      hy0 hxy hbx hby hPx hPy hPb hP
  have h10 : t1.mem 0 = t.mem 0 := by
    apply hother 0 (fun e => hx0 e.symm) (fun e => hy0 e.symm)
    · by_cases e : B.ptr = 0
      · right; exact e
      · left; exact fun e1 => e e1.symm
    · by_cases e : ctxPtr fs = 0
      · right; exact e
      · left; exact fun e1 => e e1.symm
  refine ⟨t1, hrot, ?_, h10⟩
  -- agreement on the untouched subtrees
  have agA : ∀ a ∈ A.addrs, t1.mem a = t.mem a := by
    intro a ha
    apply hother a (fun e => hxA (e ▸ ha)) (fun e => hyA (e ▸ ha))
    · rcases hBmem with e | e
      · right; exact e
      · left; intro e1; rw [← e1] at e; exact hAB ha e
    · rcases hPmem with e | e
      · right; exact e
      · left; intro e1; rw [← e1] at e; exact hAF ha e
  have agC : ∀ a ∈ C.addrs, t1.mem a = t.mem a := by
    intro a ha
    apply hother a (fun e => hxC (e ▸ ha)) (fun e => hyC (e ▸ ha))
    · rcases hBmem with e | e
      · right; exact e
      · left; intro e1; rw [← e1] at e; exact hBC e ha
    · rcases hPmem with e | e
      · right; exact e
      · left; intro e1; rw [← e1] at e; exact hCF ha e
  have agB : ∀ a ∈ B.addrs, a ≠ B.ptr → t1.mem a = t.mem a := by
    intro a ha hne
    apply hother a (fun e => hxB (e ▸ ha)) (fun e => hyB (e ▸ ha)) (Or.inl hne)
    rcases hPmem with e | e
    · right; exact e
    · left; intro e1; rw [← e1] at e; exact hBF ha e
  have hposB : ∀ a ∈ B.addrs, 0 < a := fun a ha => (hpp a (by simp [ha])).1
  apply mk_plug (hnull.trans h.null_eq)
  · -- root
    rw [hroot]
    cases fs with
    | nil => simp [ctxPtr, ctxRoot]
    | cons f fs1 =>
      have : f.ptr ≠ 0 := by
        have := hpp f.ptr (by simp [ctxAddrs]); omega
      simp only [ctxPtr, this, if_false]
      rw [h.root_plug]
      simp [ctxRoot]
  · -- focus
    intro c1 hc1
    simp only [Tree.cells, List.mem_append, List.mem_cons] at hc1
    rcases hc1 with (hc1 | hc1 | hc1) | hc1 | hc1
    · exact Tree.cells_keep (fun c hc => hfc c (by simp [Tree.cells, hc])) agA c1 hc1
    · subst hc1
      simp [h1x, hx, Tree.cell]
    · refine @Tree.cells_reparent K V t t1 B y x
        (fun c hc => hfc c (by simp [Tree.cells, hc])) h1b agB hBnd hposB c1 hc1
    · subst hc1
      simp [h1y, hy, Tree.cell]
    · exact Tree.cells_keep (fun c hc => hfc c (by simp [Tree.cells, hc])) agC c1 hc1
  · -- frames
    intro c1 hc1
    cases fs with
    | nil => simp [ctxCells] at hc1
    | cons f fs1 =>
      have hf0 : f.ptr ≠ 0 := by
        have := hpp f.ptr (by simp [ctxAddrs]); omega
      simp only [ctxCells, Tree.ptr_node, List.mem_cons, List.mem_append] at hc1
      have hold := h.ctx_top_cell
      rcases hc1 with hc1 | hc1
      · subst hc1
        have := h1P hf0
        simp only [ctxPtr] at this
        simp only [this, hold]
        cases f with
        | L c0 a k0 v0 r => simp [Frame.cell]
        | R c0 l a k0 v0 =>
          have hxl : x ∉ l.addrs := fun hm => hxF (by simp [ctxAddrs, Frame.sib, hm])
          have := Tree.ptr_ne_of_not_mem hxl hx0
          simp [Frame.cell, this]
      · have hm : c1.1 ∈ f.sib.addrs ++ ctxAddrs fs1 := by
          rcases hc1 with hc1 | hc1
          · exact List.mem_append_left _ (Tree.mem_cells_addr hc1)
          · exact List.mem_append_right _ (mem_ctxCells_addr hc1)
        have hmF : c1.1 ∈ ctxAddrs (f :: fs1) := by
          simp only [ctxAddrs, List.mem_cons]; right; exact hm
        have hne : c1.1 ≠ f.ptr := by
          intro e; rw [e] at hm
          simp only [ctxAddrs, List.nodup_cons] at hFnd
          exact hFnd.1 hm
        rw [hother c1.1 (fun e => hxF (e ▸ hmF)) (fun e => hyF (e ▸ hmF))
          (by
            rcases hBmem with e | e
            · right; exact e
            · left; intro e1; rw [← e1] at e; exact hBF e hmF)
          (Or.inl hne)]
        exact h.ctx_cells c1 (by
          simp only [ctxCells, Tree.ptr_node, List.mem_cons, List.mem_append]
          right; exact hc1)
  · rw [haddr]; exact h.nodup_plug
  · intro a ha
    rw [haddr] at ha
    rw [hnext]
    exact h.pos_plug a ha
  · rw [h10]; exact h.nil_color
  · rw [h10]; exact h.nil_left
  · rw [h10]; exact h.nil_right
  · rw [hnext]; exact h.next_pos
  · rw [hcount, h.count_eq, (addrs_plug _ _).length_eq, haddr]

/-- Right rotation at the root of the focus. -/
theorem rightRotate {c c2 : Color} {A B C : Tree K V} {x y : Nat} {k k2 : K} {v v2 : V}
    (h : Shape d t (plug fs (node c (node c2 A y k2 v2 B) x k v C))) :
    ∃ t1, t.rbTreeRightRotate (some x) = .ok t1 ∧
      Shape d t1 (plug fs (node c2 A y k2 v2 (node c B x k v C))) ∧ t1.mem 0 = t.mem 0 := by
  have haddr : (node c2 A y k2 v2 (node c B x k v C)).addrs =
      (node c (node c2 A y k2 v2 B) x k v C).addrs := by
    simp [Tree.addrs]
  have hx := h.mem_focus
  have hfc := h.focus_cells
  have hy : t.mem y = Tree.cell c2 A k2 v2 B x := hfc (y, Tree.cell c2 A k2 v2 B x) (by simp [Tree.cells])
  have hnd := h.nodup_plug
  have hpp := h.pos_plug
  have hcc := h.ctx_cells
  simp only [Tree.addrs, List.nodup_append, List.nodup_cons, List.mem_append, List.mem_cons,
    List.append_assoc, List.cons_append, List.disjoint_cons_right, List.disjoint_append_right,
    not_or] at hnd hpp
  obtain ⟨hAnd, ⟨⟨hyB, hyx, hyC, hyF⟩, hBnd, ⟨⟨hxC, hxF⟩, hCnd, hFnd, hCF⟩, hxB, hBC, hBF⟩,
    hyA, hAB, hxA, hAC, hAF⟩ := hnd
  have hxy : x ≠ y := fun e => hyx e.symm
  have hx0 : x ≠ 0 := by have := hpp x (by simp); omega
  have hy0 : y ≠ 0 := by have := hpp y (by simp); omega
  have hbx : B.ptr ≠ x := Tree.ptr_ne_of_not_mem hxB hx0
  have hby : B.ptr ≠ y := Tree.ptr_ne_of_not_mem hyB hy0
  have hPmem : ctxPtr fs = 0 ∨ ctxPtr fs ∈ ctxAddrs fs := by
    cases fs with
    | nil => left; rfl
    | cons f fs1 => right; simp [ctxPtr, ctxAddrs]
  have hBmem : B.ptr = 0 ∨ B.ptr ∈ B.addrs := by
    rcases B.ptr_cases with e | e
    · left; rw [e]; rfl
    · right; exact e
  have hPx : ctxPtr fs ≠ x := by
    rcases hPmem with e | e
    · rw [e]; exact fun e1 => hx0 e1.symm
    · intro e1; rw [e1] at e; exact hxF e
  have hPy : ctxPtr fs ≠ y := by
    rcases hPmem with e | e
    · rw [e]; exact fun e1 => hy0 e1.symm
    · intro e1; rw [e1] at e; exact hyF e
  have hPb : ctxPtr fs ≠ B.ptr ∨ ctxPtr fs = 0 := by
    rcases hPmem with e | e
    · right; exact e
    · rcases hBmem with e1 | e1
      · by_cases e2 : ctxPtr fs = 0
        · right; exact e2
        · left; rw [e1]; exact e2
      · left; intro e2; rw [e2] at e; exact hBF e1 e
  have hP : ctxPtr fs ≠ 0 → (t.mem (ctxPtr fs)).left = some x ∨
      ((t.mem (ctxPtr fs)).left ≠ some x ∧ (t.mem (ctxPtr fs)).right = some x) := by
    intro hne
    cases fs with
    | nil => exact absurd rfl hne
    | cons f fs1 =>
      have hc := h.ctx_top_cell
      cases f with
      | L c0 a k0 v0 r =>
        left
        simp only [Frame.ptr, Frame.cell] at hc
        simp [ctxPtr, Frame.ptr, hc]
      | R c0 l a k0 v0 =>
        right
        have hxl : x ∉ l.addrs := fun hm => hxF (by simp [ctxAddrs, Frame.sib, hm])
        have := Tree.ptr_ne_of_not_mem hxl hx0
        simp only [Frame.ptr, Frame.cell] at hc
        simp [ctxPtr, Frame.ptr, hc, this]
  obtain ⟨t1, hrot, hnull, hnext, hcount, hroot, h1x, h1y, h1b, h1P, hother⟩ :=
    RbTree.rbTreeRightRotate_raw t x y B.ptr (ctxPtr fs) h.null_eq
      (by simp [hx, Tree.cell]) (by simp [hy, Tree.cell]) (by simp [hx, Tree.cell])
      hy0 hxy hbx hby hPx hPy hPb hP
  have h10 : t1.mem 0 = t.mem 0 := by
    apply hother 0 (fun e => hx0 e.symm) (fun e => hy0 e.symm)
    · by_cases e : B.ptr = 0
      · right; exact e
      · left; exact fun e1 => e e1.symm
    · by_cases e : ctxPtr fs = 0
      · right; exact e
      · left; exact fun e1 => e e1.symm
  refine ⟨t1, hrot, ?_, h10⟩
  -- agreement on the untouched subtrees
  have agA : ∀ a ∈ A.addrs, t1.mem a = t.mem a := by
    intro a ha
    apply hother a (fun e => hxA (e ▸ ha)) (fun e => hyA (e ▸ ha))
    · rcases hBmem with e | e
      · right; exact e
      · left; intro e1; rw [← e1] at e; exact hAB ha e
    · rcases hPmem with e | e
      · right; exact e
      · left; intro e1; rw [← e1] at e; exact hAF ha e
  have agC : ∀ a ∈ C.addrs, t1.mem a = t.mem a := by
    intro a ha
    apply hother a (fun e => hxC (e ▸ ha)) (fun e => hyC (e ▸ ha))
    · rcases hBmem with e | e
      · right; exact e
      · left; intro e1; rw [← e1] at e; exact hBC e ha
    · rcases hPmem with e | e
      · right; exact e
      · left; intro e1; rw [← e1] at e; exact hCF ha e
  have agB : ∀ a ∈ B.addrs, a ≠ B.ptr → t1.mem a = t.mem a := by
    intro a ha hne
    apply hother a (fun e => hxB (e ▸ ha)) (fun e => hyB (e ▸ ha)) (Or.inl hne)
    rcases hPmem with e | e
    · right; exact e
    · left; intro e1; rw [← e1] at e; exact hBF ha e
  have hposB : ∀ a ∈ B.addrs, 0 < a := fun a ha => (hpp a (by simp [ha])).1
  apply mk_plug (hnull.trans h.null_eq)
  · -- root
    rw [hroot]
    cases fs with
    | nil => simp [ctxPtr, ctxRoot]
    | cons f fs1 =>
      have : f.ptr ≠ 0 := by
        have := hpp f.ptr (by simp [ctxAddrs]); omega
      simp only [ctxPtr, this, if_false]
      rw [h.root_plug]
      simp [ctxRoot]
  · -- focus
    intro c1 hc1
    simp only [Tree.cells, List.mem_append, List.mem_cons] at hc1
    rcases hc1 with hc1 | hc1 | hc1 | hc1 | hc1
    · exact Tree.cells_keep (fun c hc => hfc c (by simp [Tree.cells, hc])) agA c1 hc1
    · subst hc1
      simp [h1y, hy, Tree.cell]
    · refine @Tree.cells_reparent K V t t1 B y x
        (fun c hc => hfc c (by simp [Tree.cells, hc])) h1b agB hBnd hposB c1 hc1
    · subst hc1
      simp [h1x, hx, Tree.cell]
    · exact Tree.cells_keep (fun c hc => hfc c (by simp [Tree.cells, hc])) agC c1 hc1
  · -- frames
    intro c1 hc1
    cases fs with
    | nil => simp [ctxCells] at hc1
    | cons f fs1 =>
      have hf0 : f.ptr ≠ 0 := by
        have := hpp f.ptr (by simp [ctxAddrs]); omega
      simp only [ctxCells, Tree.ptr_node, List.mem_cons, List.mem_append] at hc1
      have hold := h.ctx_top_cell
      rcases hc1 with hc1 | hc1
      · subst hc1
        have := h1P hf0
        simp only [ctxPtr] at this
        simp only [this, hold]
        cases f with
        | L c0 a k0 v0 r => simp [Frame.cell]
        | R c0 l a k0 v0 =>
          have hxl : x ∉ l.addrs := fun hm => hxF (by simp [ctxAddrs, Frame.sib, hm])
          have := Tree.ptr_ne_of_not_mem hxl hx0
          simp [Frame.cell, this]
      · have hm : c1.1 ∈ f.sib.addrs ++ ctxAddrs fs1 := by
          rcases hc1 with hc1 | hc1
          · exact List.mem_append_left _ (Tree.mem_cells_addr hc1)
          · exact List.mem_append_right _ (mem_ctxCells_addr hc1)
        have hmF : c1.1 ∈ ctxAddrs (f :: fs1) := by
          simp only [ctxAddrs, List.mem_cons]; right; exact hm
        have hne : c1.1 ≠ f.ptr := by
          intro e; rw [e] at hm
          simp only [ctxAddrs, List.nodup_cons] at hFnd
          exact hFnd.1 hm
        rw [hother c1.1 (fun e => hxF (e ▸ hmF)) (fun e => hyF (e ▸ hmF))
          (by
            rcases hBmem with e | e
            · right; exact e
            · left; intro e1; rw [← e1] at e; exact hBF e hmF)
          (Or.inl hne)]
        exact h.ctx_cells c1 (by
          simp only [ctxCells, Tree.ptr_node, List.mem_cons, List.mem_append]
          right; exact hc1)
  · rw [haddr]; exact h.nodup_plug
  · intro a ha
    rw [haddr] at ha
    rw [hnext]
    exact h.pos_plug a ha
  · rw [h10]; exact h.nil_color
  · rw [h10]; exact h.nil_left
  · rw [h10]; exact h.nil_right
  · rw [hnext]; exact h.next_pos
  · rw [hcount, h.count_eq, (addrs_plug _ _).length_eq, haddr]

end Shape

end RbSpec

namespace RbSpec

open Color Tree

variable {K V : Type}

variable {d : Int}

/-! ## Reading and recoloring nodes of a shaped store -/

namespace Frame

/-- The `left` link of the node of a frame when the hole holds a link to `q`. -/
def leftPtr : Frame K V → Nat → Nat
  | L _ _ _ _ _, q => q
  | R _ l _ _ _, _ => l.ptr

/-- The `right` link of the node of a frame when the hole holds a link to `q`. -/
def rightPtr : Frame K V → Nat → Nat
  | L _ _ _ _ r, _ => r.ptr
  | R _ _ _ _ _, q => q

/-- The key of the node of a frame. -/
def key : Frame K V → K
  | L _ _ k _ _ => k
  | R _ _ _ k _ => k

/-- The frame with its node recolored. -/
def setColor : Frame K V → Color → Frame K V
  | L _ a k v r, c => L c a k v r
  | R _ l a k v, c => R c l a k v

variable (c c1 : Color) (a q : Nat) (k : K) (v : V) (l r : Tree K V)

@[simp] theorem leftPtr_L : (L c a k v r).leftPtr q = q := rfl

@[simp] theorem leftPtr_R : (R c l a k v).leftPtr q = l.ptr := rfl

@[simp] theorem rightPtr_L : (L c a k v r).rightPtr q = r.ptr := rfl

@[simp] theorem rightPtr_R : (R c l a k v).rightPtr q = q := rfl

@[simp] theorem key_L : (L c a k v r).key = k := rfl

@[simp] theorem key_R : (R c l a k v).key = k := rfl

@[simp] theorem setColor_L : (L c a k v r).setColor c1 = L c1 a k v r := rfl

@[simp] theorem setColor_R : (R c l a k v).setColor c1 = R c1 l a k v := rfl

@[simp] theorem setColor_ptr (f : Frame K V) (c : Color) : (f.setColor c).ptr = f.ptr := by
  cases f <;> rfl

@[simp] theorem setColor_color (f : Frame K V) (c : Color) : (f.setColor c).color = c := by
  cases f <;> rfl

@[simp] theorem setColor_sib (f : Frame K V) (c : Color) : (f.setColor c).sib = f.sib := by
  cases f <;> rfl

theorem cell_eq (f : Frame K V) (q par : Nat) :
    f.cell q par =
      { Key := some f.key, Value := (f.cell q par).Value, color := f.color,
        left := some (f.leftPtr q), right := some (f.rightPtr q), parent := some par } := by
  cases f <;> rfl

end Frame

namespace Shape

variable {t : RbTree K V} {fs : List (Frame K V)}

section reads

variable {c : Color} {l r : Tree K V} {a : Nat} {k : K} {v : V}

theorem getParent_focus (h : Shape d t (plug fs (node c l a k v r))) :
    t.getParent (some a) = .ok (some (ctxPtr fs)) := by
  simp [RbTree.getParent, h.mem_focus, Tree.cell]

theorem getLeft_focus (h : Shape d t (plug fs (node c l a k v r))) :
    t.getLeft (some a) = .ok (some l.ptr) := by
  simp [RbTree.getLeft, h.mem_focus, Tree.cell]

theorem getRight_focus (h : Shape d t (plug fs (node c l a k v r))) :
    t.getRight (some a) = .ok (some r.ptr) := by
  simp [RbTree.getRight, h.mem_focus, Tree.cell]

theorem getColor_focus (h : Shape d t (plug fs (node c l a k v r))) :
    t.getColor (some a) = .ok c := by
  simp [RbTree.getColor, h.mem_focus, Tree.cell]

theorem recvKey_focus (h : Shape d t (plug fs (node c l a k v r))) :
    t.recvKey (some a) = .ok k := by
  simp [RbTree.recvKey, h.mem_focus, Tree.cell]

theorem getKey_focus (h : Shape d t (plug fs (node c l a k v r))) :
    t.getKey (some a) = .ok (some k) := by
  simp [RbTree.getKey, h.mem_focus, Tree.cell]

theorem getValue_focus (h : Shape d t (plug fs (node c l a k v r))) :
    t.getValue (some a) = .ok (some v) := by
  simp [RbTree.getValue, h.mem_focus, Tree.cell]

end reads

/-- The color read through any link of the tree, the sentinel included. -/
theorem getColor_ptr {s : Tree K V} (h : Shape d t (plug fs s)) :
    t.getColor (some s.ptr) = .ok s.color := by
  cases s with
  | leaf => simp [RbTree.getColor, h.nil_color]
  | node c l a k v r => simpa using h.getColor_focus

theorem getParent_top {f : Frame K V} {s : Tree K V} (h : Shape d t (plug (f :: fs) s)) :
    t.getParent (some f.ptr) = .ok (some (ctxPtr fs)) := by
  cases f <;> exact getParent_focus (h : Shape d t (plug fs (node _ _ _ _ _ _)))

theorem getColor_top {f : Frame K V} {s : Tree K V} (h : Shape d t (plug (f :: fs) s)) :
    t.getColor (some f.ptr) = .ok f.color := by
  cases f <;> exact getColor_focus (h : Shape d t (plug fs (node _ _ _ _ _ _)))

theorem getLeft_top {f : Frame K V} {s : Tree K V} (h : Shape d t (plug (f :: fs) s)) :
    t.getLeft (some f.ptr) = .ok (some (f.leftPtr s.ptr)) := by
  cases f <;> exact getLeft_focus (h : Shape d t (plug fs (node _ _ _ _ _ _)))

theorem getRight_top {f : Frame K V} {s : Tree K V} (h : Shape d t (plug (f :: fs) s)) :
    t.getRight (some f.ptr) = .ok (some (f.rightPtr s.ptr)) := by
  cases f <;> exact getRight_focus (h : Shape d t (plug fs (node _ _ _ _ _ _)))

theorem recvKey_top {f : Frame K V} {s : Tree K V} (h : Shape d t (plug (f :: fs) s)) :
    t.recvKey (some f.ptr) = .ok f.key := by
  cases f <;> exact recvKey_focus (h : Shape d t (plug fs (node _ _ _ _ _ _)))

/-- The focus and the other subtree of its parent are at different addresses. -/
theorem sib_ptr_ne {f : Frame K V} {c : Color} {l r : Tree K V} {a : Nat} {k : K} {v : V}
    (h : Shape d t (plug (f :: fs) (node c l a k v r))) : f.sib.ptr ≠ a := by
  have hnd := h.nodup_plug
  have hpp := h.pos_plug
  have ha0 : a ≠ 0 := by
    have := hpp a (by simp [Tree.addrs]); omega
  apply Tree.ptr_ne_of_not_mem _ ha0
  intro hm
  have h1 : a ∈ (node c l a k v r).addrs := by simp [Tree.addrs]
  have h2 : a ∈ ctxAddrs (f :: fs) := by simp [ctxAddrs, hm]
  exact (List.nodup_append.1 hnd).2.2 h1 h2

/-- The focus and its parent are at different addresses. -/
theorem top_ptr_ne {f : Frame K V} {c : Color} {l r : Tree K V} {a : Nat} {k : K} {v : V}
    (h : Shape d t (plug (f :: fs) (node c l a k v r))) : f.ptr ≠ a := by
  have hnd := h.nodup_plug
  intro e
  have h1 : a ∈ (node c l a k v r).addrs := by simp [Tree.addrs]
  have h2 : a ∈ ctxAddrs (f :: fs) := by simp [ctxAddrs, e]
  exact (List.nodup_append.1 hnd).2.2 h1 h2

theorem focus_ne_zero {c : Color} {l r : Tree K V} {a : Nat} {k : K} {v : V}
    (h : Shape d t (plug fs (node c l a k v r))) : a ≠ 0 := by
  have := h.pos_plug a (by simp [Tree.addrs]); omega

theorem top_ne_zero {f : Frame K V} {s : Tree K V} (h : Shape d t (plug (f :: fs) s)) :
    f.ptr ≠ 0 := by
  have := h.pos_plug f.ptr (by simp [ctxAddrs]); omega

/-- Recoloring the root of the focus. -/
theorem setColor {c : Color} {l r : Tree K V} {a : Nat} {k : K} {v : V}
    (h : Shape d t (plug fs (node c l a k v r))) (c1 : Color) :
    ∃ t1, t.setColor (some a) c1 = .ok t1 ∧ Shape d t1 (plug fs (node c1 l a k v r)) ∧
      t1.mem 0 = t.mem 0 := by
  have ha0 := h.focus_ne_zero
  have hnd := h.nodup_plug
  simp only [Tree.addrs, List.nodup_append, List.nodup_cons, List.mem_append, List.mem_cons,
    List.append_assoc, List.cons_append, List.disjoint_cons_right, List.disjoint_append_right,
    not_or] at hnd
  have h0 : (Function.update t.mem a { t.mem a with color := c1 }) 0 = t.mem 0 :=
    Function.update_noteq (fun e => ha0 e.symm) _ _
  refine ⟨_, rfl, ?_, h0⟩
  refine h.replace rfl (List.Perm.refl _) rfl rfl rfl rfl ?_ ?_ ?_ ?_ ?_
  · intro b hb _
    apply Function.update_noteq
    intro e; apply hb; simp [Tree.addrs, e]
  · show (Function.update t.mem a _ 0).color = BLACK
    rw [h0]; exact h.nil_color
  · show (Function.update t.mem a _ 0).left = none
    rw [h0]; exact h.nil_left
  · show (Function.update t.mem a _ 0).right = none
    rw [h0]; exact h.nil_right
  · intro c2 hc2
    have hfc := h.focus_cells
    simp only [Tree.cells, List.mem_append, List.mem_cons] at hc2
    rcases hc2 with hc2 | hc2 | hc2
    · have hm := Tree.mem_cells_addr hc2
      have hne : c2.1 ≠ a := fun e => hnd.2.2.1 (e ▸ hm)
      show Function.update t.mem a _ c2.1 = c2.2
      rw [Function.update_noteq hne]
      exact hfc c2 (by simp [Tree.cells, hc2])
    · subst hc2
      show Function.update t.mem a _ a = _
      rw [Function.update_same, h.mem_focus]
      rfl
    · have hm := Tree.mem_cells_addr hc2
      have hne : c2.1 ≠ a := fun e => hnd.2.1.1.1 (e ▸ hm)
      show Function.update t.mem a _ c2.1 = c2.2
      rw [Function.update_noteq hne]
      exact hfc c2 (by simp [Tree.cells, hc2])

/-- Recoloring the parent of the focus. -/
theorem setColor_top {f : Frame K V} {s : Tree K V} (h : Shape d t (plug (f :: fs) s))
    (c1 : Color) :
    ∃ t1, t.setColor (some f.ptr) c1 = .ok t1 ∧ Shape d t1 (plug (f.setColor c1 :: fs) s) ∧
      t1.mem 0 = t.mem 0 := by
  cases f <;> exact setColor (h : Shape d t (plug fs (node _ _ _ _ _ _))) c1

end Shape

end RbSpec

namespace RbSpec

open Color Tree

variable {K V : Type}

/-! ## Color invariants of a tree with a focus -/

namespace Tree

@[simp] theorem blk_RED : blk RED = 0 := rfl

@[simp] theorem blk_BLACK : blk BLACK = 1 := rfl

@[simp] theorem bh_leaf : (leaf : Tree K V).bh = 0 := rfl

@[simp] theorem bh_node (c : Color) (l : Tree K V) (a : Nat) (k : K) (v : V) (r : Tree K V) :
    (node c l a k v r).bh = l.bh + blk c := rfl

@[simp] theorem balanced_leaf : (leaf : Tree K V).balanced := trivial

@[simp] theorem balanced_node (c : Color) (l : Tree K V) (a : Nat) (k : K) (v : V)
    (r : Tree K V) :
    (node c l a k v r).balanced ↔ l.balanced ∧ r.balanced ∧ l.bh = r.bh := Iff.rfl

@[simp] theorem noRedRed_leaf : (leaf : Tree K V).noRedRed := trivial

@[simp] theorem noRedRed_node (c : Color) (l : Tree K V) (a : Nat) (k : K) (v : V)
    (r : Tree K V) :
    (node c l a k v r).noRedRed ↔
      (c = RED → l.color = BLACK ∧ r.color = BLACK) ∧ l.noRedRed ∧ r.noRedRed := Iff.rfl

@[simp] theorem toList_leaf : (leaf : Tree K V).toList = [] := rfl

@[simp] theorem toList_node (c : Color) (l : Tree K V) (a : Nat) (k : K) (v : V)
    (r : Tree K V) :
    (node c l a k v r).toList = l.toList ++ (k, v) :: r.toList := rfl

/-- The three color conditions of a red-black tree. -/
def isRB (T : Tree K V) : Prop := T.color = BLACK ∧ T.noRedRed ∧ T.balanced

theorem pathBlacks_of_balanced {T : Tree K V} (h : T.balanced) :
    ∀ n ∈ T.pathBlacks, n = T.bh := by
  induction T with
  | leaf => intro n hn; simpa [pathBlacks] using hn
  | node c l a k v r ihl ihr =>
    obtain ⟨hl, hr, he⟩ := h
    intro n hn
    simp only [pathBlacks, List.map_append, List.mem_append, List.mem_map] at hn
    rcases hn with ⟨m, hm, rfl⟩ | ⟨m, hm, rfl⟩
    · rw [ihl hl m hm]; rfl
    · rw [ihr hr m hm, ← he]; rfl

theorem pathsEqual_of_balanced {T : Tree K V} (h : T.balanced) : T.pathsEqual := by
  intro n hn m hm
  rw [pathBlacks_of_balanced h n hn, pathBlacks_of_balanced h m hm]

theorem color_cases (T : Tree K V) : T.color = RED ∨ T.color = BLACK := by
  cases h : T.color
  · left; rfl
  · right; rfl

theorem eq_node_of_red {T : Tree K V} (h : T.color = RED) :
    ∃ l a k v r, T = node RED l a k v r := by
  cases T with
  | leaf => simp at h
  | node c l a k v r => simp at h; subst h; exact ⟨l, a, k, v, r, rfl⟩

end Tree

/-- Black heights fit along the frames: each sibling is balanced and as high as
the subtree in the hole. -/
def ctxBal : List (Frame K V) → Nat → Prop
  | [], _ => True
  | f :: fs, h => f.sib.balanced ∧ f.sib.bh = h ∧ ctxBal fs (h + blk f.color)

theorem ctxBal_congr {fs : List (Frame K V)} {h h1 : Nat} (hc : ctxBal fs h) (e : h = h1) :
    ctxBal fs h1 := e ▸ hc

/-- No RED node has a RED child, outside the focus and not counting the link
into the focus. -/
def ctxNRR : List (Frame K V) → Prop
  | [] => True
  | f :: fs =>
    f.sib.noRedRed ∧ (f.color = RED → f.sib.color = BLACK ∧ ctxColor fs = BLACK) ∧ ctxNRR fs

/-- Color of the root, given the color at the focus. -/
def rootColor : List (Frame K V) → Color → Color
  | [], c => c
  | f :: fs, _ => rootColor fs f.color

@[simp] theorem Frame.fill_color (f : Frame K V) (s : Tree K V) :
    (f.fill s).color = f.color := by
  cases f <;> rfl

theorem Frame.fill_toList_congr (f : Frame K V) {s s1 : Tree K V}
    (h : s.toList = s1.toList) : (f.fill s).toList = (f.fill s1).toList := by
  cases f <;> simp [h]

@[simp] theorem Frame.setColor_fill_toList (f : Frame K V) (c : Color) (s : Tree K V) :
    ((f.setColor c).fill s).toList = (f.fill s).toList := by
  cases f <;> simp

theorem toList_plug_congr (fs : List (Frame K V)) {s s1 : Tree K V}
    (h : s.toList = s1.toList) : (plug fs s).toList = (plug fs s1).toList := by
  induction fs generalizing s s1 with
  | nil => simpa using h
  | cons f fs ih => exact ih (f.fill_toList_congr h)

theorem plug_ne_leaf (fs : List (Frame K V)) {s : Tree K V} (h : s ≠ leaf) :
    plug fs s ≠ leaf := by
  induction fs generalizing s with
  | nil => exact h
  | cons f fs ih =>
    apply ih
    cases f <;> simp

theorem color_plug (fs : List (Frame K V)) (s : Tree K V) :
    (plug fs s).color = rootColor fs s.color := by
  induction fs generalizing s with
  | nil => rfl
  | cons f fs ih => simp [plug_cons, ih, rootColor]

theorem balanced_plug (fs : List (Frame K V)) (s : Tree K V) :
    (plug fs s).balanced ↔ s.balanced ∧ ctxBal fs s.bh := by
  induction fs generalizing s with
  | nil => simp [ctxBal]
  | cons f fs ih =>
    rw [plug_cons, ih]
    cases f with
    | L c a k v r =>
      simp only [Frame.fill_L, balanced_node, bh_node, ctxBal, Frame.sib_L, Frame.color_L]
      constructor
      · rintro ⟨⟨h1, h2, h3⟩, h4⟩; exact ⟨h1, h2, h3.symm, h4⟩
      · rintro ⟨h1, h2, h3, h4⟩; exact ⟨⟨h1, h2, h3.symm⟩, h4⟩
    | R c l a k v =>
      simp only [Frame.fill_R, balanced_node, bh_node, ctxBal, Frame.sib_R, Frame.color_R]
      constructor
      · rintro ⟨⟨h1, h2, h3⟩, h4⟩; exact ⟨h2, h1, h3, h3 ▸ h4⟩
      · rintro ⟨h1, h2, h3, h4⟩; exact ⟨⟨h2, h1, h3⟩, h3 ▸ h4⟩

theorem noRedRed_plug (fs : List (Frame K V)) (s : Tree K V) :
    (plug fs s).noRedRed ↔
      s.noRedRed ∧ (ctxColor fs = RED → s.color = BLACK) ∧ ctxNRR fs := by
  induction fs generalizing s with
  | nil => simp [ctxNRR]
  | cons f fs ih =>
    rw [plug_cons, ih]
    cases f with
    | L c a k v r =>
      simp only [Frame.fill_L, noRedRed_node, color_node, ctxNRR, Frame.sib_L, Frame.color_L,
        ctxColor_cons]
      cases c <;> cases hcf : ctxColor fs <;> simp <;> tauto
    | R c l a k v =>
      simp only [Frame.fill_R, noRedRed_node, color_node, ctxNRR, Frame.sib_R, Frame.color_R,
        ctxColor_cons]
      cases c <;> cases hcf : ctxColor fs <;> simp <;> tauto

end RbSpec

namespace RbSpec

open Color Tree

variable {K V : Type}

variable {d : Int}

/-! ## One round of `insertFixUp` on a shaped store -/

namespace Shape

variable {t : RbTree K V} {rest : List (Frame K V)}

/-- Parent is a left child, uncle RED: three recolorings, `cur` moves to the
grandparent. -/
theorem insertFixUpBody_left_red {f1 : Frame K V} {cg cs : Color} {ag a ua : Nat}
    {kg sk uk : K} {vg sv uv : V} {sl sr ul ur : Tree K V}
    (h : Shape d t (plug (f1 :: Frame.L cg ag kg vg (node RED ul ua uk uv ur) :: rest)
      (node cs sl a sk sv sr))) :
    ∃ t1, RbTree.insertFixUpBody t (some a) = .ok (t1, some ag) ∧
      Shape d t1 (plug rest (node RED ((f1.setColor BLACK).fill (node cs sl a sk sv sr)) ag kg vg
        (node BLACK ul ua uk uv ur))) := by
  have e1 := h.getParent_focus
  have e2 := h.getParent_top
  have hg : Shape d t (plug (Frame.L cg ag kg vg (node RED ul ua uk uv ur) :: rest)
      (f1.fill (node cs sl a sk sv sr))) := h
  have e3 := hg.getLeft_top
  have e4 := hg.getRight_top
  have hu : Shape d t (plug (Frame.R cg (f1.fill (node cs sl a sk sv sr)) ag kg vg :: rest)
      (node RED ul ua uk uv ur)) := h
  have e5 := hu.getColor_focus
  obtain ⟨t1, w1, h1, -⟩ := h.setColor_top BLACK
  have hu1 : Shape d t1 (plug (Frame.R cg ((f1.setColor BLACK).fill (node cs sl a sk sv sr))
      ag kg vg :: rest) (node RED ul ua uk uv ur)) := h1
  obtain ⟨t2, w2, h2, -⟩ := hu1.setColor BLACK
  have h2a : Shape d t2 (plug (f1.setColor BLACK ::
      Frame.L cg ag kg vg (node BLACK ul ua uk uv ur) :: rest) (node cs sl a sk sv sr)) := h2
  have e6 := h2a.getParent_focus
  have e7 := h2a.getParent_top
  have h2g : Shape d t2 (plug rest (node cg ((f1.setColor BLACK).fill (node cs sl a sk sv sr))
      ag kg vg (node BLACK ul ua uk uv ur))) := h2
  obtain ⟨t3, w3, h3, -⟩ := h2g.setColor RED
  have h3a : Shape d t3 (plug (f1.setColor BLACK ::
      Frame.L RED ag kg vg (node BLACK ul ua uk uv ur) :: rest) (node cs sl a sk sv sr)) := h3
  have e8 := h3a.getParent_focus
  have e9 := h3a.getParent_top
  refine ⟨t3, ?_, h3⟩
  simp at e1 e2 e3 e4 e5 e6 e7 e8 e9
  simp [RbTree.insertFixUpBody, e1, e2, e3, e4, e5, w1, w2, e6, e7, w3, e8, e9]

/-- Parent is a left child, uncle BLACK, `cur` is a left child: two recolorings
and a right rotation at the grandparent. -/
theorem insertFixUpBody_left_left {cp cg cs : Color} {ap ag a : Nat}
    {kp kg sk : K} {vp vg sv : V} {sl sr pr u : Tree K V} (hu : u.color = BLACK)
    (h : Shape d t (plug (Frame.L cp ap kp vp pr :: Frame.L cg ag kg vg u :: rest)
      (node cs sl a sk sv sr))) :
    ∃ t1, RbTree.insertFixUpBody t (some a) = .ok (t1, some a) ∧
      Shape d t1 (plug (Frame.L BLACK ap kp vp (node RED pr ag kg vg u) :: rest)
        (node cs sl a sk sv sr)) := by
  have e1 := h.getParent_focus
  have e2 := h.getParent_top
  have hg : Shape d t (plug (Frame.L cg ag kg vg u :: rest)
      (node cp (node cs sl a sk sv sr) ap kp vp pr)) := h
  have e3 := hg.getLeft_top
  have e4 := hg.getRight_top
  have hu0 : Shape d t (plug (Frame.R cg (node cp (node cs sl a sk sv sr) ap kp vp pr)
      ag kg vg :: rest) u) := h
  have e5 := hu0.getColor_ptr
  have e6 := h.getRight_top
  have n1 := h.sib_ptr_ne
  obtain ⟨t1, w1, h1, -⟩ := h.setColor_top BLACK
  have e7 := h1.getParent_focus
  have e8 := h1.getParent_top
  have h1g : Shape d t1 (plug rest (node cg (node BLACK (node cs sl a sk sv sr) ap kp vp pr)
      ag kg vg u)) := h1
  obtain ⟨t2, w2, h2, -⟩ := h1g.setColor RED
  have h2a : Shape d t2 (plug (Frame.L BLACK ap kp vp pr :: Frame.L RED ag kg vg u :: rest)
      (node cs sl a sk sv sr)) := h2
  have e9 := h2a.getParent_focus
  have e10 := h2a.getParent_top
  obtain ⟨t3, w3, h3, -⟩ := h2.rightRotate
  refine ⟨t3, ?_, h3⟩
  simp only [Frame.ptr_L, Frame.ptr_R] at w1
  simp at e1 e2 e3 e4 e5 e6 e7 e8 e9 e10 n1
  have n2 : ¬ a = pr.ptr := fun e => n1 e.symm
  simp [RbTree.insertFixUpBody, e1, e2, e3, e4, e5, hu, e6, n2, w1, e7, e8, w2, e9, e10, w3]

/-- Parent is a left child, uncle BLACK, `cur` is a right child: a left rotation
at the parent, then as before; `cur` ends at the former parent. -/
theorem insertFixUpBody_left_right {cp cg cs : Color} {ap ag a : Nat}
    {kp kg sk : K} {vp vg sv : V} {sl sr pl u : Tree K V} (hu : u.color = BLACK)
    (h : Shape d t (plug (Frame.R cp pl ap kp vp :: Frame.L cg ag kg vg u :: rest)
      (node cs sl a sk sv sr))) :
    ∃ t1, RbTree.insertFixUpBody t (some a) = .ok (t1, some ap) ∧
      Shape d t1 (plug (Frame.L BLACK a sk sv (node RED sr ag kg vg u) :: rest)
        (node cp pl ap kp vp sl)) := by
  have e1 := h.getParent_focus
  have e2 := h.getParent_top
  have hg : Shape d t (plug (Frame.L cg ag kg vg u :: rest)
      (node cp pl ap kp vp (node cs sl a sk sv sr))) := h
  have e3 := hg.getLeft_top
  have e4 := hg.getRight_top
  have hu0 : Shape d t (plug (Frame.R cg (node cp pl ap kp vp (node cs sl a sk sv sr))
      ag kg vg :: rest) u) := h
  have e5 := hu0.getColor_ptr
  have e6 := h.getRight_top
  obtain ⟨t1, w1, h1, -⟩ := hg.leftRotate
  have h1a : Shape d t1 (plug (Frame.L cs a sk sv sr :: Frame.L cg ag kg vg u :: rest)
      (node cp pl ap kp vp sl)) := h1
  have e7 := h1a.getParent_focus
  have e8 := h1a.getParent_top
  obtain ⟨t2, w2, h2, -⟩ := h1a.setColor_top BLACK
  have e9 := h2.getParent_focus
  have e10 := h2.getParent_top
  have h2g : Shape d t2 (plug rest (node cg (node BLACK (node cp pl ap kp vp sl) a sk sv sr)
      ag kg vg u)) := h2
  obtain ⟨t3, w3, h3, -⟩ := h2g.setColor RED
  have h3a : Shape d t3 (plug (Frame.L BLACK a sk sv sr :: Frame.L RED ag kg vg u :: rest)
      (node cp pl ap kp vp sl)) := h3
  have e11 := h3a.getParent_focus
  have e12 := h3a.getParent_top
  obtain ⟨t4, w4, h4, -⟩ := h3.rightRotate
  refine ⟨t4, ?_, h4⟩
  simp only [Frame.ptr_L, Frame.ptr_R] at w2
  simp at e1 e2 e3 e4 e5 e6 e7 e8 e9 e10 e11 e12
  simp [RbTree.insertFixUpBody, e1, e2, e3, e4, e5, hu, e6, w1, e7, e8, w2, e9, e10, w3, e11,
    e12, w4]

/-- Parent is a right child, uncle RED. -/
theorem insertFixUpBody_right_red {f1 : Frame K V} {cg cs : Color} {ag a ua : Nat}
    {kg sk uk : K} {vg sv uv : V} {sl sr ul ur : Tree K V}
    (h : Shape d t (plug (f1 :: Frame.R cg (node RED ul ua uk uv ur) ag kg vg :: rest)
      (node cs sl a sk sv sr))) :
    ∃ t1, RbTree.insertFixUpBody t (some a) = .ok (t1, some ag) ∧
      Shape d t1 (plug rest (node RED (node BLACK ul ua uk uv ur) ag kg vg
        ((f1.setColor BLACK).fill (node cs sl a sk sv sr)))) := by
  have e1 := h.getParent_focus
  have e2 := h.getParent_top
  have hg : Shape d t (plug (Frame.R cg (node RED ul ua uk uv ur) ag kg vg :: rest)
      (f1.fill (node cs sl a sk sv sr))) := h
  have e3 := hg.getLeft_top
  have hu : Shape d t (plug (Frame.L cg ag kg vg (f1.fill (node cs sl a sk sv sr)) :: rest)
      (node RED ul ua uk uv ur)) := h
  have e5 := hu.getColor_focus
  have n1 : f1.ptr ≠ ua := by
    have := hu.sib_ptr_ne
    simpa using this
  obtain ⟨t1, w1, h1, -⟩ := h.setColor_top BLACK
  have hu1 : Shape d t1 (plug (Frame.L cg ag kg vg ((f1.setColor BLACK).fill
      (node cs sl a sk sv sr)) :: rest) (node RED ul ua uk uv ur)) := h1
  obtain ⟨t2, w2, h2, -⟩ := hu1.setColor BLACK
  have h2a : Shape d t2 (plug (f1.setColor BLACK ::
      Frame.R cg (node BLACK ul ua uk uv ur) ag kg vg :: rest) (node cs sl a sk sv sr)) := h2
  have e6 := h2a.getParent_focus
  have e7 := h2a.getParent_top
  have h2g : Shape d t2 (plug rest (node cg (node BLACK ul ua uk uv ur) ag kg vg
      ((f1.setColor BLACK).fill (node cs sl a sk sv sr)))) := h2
  obtain ⟨t3, w3, h3, -⟩ := h2g.setColor RED
  have h3a : Shape d t3 (plug (f1.setColor BLACK ::
      Frame.R RED (node BLACK ul ua uk uv ur) ag kg vg :: rest) (node cs sl a sk sv sr)) := h3
  have e8 := h3a.getParent_focus
  have e9 := h3a.getParent_top
  refine ⟨t3, ?_, h3⟩
  simp at e1 e2 e3 e5 e6 e7 e8 e9
  simp [RbTree.insertFixUpBody, e1, e2, e3, n1, e5, w1, w2, e6, e7, w3, e8, e9]

/-- Parent is a right child, uncle BLACK, `cur` is a right child. -/
theorem insertFixUpBody_right_right {cp cg cs : Color} {ap ag a : Nat}
    {kp kg sk : K} {vp vg sv : V} {sl sr pl u : Tree K V} (hu : u.color = BLACK)
    (h : Shape d t (plug (Frame.R cp pl ap kp vp :: Frame.R cg u ag kg vg :: rest)
      (node cs sl a sk sv sr))) :
    ∃ t1, RbTree.insertFixUpBody t (some a) = .ok (t1, some a) ∧
      Shape d t1 (plug (Frame.R BLACK (node RED u ag kg vg pl) ap kp vp :: rest)
        (node cs sl a sk sv sr)) := by
  have e1 := h.getParent_focus
  have e2 := h.getParent_top
  have hg : Shape d t (plug (Frame.R cg u ag kg vg :: rest)
      (node cp pl ap kp vp (node cs sl a sk sv sr))) := h
  have e3 := hg.getLeft_top
  have hu0 : Shape d t (plug (Frame.L cg ag kg vg (node cp pl ap kp vp (node cs sl a sk sv sr))
      :: rest) u) := h
  have e5 := hu0.getColor_ptr
  have n0 := hg.sib_ptr_ne
  have e6 := h.getLeft_top
  have n1 := h.sib_ptr_ne
  obtain ⟨t1, w1, h1, -⟩ := h.setColor_top BLACK
  have e7 := h1.getParent_focus
  have e8 := h1.getParent_top
  have h1g : Shape d t1 (plug rest (node cg u ag kg vg
      (node BLACK pl ap kp vp (node cs sl a sk sv sr)))) := h1
  obtain ⟨t2, w2, h2, -⟩ := h1g.setColor RED
  have h2a : Shape d t2 (plug (Frame.R BLACK pl ap kp vp :: Frame.R RED u ag kg vg :: rest)
      (node cs sl a sk sv sr)) := h2
  have e9 := h2a.getParent_focus
  have e10 := h2a.getParent_top
  obtain ⟨t3, w3, h3, -⟩ := h2.leftRotate
  refine ⟨t3, ?_, h3⟩
  simp only [Frame.ptr_L, Frame.ptr_R] at w1
  simp at e1 e2 e3 e5 e6 e7 e8 e9 e10 n0 n1
  have n2 : ¬ a = pl.ptr := fun e => n1 e.symm
  have n3 : ¬ ap = u.ptr := fun e => n0 e.symm
  simp [RbTree.insertFixUpBody, e1, e2, e3, n3, e5, hu, e6, n2, w1, e7, e8, w2, e9, e10, w3]

/-- Parent is a right child, uncle BLACK, `cur` is a left child. -/
theorem insertFixUpBody_right_left {cp cg cs : Color} {ap ag a : Nat}
    {kp kg sk : K} {vp vg sv : V} {sl sr pr u : Tree K V} (hu : u.color = BLACK)
    (h : Shape d t (plug (Frame.L cp ap kp vp pr :: Frame.R cg u ag kg vg :: rest)
      (node cs sl a sk sv sr))) :
    ∃ t1, RbTree.insertFixUpBody t (some a) = .ok (t1, some ap) ∧
      Shape d t1 (plug (Frame.R BLACK (node RED u ag kg vg sl) a sk sv :: rest)
        (node cp sr ap kp vp pr)) := by
  have e1 := h.getParent_focus
  have e2 := h.getParent_top
  have hg : Shape d t (plug (Frame.R cg u ag kg vg :: rest)
      (node cp (node cs sl a sk sv sr) ap kp vp pr)) := h
  have e3 := hg.getLeft_top
  have hu0 : Shape d t (plug (Frame.L cg ag kg vg (node cp (node cs sl a sk sv sr) ap kp vp pr)
      :: rest) u) := h
  have e5 := hu0.getColor_ptr
  have n0 := hg.sib_ptr_ne
  have e6 := h.getLeft_top
  obtain ⟨t1, w1, h1, -⟩ := hg.rightRotate
  have h1a : Shape d t1 (plug (Frame.R cs sl a sk sv :: Frame.R cg u ag kg vg :: rest)
      (node cp sr ap kp vp pr)) := h1
  have e7 := h1a.getParent_focus
  have e8 := h1a.getParent_top
  obtain ⟨t2, w2, h2, -⟩ := h1a.setColor_top BLACK
  have e9 := h2.getParent_focus
  have e10 := h2.getParent_top
  have h2g : Shape d t2 (plug rest (node cg u ag kg vg
      (node BLACK sl a sk sv (node cp sr ap kp vp pr)))) := h2
  obtain ⟨t3, w3, h3, -⟩ := h2g.setColor RED
  have h3a : Shape d t3 (plug (Frame.R BLACK sl a sk sv :: Frame.R RED u ag kg vg :: rest)
      (node cp sr ap kp vp pr)) := h3
  have e11 := h3a.getParent_focus
  have e12 := h3a.getParent_top
  obtain ⟨t4, w4, h4, -⟩ := h3.leftRotate
  refine ⟨t4, ?_, h4⟩
  simp only [Frame.ptr_L, Frame.ptr_R] at w2
  simp at e1 e2 e3 e5 e6 e7 e8 e9 e10 e11 e12 n0
  have n3 : ¬ ap = u.ptr := fun e => n0 e.symm
  simp [RbTree.insertFixUpBody, e1, e2, e3, n3, e5, hu, e6, w1, e7, e8, w2, e9, e10, w3, e11,
    e12, w4]

end Shape

end RbSpec

namespace RbSpec

open Color Tree

variable {K V : Type}

variable {d : Int}

/-! ## The loop of `insertFixUp` -/

/-- State of the tree at the head of the loop of `insertFixUp`: the focus `cur`
is RED, the color conditions hold inside the focus and outside of it, and only
the link from the parent into the focus may join two RED nodes. -/
structure InsInv (fs : List (Frame K V)) (s : Tree K V) : Prop where
  red : s.color = RED
  nrr : s.noRedRed
  bal : s.balanced
  cbal : ctxBal fs s.bh
  cnrr : ctxNRR fs
  top : rootColor fs BLACK = BLACK

theorem insertFixUpLoop_spec : ∀ (n : Nat) (fs : List (Frame K V)) (s : Tree K V)
    (t : RbTree K V), Shape d t (plug fs s) → InsInv fs s → fs.length < n →
    ∃ t1 T1, RbTree.insertFixUpLoop n t (some s.ptr) = .ok t1 ∧ Shape d t1 T1 ∧
      T1.toList = (plug fs s).toList ∧ T1.noRedRed ∧ T1.balanced ∧ T1 ≠ leaf := by
  intro n
  induction n with
  | zero => intro fs s t _ _ hlt; exact absurd hlt (Nat.not_lt_zero _)
  | succ n ih =>
    intro fs s t h inv hlt
    obtain ⟨sl, a, sk, sv, sr, rfl⟩ := Tree.eq_node_of_red inv.red
    have e1 := h.getParent_focus
    obtain ⟨-, hnrr, hbal, hcbal, hcnrr, htop⟩ := inv
    cases fs with
    | nil =>
      have e2 : t.getColor (some 0) = .ok BLACK := by simp [RbTree.getColor, h.nil_color]
      refine ⟨t, _, ?_, h, rfl, hnrr, hbal, by simp⟩
      simp at e1
      simp [RbTree.insertFixUpLoop, e1, e2]
    | cons f1 rest1 =>
      have e2 := h.getColor_top
      simp only [ctxPtr_cons] at e1
      rcases hc1 : f1.color with _ | _
      · -- RED parent
        cases rest1 with
        | nil => simp [rootColor, hc1] at htop
        | cons f2 rest =>
          have hf2 : f2.color = BLACK := by
            have := (hcnrr.2.1 hc1).2
            simpa using this
          simp only [List.length_cons] at hlt
          cases f2 with
          | L cg ag kg vg u =>
            rcases u.color_cases with hu | hu
            · obtain ⟨ul, ua, uk, uv, ur, rfl⟩ := Tree.eq_node_of_red hu
              obtain ⟨t1, eb, h1⟩ := h.insertFixUpBody_left_red
              have inv1 : InsInv rest (node RED ((f1.setColor BLACK).fill (node RED sl a sk sv sr))
                  ag kg vg (node BLACK ul ua uk uv ur)) := by
                cases f1 <;> simp only [Frame.color_L, Frame.color_R] at hc1 <;> subst hc1
                all_goals
                  simp [ctxBal, ctxNRR, rootColor] at hnrr hbal hcbal hcnrr htop hf2
                  casesm* _ ∧ _
                  subst_vars
                  try simp only [Tree.blk_BLACK, Tree.blk_RED] at *
                  constructor <;> (try simp [ctxBal, ctxNRR, rootColor]) <;> (try split_ands) <;>
                    first
                    | assumption
                    | omega
                    | (refine ctxBal_congr (by assumption) ?_; omega)
              obtain ⟨t2, T2, el, h2, hl2, hn2, hb2, hne2⟩ :=
                ih rest (node RED _ _ _ _ _) t1 h1 inv1 (by omega)
              refine ⟨t2, T2, ?_, h2, ?_, hn2, hb2, hne2⟩
              · simp only [Tree.ptr_node] at el
                simp [RbTree.insertFixUpLoop, e1, e2, hc1, eb, el]
              · rw [hl2]
                apply toList_plug_congr
                cases f1 <;> simp
            · cases f1 with
              | L cp ap kp vp pr =>
                simp only [Frame.color_L] at hc1
                subst hc1
                obtain ⟨t1, eb, h1⟩ := h.insertFixUpBody_left_left hu
                have inv1 : InsInv (Frame.L BLACK ap kp vp (node RED pr ag kg vg u) :: rest)
                    (node RED sl a sk sv sr) := by
                  simp [ctxBal, ctxNRR, rootColor] at hnrr hbal hcbal hcnrr htop hf2 hu
                  casesm* _ ∧ _
                  subst_vars
                  try simp only [Tree.blk_BLACK, Tree.blk_RED] at *
                  constructor <;> (try simp [ctxBal, ctxNRR, rootColor]) <;> (try split_ands) <;>
                    first
                    | assumption
                    | omega
                    | (refine ctxBal_congr (by assumption) ?_; omega)
                obtain ⟨t2, T2, el, h2, hl2, hn2, hb2, hne2⟩ :=
                  ih (Frame.L BLACK ap kp vp (node RED pr ag kg vg u) :: rest)
                    (node RED sl a sk sv sr) t1 h1 inv1 (by simp only [List.length_cons]; omega)
                refine ⟨t2, T2, ?_, h2, ?_, hn2, hb2, hne2⟩
                · simp only [Tree.ptr_node] at el
                  simp at e1 e2
                  simp [RbTree.insertFixUpLoop, e1, e2, eb, el]
                · rw [hl2]
                  simp only [plug_cons]
                  apply toList_plug_congr
                  simp
              | R cp pl ap kp vp =>
                simp only [Frame.color_R] at hc1
                subst hc1
                obtain ⟨t1, eb, h1⟩ := h.insertFixUpBody_left_right hu
                have inv1 : InsInv (Frame.L BLACK a sk sv (node RED sr ag kg vg u) :: rest)
                    (node RED pl ap kp vp sl) := by
                  simp [ctxBal, ctxNRR, rootColor] at hnrr hbal hcbal hcnrr htop hf2 hu
                  casesm* _ ∧ _
                  subst_vars
                  try simp only [Tree.blk_BLACK, Tree.blk_RED] at *
                  constructor <;> (try simp [ctxBal, ctxNRR, rootColor]) <;> (try split_ands) <;>
                    first
                    | assumption
                    | omega
                    | (refine ctxBal_congr (by assumption) ?_; omega)
                obtain ⟨t2, T2, el, h2, hl2, hn2, hb2, hne2⟩ :=
                  ih (Frame.L BLACK a sk sv (node RED sr ag kg vg u) :: rest)
                    (node RED pl ap kp vp sl) t1 h1 inv1 (by simp only [List.length_cons]; omega)
                refine ⟨t2, T2, ?_, h2, ?_, hn2, hb2, hne2⟩
                · simp only [Tree.ptr_node] at el
                  simp at e1 e2
                  simp [RbTree.insertFixUpLoop, e1, e2, eb, el]
                · rw [hl2]
                  simp only [plug_cons]
                  apply toList_plug_congr
                  simp
          | R cg u ag kg vg =>
            rcases u.color_cases with hu | hu
            · obtain ⟨ul, ua, uk, uv, ur, rfl⟩ := Tree.eq_node_of_red hu
              obtain ⟨t1, eb, h1⟩ := h.insertFixUpBody_right_red
              have inv1 : InsInv rest (node RED (node BLACK ul ua uk uv ur) ag kg vg
                  ((f1.setColor BLACK).fill (node RED sl a sk sv sr))) := by
                cases f1 <;> simp only [Frame.color_L, Frame.color_R] at hc1 <;> subst hc1
                all_goals
                  simp [ctxBal, ctxNRR, rootColor] at hnrr hbal hcbal hcnrr htop hf2
                  casesm* _ ∧ _
                  subst_vars
                  try simp only [Tree.blk_BLACK, Tree.blk_RED] at *
                  constructor <;> (try simp [ctxBal, ctxNRR, rootColor]) <;> (try split_ands) <;>
                    first
                    | assumption
                    | omega
                    | (refine ctxBal_congr (by assumption) ?_; omega)
              obtain ⟨t2, T2, el, h2, hl2, hn2, hb2, hne2⟩ :=
                ih rest (node RED _ _ _ _ _) t1 h1 inv1 (by omega)
              refine ⟨t2, T2, ?_, h2, ?_, hn2, hb2, hne2⟩
              · simp only [Tree.ptr_node] at el
                simp [RbTree.insertFixUpLoop, e1, e2, hc1, eb, el]
              · rw [hl2]
                apply toList_plug_congr
                cases f1 <;> simp
            · cases f1 with
              | R cp pl ap kp vp =>
                simp only [Frame.color_R] at hc1
                subst hc1
                obtain ⟨t1, eb, h1⟩ := h.insertFixUpBody_right_right hu
                have inv1 : InsInv (Frame.R BLACK (node RED u ag kg vg pl) ap kp vp :: rest)
                    (node RED sl a sk sv sr) := by
                  simp [ctxBal, ctxNRR, rootColor] at hnrr hbal hcbal hcnrr htop hf2 hu
                  casesm* _ ∧ _
                  subst_vars
                  try simp only [Tree.blk_BLACK, Tree.blk_RED] at *
                  constructor <;> (try simp [ctxBal, ctxNRR, rootColor]) <;> (try split_ands) <;>
                    first
                    | assumption
                    | omega
                    | (refine ctxBal_congr (by assumption) ?_; omega)
                obtain ⟨t2, T2, el, h2, hl2, hn2, hb2, hne2⟩ :=
                  ih (Frame.R BLACK (node RED u ag kg vg pl) ap kp vp :: rest)
                    (node RED sl a sk sv sr) t1 h1 inv1 (by simp only [List.length_cons]; omega)
                refine ⟨t2, T2, ?_, h2, ?_, hn2, hb2, hne2⟩
                · simp only [Tree.ptr_node] at el
                  simp at e1 e2
                  simp [RbTree.insertFixUpLoop, e1, e2, eb, el]
                · rw [hl2]
                  simp only [plug_cons]
                  apply toList_plug_congr
                  simp
              | L cp ap kp vp pr =>
                simp only [Frame.color_L] at hc1
                subst hc1
                obtain ⟨t1, eb, h1⟩ := h.insertFixUpBody_right_left hu
                have inv1 : InsInv (Frame.R BLACK (node RED u ag kg vg sl) a sk sv :: rest)
                    (node RED sr ap kp vp pr) := by
                  simp [ctxBal, ctxNRR, rootColor] at hnrr hbal hcbal hcnrr htop hf2 hu
                  casesm* _ ∧ _
                  subst_vars
                  try simp only [Tree.blk_BLACK, Tree.blk_RED] at *
                  constructor <;> (try simp [ctxBal, ctxNRR, rootColor]) <;> (try split_ands) <;>
                    first
                    | assumption
                    | omega
                    | (refine ctxBal_congr (by assumption) ?_; omega)
                obtain ⟨t2, T2, el, h2, hl2, hn2, hb2, hne2⟩ :=
                  ih (Frame.R BLACK (node RED u ag kg vg sl) a sk sv :: rest)
                    (node RED sr ap kp vp pr) t1 h1 inv1 (by simp only [List.length_cons]; omega)
                refine ⟨t2, T2, ?_, h2, ?_, hn2, hb2, hne2⟩
                · simp only [Tree.ptr_node] at el
                  simp at e1 e2
                  simp [RbTree.insertFixUpLoop, e1, e2, eb, el]
                · rw [hl2]
                  simp only [plug_cons]
                  apply toList_plug_congr
                  simp
      · -- BLACK parent
        refine ⟨t, _, ?_, h, rfl, ?_, ?_, ?_⟩
        · simp [RbTree.insertFixUpLoop, e1, e2, hc1]
        · rw [noRedRed_plug]
          exact ⟨hnrr, by simp [hc1], hcnrr⟩
        · rw [balanced_plug]
          exact ⟨hbal, hcbal⟩
        · exact plug_ne_leaf _ (by simp)

end RbSpec

namespace RbSpec

open Color Tree

variable {K V : Type}

variable {d : Int}

/-! ## Traversals of a shaped store -/

theorem viewFrom_cells {t : RbTree K V} (hnull : t.null = some 0) :
    ∀ (S : Tree K V) (par : Nat), (∀ c ∈ S.cells par, t.mem c.1 = c.2) →
      (∀ a ∈ S.addrs, 0 < a) → ∀ n, S.height < n → t.viewFrom n (some S.ptr) = .ok S := by
  intro S
  induction S with
  | leaf =>
    intro par _ _ n hn
    cases n with
    | zero => exact absurd hn (Nat.not_lt_zero _)
    | succ n => simp [RbTree.viewFrom, hnull]
  | node c l a k v r ihl ihr =>
    intro par hc hp n hn
    cases n with
    | zero => exact absurd hn (Nat.not_lt_zero _)
    | succ n =>
      have ha : t.mem a = Tree.cell c l k v r par := hc (a, Tree.cell c l k v r par)
        (by simp [Tree.cells])
      have ha0 : a ≠ 0 := by
        have := hp a (by simp [Tree.addrs]); omega
      simp only [Tree.height] at hn
      have hl : l.height < n := by
        have := Nat.le_max_left l.height r.height
        simp only [Nat.max_def] at *
        split at hn <;> omega
      have hr : r.height < n := by
        have := Nat.le_max_right l.height r.height
        simp only [Nat.max_def] at *
        split at hn <;> omega
      have e1 := ihl a (fun c1 h1 => hc c1 (by simp [Tree.cells, h1]))
        (fun b hb => hp b (by simp [Tree.addrs, hb])) n hl
      have e2 := ihr a (fun c1 h1 => hc c1 (by simp [Tree.cells, h1]))
        (fun b hb => hp b (by simp [Tree.addrs, hb])) n hr
      simp [RbTree.viewFrom, hnull, ha0, ha, Tree.cell, e1, e2]

/-- The list of calls of the callback for a tree. -/
def calls (S : Tree K V) : List (Option K × Option V) :=
  S.toList.map (fun p => (some p.1, some p.2))

theorem dfs_cells {t : RbTree K V} (hnull : t.null = some 0) :
    ∀ (S : Tree K V) (par : Nat), (∀ c ∈ S.cells par, t.mem c.1 = c.2) →
      (∀ a ∈ S.addrs, 0 < a) → ∀ n, S.height < n → t.dfs n (some S.ptr) = .ok (calls S) := by
  intro S
  induction S with
  | leaf =>
    intro par _ _ n hn
    cases n with
    | zero => exact absurd hn (Nat.not_lt_zero _)
    | succ n => simp [RbTree.dfs, hnull, calls]
  | node c l a k v r ihl ihr =>
    intro par hc hp n hn
    cases n with
    | zero => exact absurd hn (Nat.not_lt_zero _)
    | succ n =>
      have ha : t.mem a = Tree.cell c l k v r par := hc (a, Tree.cell c l k v r par)
        (by simp [Tree.cells])
      have ha0 : a ≠ 0 := by
        have := hp a (by simp [Tree.addrs]); omega
      simp only [Tree.height] at hn
      have hl : l.height < n := by
        have := Nat.le_max_left l.height r.height
        simp only [Nat.max_def] at *
        split at hn <;> omega
      have hr : r.height < n := by
        have := Nat.le_max_right l.height r.height
        simp only [Nat.max_def] at *
        split at hn <;> omega
      have e1 := ihl a (fun c1 h1 => hc c1 (by simp [Tree.cells, h1]))
        (fun b hb => hp b (by simp [Tree.addrs, hb])) n hl
      have e2 := ihr a (fun c1 h1 => hc c1 (by simp [Tree.cells, h1]))
        (fun b hb => hp b (by simp [Tree.addrs, hb])) n hr
      simp only [Tree.ptr_node] at e1 e2 ⊢
      simp [RbTree.dfs, hnull, ha0, RbTree.getLeft, RbTree.getRight, RbTree.getKey,
        RbTree.getValue, ha, Tree.cell, e1, e2, calls]

namespace Shape

variable {t : RbTree K V} {T : Tree K V}

theorem length_lt_next (h : Shape d t T) : T.addrs.length < t.next := by
  rcases length_lt_of_nodup_pos h.nodup h.pos with h1 | ⟨_, h1⟩
  · omega
  · have := h.next_pos; omega

theorem height_lt_fuel (h : Shape d t T) : T.height < t.fuel := by
  have := h.length_lt_next
  have := T.height_le_length
  simp only [RbTree.fuel]
  omega

/-- Reading the tree back from the store gives the tree of the shape. -/
theorem view (h : Shape d t T) : t.view = .ok T := by
  have := viewFrom_cells h.null_eq T 0 h.cells (fun a ha => (h.pos a ha).1) t.fuel
    h.height_lt_fuel
  simpa [RbTree.view, h.root_eq] using this

/-- Method `Range` visits the entries of the tree in order. -/
theorem range (h : Shape d t T) : t.Range = .ok (calls T) := by
  have := dfs_cells h.null_eq T 0 h.cells (fun a ha => (h.pos a ha).1) t.fuel
    h.height_lt_fuel
  simpa [RbTree.Range, h.root_eq] using this

/-- Two shapes of the same store are the same tree. -/
theorem unique {T1 : Tree K V} (h : Shape d t T) (h1 : Shape d t T1) : T = T1 := by
  have e := h.view
  rw [h1.view] at e
  injection e with e
  exact e.symm

end Shape

end RbSpec

namespace RbSpec

open Color Tree

variable {K V : Type} [LinearOrder K]

variable {d : Int}

/-! ## The descent of `Insert` -/

/-- The frames down to the sentinel link where the descent of `Insert` for `key`
ends, or `none` when it meets a node with an equal key. -/
def insPath (key : K) : Tree K V → List (Frame K V) → Option (List (Frame K V))
  | leaf, fs => some fs
  | node c l a k v r, fs =>
    if k < key then insPath key r (Frame.R c l a k v :: fs)
    else if k = key then none
    else insPath key l (Frame.L c a k v r :: fs)

/-- The side of a frame the hole is on agrees with the order of its key and `key`. -/
def Frame.Dir (key : K) : Frame K V → Prop
  | Frame.L _ _ k _ _ => key < k
  | Frame.R _ _ _ k _ => k < key

theorem insPath_plug (key : K) : ∀ (s : Tree K V) (fs fs1 : List (Frame K V)),
    insPath key s fs = some fs1 → plug fs1 leaf = plug fs s := by
  intro s
  induction s with
  | leaf => intro fs fs1 h; simp [insPath] at h; rw [h]
  | node c l a k v r ihl ihr =>
    intro fs fs1 h
    simp only [insPath] at h
    split at h
    · exact ihr _ _ h
    · split at h
      · exact absurd h (by simp)
      · exact ihl _ _ h

theorem insPath_dir (key : K) : ∀ (s : Tree K V) (fs fs1 : List (Frame K V)),
    insPath key s fs = some fs1 → (∀ f ∈ fs, f.Dir key) → ∀ f ∈ fs1, f.Dir key := by
  intro s
  induction s with
  | leaf => intro fs fs1 h hd; simp [insPath] at h; rw [← h]; exact hd
  | node c l a k v r ihl ihr =>
    intro fs fs1 h hd
    simp only [insPath] at h
    split at h
    · rename_i hlt
      apply ihr _ _ h
      intro f hf
      rcases List.mem_cons.1 hf with e | e
      · rw [e]; exact hlt
      · exact hd f e
    · split at h
      · exact absurd h (by simp)
      · rename_i hlt hne
        apply ihl _ _ h
        intro f hf
        rcases List.mem_cons.1 hf with e | e
        · rw [e]
          exact lt_of_le_of_ne (not_lt.1 hlt) (fun e1 => hne e1.symm)
        · exact hd f e

theorem insPath_none_mem (key : K) : ∀ (s : Tree K V) (fs : List (Frame K V)),
    insPath key s fs = none → key ∈ s.keys := by
  intro s
  induction s with
  | leaf => intro fs h; simp [insPath] at h
  | node c l a k v r ihl ihr =>
    intro fs h
    simp only [insPath] at h
    simp only [Tree.keys, Tree.toList_node, List.map_append, List.map_cons, List.mem_append,
      List.mem_cons]
    split at h
    · right; right; exact ihr _ h
    · split at h
      · rename_i e; right; left; exact e.symm
      · left; exact ihl _ h

theorem InsertLoop_spec {t : RbTree K V} (key : K) :
    ∀ (s : Tree K V) (fs : List (Frame K V)) (n : Nat), Shape d t (plug fs s) → s.height < n →
      t.InsertLoop key n (some (ctxPtr fs)) (some s.ptr) =
        .ok ((insPath key s fs).map (fun fs1 => some (ctxPtr fs1))) := by
  intro s
  induction s with
  | leaf =>
    intro fs n h hn
    cases n with
    | zero => exact absurd hn (Nat.not_lt_zero _)
    | succ n => simp [RbTree.InsertLoop, h.null_eq, insPath]
  | node c l a k v r ihl ihr =>
    intro fs n h hn
    cases n with
    | zero => exact absurd hn (Nat.not_lt_zero _)
    | succ n =>
      have ha0 := h.focus_ne_zero
      have e1 := h.recvKey_focus
      have e2 := h.getLeft_focus
      have e3 := h.getRight_focus
      simp only [Tree.height] at hn
      have hl : l.height < n := by
        have := Nat.le_max_left l.height r.height
        simp only [Nat.max_def] at *
        split at hn <;> omega
      have hr : r.height < n := by
        have := Nat.le_max_right l.height r.height
        simp only [Nat.max_def] at *
        split at hn <;> omega
      have il := ihl (Frame.L c a k v r :: fs) n h hl
      have ir := ihr (Frame.R c l a k v :: fs) n h hr
      simp only [ctxPtr_cons, Frame.ptr_L, Frame.ptr_R] at il ir
      by_cases hlt : k < key
      · simp [RbTree.InsertLoop, h.null_eq, ha0, e1, e3, RbTree.Less, hlt, insPath, ir]
      · by_cases heq : k = key
        · simp [RbTree.InsertLoop, h.null_eq, ha0, e1, RbTree.Less, RbTree.Equal, hlt, heq, insPath]
        · simp [RbTree.InsertLoop, h.null_eq, ha0, e1, e2, RbTree.Less, RbTree.Equal, hlt, heq, insPath, il]

end RbSpec

namespace RbSpec

open Color Tree

variable {K V : Type}

variable {d : Int}

/-! ## Linking the new node -/

namespace Shape

/-- A store that differs from a shaped one by a fresh RED node hung on the
sentinel link at the focus. -/
theorem link {t t3 : RbTree K V} {fs : List (Frame K V)} (h : Shape d t (plug fs leaf))
    (key : K) (val : V)
    (hnull : t3.null = t.null) (hnext : t3.next = t.next + 1)
    (hcount : t3.count = t.count + 1)
    (hroot : t3.root = if ctxPtr fs = 0 then some t.next else t.root)
    (hnew : t3.mem t.next = Tree.cell RED leaf key val leaf (ctxPtr fs))
    (htop : ∀ f fs1, fs = f :: fs1 → t3.mem f.ptr = f.cell t.next (ctxPtr fs1))
    (hother : ∀ a, a ≠ t.next → a ≠ ctxPtr fs ∨ ctxPtr fs = 0 → t3.mem a = t.mem a) :
    Shape d t3 (plug fs (node RED leaf t.next key val leaf)) := by
  have hnd := h.nodup_plug
  have hpp := h.pos_plug
  have hnp := h.next_pos
  simp only [Tree.addrs, List.nil_append] at hnd hpp
  have hfresh : t.next ∉ ctxAddrs fs := fun hm => by
    have := (hpp _ hm).2; omega
  have h0 : t3.mem 0 = t.mem 0 := by
    apply hother 0 (by omega)
    by_cases e : ctxPtr fs = 0
    · right; exact e
    · left; exact fun e1 => e e1.symm
  apply mk_plug (hnull.trans h.null_eq)
  · rw [hroot]
    cases fs with
    | nil => simp [ctxRoot]
    | cons f fs1 =>
      have := h.top_ne_zero
      simp only [ctxPtr_cons, this, if_false]
      rw [h.root_plug]
      simp [ctxRoot]
  · intro c hc
    simp only [Tree.cells, List.nil_append, List.mem_singleton] at hc
    subst hc
    exact hnew
  · intro c hc
    cases fs with
    | nil => simp [ctxCells] at hc
    | cons f fs1 =>
      simp only [ctxCells, Tree.ptr_node, List.mem_cons, List.mem_append] at hc
      rcases hc with hc | hc
      · subst hc
        exact htop f fs1 rfl
      · have hm : c.1 ∈ f.sib.addrs ++ ctxAddrs fs1 := by
          rcases hc with hc | hc
          · exact List.mem_append_left _ (Tree.mem_cells_addr hc)
          · exact List.mem_append_right _ (mem_ctxCells_addr hc)
        have hmF : c.1 ∈ ctxAddrs (f :: fs1) := by
          simp only [ctxAddrs, List.mem_cons]; right; exact hm
        have hne : c.1 ≠ f.ptr := by
          intro e; rw [e] at hm
          simp only [ctxAddrs, List.nodup_cons] at hnd
          exact hnd.1 hm
        have hne2 : c.1 ≠ t.next := fun e => hfresh (e ▸ hmF)
        rw [hother c.1 hne2 (Or.inl hne)]
        exact h.ctx_cells c (by
          simp only [ctxCells, Tree.ptr_leaf, List.mem_cons, List.mem_append]
          right; exact hc)
  · simp only [Tree.addrs, List.nil_append, List.cons_append, List.nodup_cons]
    exact ⟨hfresh, hnd⟩
  · intro a ha
    simp only [Tree.addrs, List.nil_append, List.cons_append, List.mem_cons] at ha
    rw [hnext]
    rcases ha with e | e
    · rw [e]; omega
    · have := hpp a e; omega
  · rw [h0]; exact h.nil_color
  · rw [h0]; exact h.nil_left
  · rw [h0]; exact h.nil_right
  · rw [hnext]; omega
  · rw [hcount, h.count_eq, (addrs_plug _ _).length_eq]
    simp only [Tree.addrs, List.nil_append, List.length_cons, List.length_append,
      List.length_nil]
    push_cast
    omega

end Shape

/-! ## Method `insertFixUp` and method `Insert` -/

theorem length_le_ctxAddrs (fs : List (Frame K V)) : fs.length ≤ (ctxAddrs fs).length := by
  induction fs with
  | nil => simp [ctxAddrs]
  | cons f fs ih => simp only [ctxAddrs, List.length_cons, List.length_append]; omega

theorem insertFixUp_spec {t : RbTree K V} {fs : List (Frame K V)} {s : Tree K V}
    (h : Shape d t (plug fs s)) (inv : InsInv fs s) :
    ∃ t1 T1, t.insertFixUp (some s.ptr) = .ok t1 ∧ Shape d t1 T1 ∧
      T1.toList = (plug fs s).toList ∧ T1.isRB := by
  have hlen : fs.length < t.fuel := by
    have h1 := h.length_lt_next
    rw [(addrs_plug fs s).length_eq] at h1
    have := length_le_ctxAddrs fs
    simp only [List.length_append, RbTree.fuel] at *
    omega
  obtain ⟨t1, T1, e1, h1, hl1, hn1, hb1, hne1⟩ := insertFixUpLoop_spec _ fs s t h inv hlen
  cases T1 with
  | leaf => exact absurd rfl hne1
  | node c l a k v r =>
    have h1f : Shape d t1 (plug [] (node c l a k v r)) := h1
    obtain ⟨t2, e2, h2, -⟩ := h1f.setColor BLACK
    refine ⟨t2, _, ?_, h2, ?_, ?_⟩
    · have hr := h1.root_eq
      simp only [Tree.ptr_node] at hr
      simp [RbTree.insertFixUp, e1, hr, e2]
    · simpa using hl1
    · simp only [noRedRed_node, balanced_node] at hn1 hb1
      exact ⟨rfl, by simp [hn1.2], by simpa using hb1⟩

variable [LinearOrder K]

/-- What `Insert` does on a shaped store holding a red-black tree: nothing when
the descent meets an equal key, otherwise the new entry is put on the sentinel
link where the descent ends and the colors are repaired. -/
theorem Insert_spec {t : RbTree K V} {T : Tree K V} (h : Shape d t T) (hrb : T.isRB)
    (key : K) (val : V) :
    match insPath key T [] with
    | none => t.Insert key val = .ok (t, false)
    | some fs => ∃ t1 T1, t.Insert key val = .ok (t1, true) ∧ Shape d t1 T1 ∧ T1.isRB ∧
        T1.toList = (plug fs (node RED leaf t.next key val leaf)).toList := by
  have hT : Shape d t (plug [] T) := h
  have eloop := InsertLoop_spec key T [] t.fuel hT h.height_lt_fuel
  simp only [ctxPtr_nil] at eloop
  cases hp : insPath key T [] with
  | none =>
    simp only [hp, Option.map_none'] at eloop
    simp [RbTree.Insert, h.null_eq, h.root_eq, eloop]
  | some fs =>
    simp only [hp, Option.map_some'] at eloop
    have hplug := insPath_plug key T [] fs hp
    have hdir := insPath_dir key T [] fs hp (by simp)
    simp only [plug_nil] at hplug
    have hfs : Shape d t (plug fs leaf) := hplug ▸ h
    have hnp := h.next_pos
    have inv : InsInv fs (node RED leaf t.next key val leaf) := by
      obtain ⟨hc, hn, hb⟩ := hrb
      rw [← hplug] at hc hn hb
      rw [color_plug] at hc
      rw [noRedRed_plug] at hn
      rw [balanced_plug] at hb
      exact ⟨rfl, by simp, by simp, by simpa using hb.2, hn.2.2, by simpa using hc⟩
    have step : ∀ t3 : RbTree K V, Shape d t3 (plug fs (node RED leaf t.next key val leaf)) →
        ∃ t1 T1, (t3.insertFixUp (some t.next) >>= fun t4 => pure (t4, true)) = .ok (t1, true) ∧
          Shape d t1 T1 ∧ T1.isRB ∧
          T1.toList = (plug fs (node RED leaf t.next key val leaf)).toList := by
      intro t3 h3
      obtain ⟨t4, T4, e4, h4, hl4, hrb4⟩ := insertFixUp_spec h3 inv
      simp only [Tree.ptr_node] at e4
      exact ⟨t4, T4, by rw [e4]; rfl, h4, hrb4, hl4⟩
    cases fs with
    | nil =>
      simp only [ctxPtr_nil] at eloop
      simp only [RbTree.Insert, RbTree.newRbTreeNode, h.null_eq, h.root_eq, eloop, Res.ok_bind]
      simp only [if_true, Res.pure_eq, Res.ok_bind]
      apply step
      apply hfs.link key val
      · exact h.null_eq.symm
      · rfl
      · rfl
      · simp
      · simp [Tree.cell]
      · intro f fs1 e; exact absurd e (by simp)
      · intro a ha _
        exact Function.update_noteq ha _ _
    | cons f fs1 =>
      have hf0 := hfs.top_ne_zero
      have hfn : f.ptr ≠ t.next := by
        have := (hfs.pos_plug f.ptr (by simp [ctxAddrs])).2; omega
      have hfc := hfs.ctx_top_cell
      have hd : f.Dir key := hdir f (by simp)
      simp only [ctxPtr_cons] at eloop
      simp only [RbTree.Insert, RbTree.newRbTreeNode, h.null_eq, h.root_eq, eloop, Res.ok_bind]
      cases f with
      | L c a k v r =>
        simp only [Frame.Dir] at hd
        simp only [Frame.ptr_L, Frame.cell, Tree.ptr_leaf] at hf0 hfn hfc
        have hnl : ¬ k < key := not_lt.2 (le_of_lt hd)
        simp [RbTree.recvKey, RbTree.setLeft, RbTree.setRight, RbTree.store, hf0, hfn, hfc,
          RbTree.Less, hnl]
        refine (fun ⟨t1, T1, e, h1, h2, h3⟩ => ⟨t1, e, T1, h1, h2, h3⟩) (step _ ?_)
        apply hfs.link key val
        · exact h.null_eq.symm
        · rfl
        · rfl
        · simp [hf0, h.root_eq]
        · simp [Tree.cell, hfn.symm, Function.update_apply]
        · intro f fs2 e
          simp only [List.cons.injEq] at e
          obtain ⟨rfl, rfl⟩ := e
          simp [Frame.cell, Function.update_apply]
        · intro b hb1 hb2
          simp only [ctxPtr_cons, Frame.ptr_L, hf0, or_false] at hb2
          simp [Function.update_apply, hb1, hb2]
      | R c l a k v =>
        simp only [Frame.Dir] at hd
        simp only [Frame.ptr_R, Frame.cell, Tree.ptr_leaf] at hf0 hfn hfc
        simp [RbTree.recvKey, RbTree.setLeft, RbTree.setRight, RbTree.store, hf0, hfn, hfc,
          RbTree.Less, hd]
        refine (fun ⟨t1, T1, e, h1, h2, h3⟩ => ⟨t1, e, T1, h1, h2, h3⟩) (step _ ?_)
        apply hfs.link key val
        · exact h.null_eq.symm
        · rfl
        · rfl
        · simp [hf0, h.root_eq]
        · simp [Tree.cell, hfn.symm, Function.update_apply]
        · intro f fs2 e
          simp only [List.cons.injEq] at e
          obtain ⟨rfl, rfl⟩ := e
          simp [Frame.cell, Function.update_apply]
        · intro b hb1 hb2
          simp only [ctxPtr_cons, Frame.ptr_R, hf0, or_false] at hb2
          simp [Function.update_apply, hb1, hb2]

end RbSpec

namespace RbSpec

open Color Tree

variable {K V : Type}

/-! ## Order of the entries -/

/-- Entries left of the focus. -/
def ctxL : List (Frame K V) → List (K × V)
  | [] => []
  | Frame.L _ _ _ _ _ :: fs => ctxL fs
  | Frame.R _ l _ k v :: fs => ctxL fs ++ (l.toList ++ [(k, v)])

/-- Entries right of the focus. -/
def ctxR : List (Frame K V) → List (K × V)
  | [] => []
  | Frame.L _ _ k v r :: fs => ((k, v) :: r.toList) ++ ctxR fs
  | Frame.R _ _ _ _ _ :: fs => ctxR fs

theorem toList_plug (fs : List (Frame K V)) (s : Tree K V) :
    (plug fs s).toList = ctxL fs ++ s.toList ++ ctxR fs := by
  induction fs generalizing s with
  | nil => simp [ctxL, ctxR]
  | cons f fs ih =>
    cases f with
    | L c a k v r => simp [plug_cons, ih, ctxL, ctxR]
    | R c l a k v => simp [plug_cons, ih, ctxL, ctxR]

variable [LinearOrder K]

/-- The keys are strictly ascending along the entries. -/
def Tree.sorted (T : Tree K V) : Prop := T.toList.Pairwise (fun x y => x.1 < y.1)

theorem dir_bounds (key : K) : ∀ (fs : List (Frame K V)),
    (ctxL fs ++ ctxR fs).Pairwise (fun x y => x.1 < y.1) → (∀ f ∈ fs, f.Dir key) →
      (∀ x ∈ ctxL fs, x.1 < key) ∧ (∀ x ∈ ctxR fs, key < x.1) := by
  intro fs
  induction fs with
  | nil => intro _ _; simp [ctxL, ctxR]
  | cons f fs ih =>
    intro hs hd
    have hdf := hd f (by simp)
    have hdr : ∀ g ∈ fs, g.Dir key := fun g hg => hd g (by simp [hg])
    cases f with
    | L c a k v r =>
      simp only [ctxL, ctxR, Frame.Dir] at hs hdf ⊢
      have hs1 : (ctxL fs ++ ctxR fs).Pairwise (fun x y => x.1 < y.1) := by
        rw [List.pairwise_append] at hs ⊢
        refine ⟨hs.1, ?_, ?_⟩
        · exact (List.pairwise_append.1 hs.2.1).2.1
        · intro x hx y hy
          exact hs.2.2 x hx y (by simp [hy])
      obtain ⟨i1, i2⟩ := ih hs1 hdr
      refine ⟨i1, ?_⟩
      intro x hx
      simp only [List.cons_append, List.mem_cons, List.mem_append] at hx
      rw [List.pairwise_append] at hs
      have hkr := hs.2.1
      simp only [List.cons_append, List.pairwise_cons] at hkr
      rcases hx with hx | hx | hx
      · rw [hx]; exact hdf
      · exact lt_trans hdf (hkr.1 x (by simp [hx]))
      · exact i2 x hx
    | R c l a k v =>
      simp only [ctxL, ctxR, Frame.Dir] at hs hdf ⊢
      have hs1 : (ctxL fs ++ ctxR fs).Pairwise (fun x y => x.1 < y.1) := by
        rw [List.pairwise_append] at hs ⊢
        refine ⟨?_, hs.2.1, ?_⟩
        · exact (List.pairwise_append.1 hs.1).1
        · intro x hx y hy
          exact hs.2.2 x (by simp [hx]) y hy
      obtain ⟨i1, i2⟩ := ih hs1 hdr
      refine ⟨?_, i2⟩
      intro x hx
      simp only [List.mem_append, List.mem_singleton] at hx
      rw [List.pairwise_append] at hs
      have hlk := hs.1
      rw [List.pairwise_append, List.pairwise_append] at hlk
      rcases hx with hx | hx | hx
      · exact i1 x hx
      · have : x.1 < k := hlk.2.1.2.2 x hx (k, v) (by simp)
        exact lt_trans this hdf
      · rw [hx]; exact hdf

/-- The descent for an absent key of a sorted tree ends where the key belongs. -/
theorem insPath_sorted {T : Tree K V} (hs : T.sorted) {key : K} {fs : List (Frame K V)}
    (hp : insPath key T [] = some fs) (c : Color) (a : Nat) (val : V) :
    key ∉ T.keys ∧ (plug fs (node c leaf a key val leaf)).sorted ∧
      ∀ x, x ∈ (plug fs (node c leaf a key val leaf)).toList ↔ x ∈ T.toList ∨ x = (key, val) := by
  have hplug := insPath_plug key T [] fs hp
  have hdir := insPath_dir key T [] fs hp (by simp)
  simp only [plug_nil] at hplug
  have hT : T.toList = ctxL fs ++ ctxR fs := by
    rw [← hplug, toList_plug]; simp
  have hs1 : (ctxL fs ++ ctxR fs).Pairwise (fun x y => x.1 < y.1) := by
    rw [← hT]; exact hs
  obtain ⟨b1, b2⟩ := dir_bounds key fs hs1 hdir
  refine ⟨?_, ?_, ?_⟩
  · simp only [Tree.keys, hT, List.map_append, List.mem_append, List.mem_map, not_or]
    constructor
    · rintro ⟨x, hx, e⟩
      have := b1 x hx
      rw [e] at this
      exact lt_irrefl _ this
    · rintro ⟨x, hx, e⟩
      have := b2 x hx
      rw [e] at this
      exact lt_irrefl _ this
  · simp only [Tree.sorted, toList_plug, Tree.toList_node, Tree.toList_leaf, List.nil_append]
    rw [List.pairwise_append] at hs1
    rw [List.pairwise_append, List.pairwise_append]
    refine ⟨⟨hs1.1, by simp, ?_⟩, hs1.2.1, ?_⟩
    · intro x hx y hy
      simp only [List.mem_singleton] at hy
      rw [hy]; exact b1 x hx
    · intro x hx y hy
      simp only [List.mem_append, List.mem_singleton] at hx
      rcases hx with hx | hx
      · exact hs1.2.2 x hx y hy
      · rw [hx]; exact b2 y hy
  · intro x
    simp only [toList_plug, hT, Tree.toList_node, Tree.toList_leaf, List.nil_append,
      List.mem_append, List.mem_singleton]
    tauto

end RbSpec

namespace RbSpec

open Color Tree

variable {K V : Type} [LinearOrder K]

variable {d : Int}

/-! ## Sequences of `Insert` calls -/

/-- Run a sequence of `Insert(key, value)` calls, dropping the boolean results. -/
def insertAll (t : RbTree K V) : List (K × V) → Res (RbTree K V)
  | [] => pure t
  | (k, v) :: ops => do
    let (t1, _) ← t.Insert k v
    insertAll t1 ops

theorem shape_new : Shape 0 (NewRbTree : RbTree K V) leaf where
  null_eq := rfl
  root_eq := rfl
  cells := by intro c hc; simp [Tree.cells] at hc
  nodup := by simp [Tree.addrs]
  pos := by intro a ha; simp [Tree.addrs] at ha
  nil_color := rfl
  nil_left := rfl
  nil_right := rfl
  next_pos := by simp [NewRbTree]
  count_eq := by simp [NewRbTree, Tree.addrs]

theorem isRB_leaf : (leaf : Tree K V).isRB := ⟨rfl, trivial, trivial⟩

theorem sorted_leaf : (leaf : Tree K V).sorted := by simp [Tree.sorted]

theorem mem_keys_iff {T : Tree K V} {k : K} : k ∈ T.keys ↔ ∃ v, (k, v) ∈ T.toList := by
  simp [Tree.keys]

/-- One `Insert` on a shaped store holding a red-black tree, whatever the order of
its keys: the call returns and the result is again a red-black tree. -/
theorem Insert_isRB {t : RbTree K V} {T : Tree K V} (h : Shape d t T) (hrb : T.isRB)
    (key : K) (val : V) :
    ∃ t1 T1 b, t.Insert key val = .ok (t1, b) ∧ Shape d t1 T1 ∧ T1.isRB := by
  have hi := Insert_spec h hrb key val
  cases hp : insPath key T [] with
  | none =>
    simp only [hp] at hi
    exact ⟨t, T, false, hi, h, hrb⟩
  | some fs =>
    simp only [hp] at hi
    obtain ⟨t1, T1, e, h1, hrb1, -⟩ := hi
    exact ⟨t1, T1, true, e, h1, hrb1⟩

/-- One `Insert` on a shaped store holding a sorted red-black tree. -/
theorem Insert_sorted {t : RbTree K V} {T : Tree K V} (h : Shape d t T) (hrb : T.isRB)
    (hs : T.sorted) (key : K) (val : V) :
    ∃ t1 T1 b, t.Insert key val = .ok (t1, b) ∧ Shape d t1 T1 ∧ T1.isRB ∧ T1.sorted ∧
      (b = false ↔ key ∈ T.keys) ∧ (b = false → t1 = t) ∧
      (∀ x, x ∈ T1.toList ↔ x ∈ T.toList ∨ (key ∉ T.keys ∧ x = (key, val))) := by
  have hi := Insert_spec h hrb key val
  cases hp : insPath key T [] with
  | none =>
    simp only [hp] at hi
    have hm := insPath_none_mem key T [] hp
    refine ⟨t, T, false, hi, h, hrb, hs, by simp [hm], fun _ => rfl, ?_⟩
    intro x
    simp [hm]
  | some fs =>
    simp only [hp] at hi
    obtain ⟨t1, T1, e, h1, hrb1, hl1⟩ := hi
    obtain ⟨hn, hs1, hm1⟩ := insPath_sorted hs hp RED t.next val
    refine ⟨t1, T1, true, e, h1, hrb1, ?_, by simp [hn], by simp, ?_⟩
    · simp only [Tree.sorted, hl1]; exact hs1
    · intro x
      rw [hl1, hm1 x]
      simp [hn]

theorem insertAll_isRB : ∀ (ops : List (K × V)) (t : RbTree K V) (T : Tree K V),
    Shape d t T → T.isRB → ∃ t1 T1, insertAll t ops = .ok t1 ∧ Shape d t1 T1 ∧ T1.isRB := by
  intro ops
  induction ops with
  | nil => intro t T h hrb; exact ⟨t, T, rfl, h, hrb⟩
  | cons op ops ih =>
    intro t T h hrb
    obtain ⟨k, v⟩ := op
    obtain ⟨t1, T1, b, e, h1, hrb1⟩ := Insert_isRB h hrb k v
    obtain ⟨t2, T2, e2, h2, hrb2⟩ := ih t1 T1 h1 hrb1
    exact ⟨t2, T2, by simp [insertAll, e, e2], h2, hrb2⟩

theorem insertAll_sorted : ∀ (ops : List (K × V)) (t : RbTree K V) (T : Tree K V),
    Shape d t T → T.isRB → T.sorted →
      ∃ t1 T1, insertAll t ops = .ok t1 ∧ Shape d t1 T1 ∧ T1.isRB ∧ T1.sorted ∧
        ∀ k v, (k, v) ∈ T1.toList ↔
          ((k, v) ∈ T.toList ∨ (k ∉ T.keys ∧ ops.lookup k = some v)) := by
  intro ops
  induction ops with
  | nil =>
    intro t T h hrb hs
    exact ⟨t, T, rfl, h, hrb, hs, by simp⟩
  | cons op ops ih =>
    intro t T h hrb hs
    obtain ⟨k0, v0⟩ := op
    obtain ⟨t1, T1, b, e, h1, hrb1, hs1, -, -, hm1⟩ := Insert_sorted h hrb hs k0 v0
    obtain ⟨t2, T2, e2, h2, hrb2, hs2, hm2⟩ := ih t1 T1 h1 hrb1 hs1
    refine ⟨t2, T2, by simp [insertAll, e, e2], h2, hrb2, hs2, ?_⟩
    intro k v
    rw [hm2 k v]
    have hk1 : ∀ k1, k1 ∈ T1.keys ↔ k1 ∈ T.keys ∨ k1 = k0 := by
      intro k1
      constructor
      · intro hk
        obtain ⟨w, hw⟩ := mem_keys_iff.1 hk
        rcases (hm1 (k1, w)).1 hw with hw | ⟨_, e1⟩
        · exact Or.inl (mem_keys_iff.2 ⟨w, hw⟩)
        · exact Or.inr (Prod.mk.inj e1).1
      · rintro (hk | e1)
        · obtain ⟨w, hw⟩ := mem_keys_iff.1 hk
          exact mem_keys_iff.2 ⟨w, (hm1 (k1, w)).2 (Or.inl hw)⟩
        · by_cases hin : k0 ∈ T.keys
          · exact mem_keys_iff.2 ((mem_keys_iff.1 (e1 ▸ hin)).imp
              (fun w hw => (hm1 (k1, w)).2 (Or.inl hw)))
          · exact mem_keys_iff.2 ⟨v0, (hm1 (k1, v0)).2 (Or.inr ⟨hin, by rw [e1]⟩)⟩
    rw [hm1 (k, v), hk1 k]
    simp only [Prod.mk.injEq, List.lookup_cons, not_or]
    by_cases hk : k = k0
    · subst hk
      simp [eq_comm]
    · have hb : (k == k0) = false := by simpa using hk
      simp [hk, hb]

end RbSpec

namespace RbSpec

open Color Tree

variable {K V : Type}

variable {d : Int}

/-! ## One round of `deleteFixUp` on a shaped store

Here `x` may be the sentinel; its `parent` field then holds what `Delete` wrote
into it, which the shape of the store does not record: the read of `x.parent`
is carried along as a separate fact. -/

theorem ctxRoot_mem (gs : List (Frame K V)) (f : Frame K V) (q : Nat) :
    ctxRoot (f :: gs) q ∈ ctxAddrs (f :: gs) := by
  induction gs generalizing f q with
  | nil => simp [ctxRoot, ctxAddrs]
  | cons g gs ih =>
    have := ih g f.ptr
    simp only [ctxRoot, ctxAddrs, List.mem_cons, List.mem_append] at this ⊢
    tauto

namespace Shape

variable {t : RbTree K V} {gs : List (Frame K V)}

/-- A link into the focus never points to a node outside of it. -/
theorem ptr_not_ctx {X : Tree K V} (h : Shape d t (plug gs X)) {a : Nat}
    (ha : a ∈ ctxAddrs gs) : X.ptr ≠ a := by
  have hnd := h.nodup_plug
  have hpp := h.pos_plug
  apply Tree.ptr_ne_of_not_mem
  · intro hm
    exact (List.nodup_append.1 hnd).2.2 hm ha
  · have := hpp a (List.mem_append_right _ ha); omega

theorem root_ne_focus {f : Frame K V} {X : Tree K V} (h : Shape d t (plug (f :: gs) X)) :
    some X.ptr ≠ t.root := by
  rw [h.root_plug]
  intro e
  injection e with e
  exact h.ptr_not_ctx (ctxRoot_mem gs f X.ptr) e

/-- The focus and a real other subtree of its parent are at different addresses. -/
theorem sib_ptr_ne_gen {f : Frame K V} {X : Tree K V} (h : Shape d t (plug (f :: gs) X))
    (hs : f.sib ≠ leaf) : X.ptr ≠ f.sib.ptr := by
  apply h.ptr_not_ctx
  rcases f.sib.ptr_cases with e | e
  · exact absurd e hs
  · simp [ctxAddrs, e]

/-- The assignment `x.color = BLACK` when `x` is the sentinel. -/
theorem setColor_nil {T : Tree K V} (h : Shape d t T) :
    ∃ t1, t.setColor (some 0) BLACK = .ok t1 ∧ Shape d t1 T := by
  refine ⟨_, rfl, ?_⟩
  have key : ∀ a, (Function.update t.mem 0 { t.mem 0 with color := BLACK }) a = t.mem a := by
    intro a
    by_cases e : a = 0
    · subst e
      rw [Function.update_same]
      have := h.nil_color
      cases hm : t.mem 0
      simp [hm] at this
      simp [this]
    · exact Function.update_noteq e _ _
  have hm : Function.update t.mem 0 { t.mem 0 with color := BLACK } = t.mem := funext key
  have ht : ({ t with mem := Function.update t.mem 0 { t.mem 0 with color := BLACK } } :
      RbTree K V) = t := by
    rw [hm]
  rw [ht]
  exact h

/-- The read of `x.parent` after a step that keeps the sentinel's record. -/
theorem parent_keep {t1 : RbTree K V} {gs1 : List (Frame K V)} {X : Tree K V} {p : Nat}
    (h1 : Shape d t1 (plug gs1 X)) (h0 : t1.mem 0 = t.mem 0)
    (hxp : t.getParent (some X.ptr) = .ok (some p)) (hp : ctxPtr gs1 = p) :
    t1.getParent (some X.ptr) = .ok (some p) := by
  cases X with
  | leaf =>
    simp only [RbTree.getParent, Tree.ptr_leaf, h0] at hxp ⊢
    exact hxp
  | node c l a k v r =>
    rw [← hp]
    exact h1.getParent_focus

end Shape

end RbSpec

namespace RbSpec

open Color Tree

variable {K V : Type}

variable {d : Int}

namespace Shape

variable {t : RbTree K V} {gs : List (Frame K V)}

/-! ### `x` is a left child -/

/-- Sibling BLACK: the block `if w.color == RED` is skipped. -/
theorem deleteFixUpLeftRed_black {cp : Color} {ap : Nat} {kp : K} {vp : V} {W X : Tree K V}
    (h : Shape d t (plug (Frame.L cp ap kp vp W :: gs) X)) (hW : W.color = BLACK) :
    RbTree.deleteFixUpLeftRed t (some X.ptr) (some W.ptr) = .ok (t, some W.ptr) := by
  have hw : Shape d t (plug (Frame.R cp X ap kp vp :: gs) W) := h
  have e1 := hw.getColor_ptr
  simp [RbTree.deleteFixUpLeftRed, e1, hW]

/-- Sibling RED: two recolorings and a left rotation at the parent; the new
sibling is the former left child of the old one. -/
theorem deleteFixUpLeftRed_red {cp : Color} {ap aw : Nat} {kp kw : K} {vp vw : V}
    {wl wr X : Tree K V}
    (h : Shape d t (plug (Frame.L cp ap kp vp (node RED wl aw kw vw wr) :: gs) X))
    (hxp : t.getParent (some X.ptr) = .ok (some ap)) :
    ∃ t1, RbTree.deleteFixUpLeftRed t (some X.ptr) (some aw) = .ok (t1, some wl.ptr) ∧
      Shape d t1 (plug (Frame.L RED ap kp vp wl :: Frame.L BLACK aw kw vw wr :: gs) X) ∧
      t1.mem 0 = t.mem 0 := by
  have hw : Shape d t (plug (Frame.R cp X ap kp vp :: gs) (node RED wl aw kw vw wr)) := h
  have e1 := hw.getColor_focus
  obtain ⟨t1, w1, h1, m1⟩ := hw.setColor BLACK
  have h1x : Shape d t1 (plug (Frame.L cp ap kp vp (node BLACK wl aw kw vw wr) :: gs) X) := h1
  have e2 := h1x.parent_keep m1 hxp rfl
  obtain ⟨t2, w2, h2, m2⟩ := h1x.setColor_top RED
  have e3 := h2.parent_keep m2 e2 rfl
  have h2p : Shape d t2 (plug gs (node RED X ap kp vp (node BLACK wl aw kw vw wr))) := h2
  obtain ⟨t3, w3, h3, m3⟩ := h2p.leftRotate
  have h3x : Shape d t3 (plug (Frame.L RED ap kp vp wl :: Frame.L BLACK aw kw vw wr :: gs) X) :=
    h3
  have e4 := h3x.parent_keep m3 e3 rfl
  have e5 := h3x.getRight_top
  refine ⟨t3, ?_, h3x, by rw [m3, m2, m1]⟩
  simp only [Frame.ptr_L, Frame.rightPtr_L] at w2 e5
  simp [RbTree.deleteFixUpLeftRed, e1, w1, e2, w2, e3, w3, e4, e5]

/-- Sibling BLACK with two BLACK children: the sibling turns RED and `x` moves to
the parent. -/
theorem deleteFixUpLeftBlack_both {cp cw : Color} {ap aw : Nat} {kp kw : K} {vp vw : V}
    {wl wr X : Tree K V}
    (h : Shape d t (plug (Frame.L cp ap kp vp (node cw wl aw kw vw wr) :: gs) X))
    (hxp : t.getParent (some X.ptr) = .ok (some ap))
    (hl : wl.color = BLACK) (hr : wr.color = BLACK) :
    ∃ t1, RbTree.deleteFixUpLeftBlack t (some X.ptr) (some aw) = .ok (t1, some ap) ∧
      Shape d t1 (plug gs (node cp X ap kp vp (node RED wl aw kw vw wr))) ∧
      t1.mem 0 = t.mem 0 := by
  have hw : Shape d t (plug (Frame.R cp X ap kp vp :: gs) (node cw wl aw kw vw wr)) := h
  have e1 := hw.getLeft_focus
  have e2 := hw.getRight_focus
  have hwl : Shape d t (plug (Frame.L cw aw kw vw wr :: Frame.R cp X ap kp vp :: gs) wl) := h
  have hwr : Shape d t (plug (Frame.R cw wl aw kw vw :: Frame.R cp X ap kp vp :: gs) wr) := h
  have e3 := hwl.getColor_ptr
  have e4 := hwr.getColor_ptr
  obtain ⟨t1, w1, h1, m1⟩ := hw.setColor RED
  have h1x : Shape d t1 (plug (Frame.L cp ap kp vp (node RED wl aw kw vw wr) :: gs) X) := h1
  have e5 := h1x.parent_keep m1 hxp rfl
  refine ⟨t1, ?_, h1, m1⟩
  simp [RbTree.deleteFixUpLeftBlack, e1, e2, e3, e4, hl, hr, w1, e5]

/-- Sibling BLACK with a RED right child: three recolorings and a left rotation
at the parent; `x` becomes the root. -/
theorem deleteFixUpLeftBlack_far {cp cw : Color} {ap aw awr : Nat} {kp kw kwr : K}
    {vp vw vwr : V} {wl wrl wrr X : Tree K V}
    (h : Shape d t (plug (Frame.L cp ap kp vp
      (node cw wl aw kw vw (node RED wrl awr kwr vwr wrr)) :: gs) X))
    (hxp : t.getParent (some X.ptr) = .ok (some ap)) :
    ∃ t1, RbTree.deleteFixUpLeftBlack t (some X.ptr) (some aw) = .ok (t1, t1.root) ∧
      Shape d t1 (plug gs (node cp (node BLACK X ap kp vp wl) aw kw vw
        (node BLACK wrl awr kwr vwr wrr))) ∧
      t1.mem 0 = t.mem 0 := by
  have hw : Shape d t (plug (Frame.R cp X ap kp vp :: gs)
      (node cw wl aw kw vw (node RED wrl awr kwr vwr wrr))) := h
  have e1 := hw.getLeft_focus
  have e2 := hw.getRight_focus
  have hwl : Shape d t (plug (Frame.L cw aw kw vw (node RED wrl awr kwr vwr wrr) ::
      Frame.R cp X ap kp vp :: gs) wl) := h
  have hwr : Shape d t (plug (Frame.R cw wl aw kw vw :: Frame.R cp X ap kp vp :: gs)
      (node RED wrl awr kwr vwr wrr)) := h
  have e3 := hwl.getColor_ptr
  have e4 := hwr.getColor_focus
  have e5 := h.getColor_top
  obtain ⟨t1, w1, h1, m1⟩ := hw.setColor cp
  have h1x : Shape d t1 (plug (Frame.L cp ap kp vp
      (node cp wl aw kw vw (node RED wrl awr kwr vwr wrr)) :: gs) X) := h1
  have e6 := h1x.parent_keep m1 hxp rfl
  obtain ⟨t2, w2, h2, m2⟩ := h1x.setColor_top BLACK
  have h2w : Shape d t2 (plug (Frame.R BLACK X ap kp vp :: gs)
      (node cp wl aw kw vw (node RED wrl awr kwr vwr wrr))) := h2
  have e7 := h2w.getRight_focus
  have h2r : Shape d t2 (plug (Frame.R cp wl aw kw vw :: Frame.R BLACK X ap kp vp :: gs)
      (node RED wrl awr kwr vwr wrr)) := h2
  obtain ⟨t3, w3, h3, m3⟩ := h2r.setColor BLACK
  have h3x : Shape d t3 (plug (Frame.L BLACK ap kp vp
      (node cp wl aw kw vw (node BLACK wrl awr kwr vwr wrr)) :: gs) X) := h3
  have e8 := h3x.parent_keep (m3.trans m2) e6 rfl
  have h3p : Shape d t3 (plug gs (node BLACK X ap kp vp
      (node cp wl aw kw vw (node BLACK wrl awr kwr vwr wrr)))) := h3
  obtain ⟨t4, w4, h4, m4⟩ := h3p.leftRotate
  refine ⟨t4, ?_, h4, by rw [m4, m3, m2, m1]⟩
  simp only [Frame.ptr_L, Frame.color_L, Tree.ptr_node] at w2 e5 e2 e7
  rcases wl.color_cases with hc | hc <;>
    simp [RbTree.deleteFixUpLeftBlack, e1, e2, e3, e4, hc, e5, hxp, w1, e6, w2, e7, w3, e8, w4]

/-- Sibling BLACK with a BLACK right child and a RED left child: a right rotation
at the sibling first, then as in the previous case. -/
theorem deleteFixUpLeftBlack_near {cp cw : Color} {ap aw awl : Nat} {kp kw kwl : K}
    {vp vw vwl : V} {wll wlr wr X : Tree K V}
    (h : Shape d t (plug (Frame.L cp ap kp vp
      (node cw (node RED wll awl kwl vwl wlr) aw kw vw wr) :: gs) X))
    (hxp : t.getParent (some X.ptr) = .ok (some ap)) (hr : wr.color = BLACK) :
    ∃ t1, RbTree.deleteFixUpLeftBlack t (some X.ptr) (some aw) = .ok (t1, t1.root) ∧
      Shape d t1 (plug gs (node cp (node BLACK X ap kp vp wll) awl kwl vwl
        (node BLACK wlr aw kw vw wr))) ∧
      t1.mem 0 = t.mem 0 := by
  have hw : Shape d t (plug (Frame.R cp X ap kp vp :: gs)
      (node cw (node RED wll awl kwl vwl wlr) aw kw vw wr)) := h
  have e1 := hw.getLeft_focus
  have e2 := hw.getRight_focus
  have hwl : Shape d t (plug (Frame.L cw aw kw vw wr :: Frame.R cp X ap kp vp :: gs)
      (node RED wll awl kwl vwl wlr)) := h
  have hwr : Shape d t (plug (Frame.R cw (node RED wll awl kwl vwl wlr) aw kw vw ::
      Frame.R cp X ap kp vp :: gs) wr) := h
  have e3 := hwl.getColor_focus
  have e4 := hwr.getColor_ptr
  -- the block of the near child
  obtain ⟨t1, w1, h1, m1⟩ := hwl.setColor BLACK
  have h1w : Shape d t1 (plug (Frame.R cp X ap kp vp :: gs)
      (node cw (node BLACK wll awl kwl vwl wlr) aw kw vw wr)) := h1
  obtain ⟨t2, w2, h2, m2⟩ := h1w.setColor RED
  obtain ⟨t3, w3, h3, m3⟩ := h2.rightRotate
  have h3x : Shape d t3 (plug (Frame.L cp ap kp vp
      (node BLACK wll awl kwl vwl (node RED wlr aw kw vw wr)) :: gs) X) := h3
  have m30 : t3.mem 0 = t.mem 0 := by rw [m3, m2, m1]
  have e5 := h3x.parent_keep m30 hxp rfl
  have e6 := h3x.getRight_top
  -- the rest
  have e7 := h3x.getColor_top
  have h3w : Shape d t3 (plug (Frame.R cp X ap kp vp :: gs)
      (node BLACK wll awl kwl vwl (node RED wlr aw kw vw wr))) := h3
  obtain ⟨t4, w4, h4, m4⟩ := h3w.setColor cp
  have h4x : Shape d t4 (plug (Frame.L cp ap kp vp
      (node cp wll awl kwl vwl (node RED wlr aw kw vw wr)) :: gs) X) := h4
  have e8 := h4x.parent_keep m4 e5 rfl
  obtain ⟨t5, w5, h5, m5⟩ := h4x.setColor_top BLACK
  have h5w : Shape d t5 (plug (Frame.R BLACK X ap kp vp :: gs)
      (node cp wll awl kwl vwl (node RED wlr aw kw vw wr))) := h5
  have e9 := h5w.getRight_focus
  have h5r : Shape d t5 (plug (Frame.R cp wll awl kwl vwl :: Frame.R BLACK X ap kp vp :: gs)
      (node RED wlr aw kw vw wr)) := h5
  obtain ⟨t6, w6, h6, m6⟩ := h5r.setColor BLACK
  have h6x : Shape d t6 (plug (Frame.L BLACK ap kp vp
      (node cp wll awl kwl vwl (node BLACK wlr aw kw vw wr)) :: gs) X) := h6
  have e10 := h6x.parent_keep (m6.trans m5) e8 rfl
  have h6p : Shape d t6 (plug gs (node BLACK X ap kp vp
      (node cp wll awl kwl vwl (node BLACK wlr aw kw vw wr)))) := h6
  obtain ⟨t7, w7, h7, m7⟩ := h6p.leftRotate
  refine ⟨t7, ?_, h7, by rw [m7, m6, m5, m4, m30]⟩
  simp only [Frame.ptr_L, Frame.color_L, Frame.rightPtr_L, Tree.ptr_node] at w5 e1 e6 e7 e9
  simp [RbTree.deleteFixUpLeftBlack, e1, e2, e3, e4, hr, w1, w2, w3, e5, e6, e7, w4, e8, w5, e9,
    w6, e10, w7]

/-! ### `x` is a right child -/

/-- Sibling BLACK: the block `if w.color == RED` is skipped. -/
theorem deleteFixUpRightRed_black {cp : Color} {ap : Nat} {kp : K} {vp : V} {W X : Tree K V}
    (h : Shape d t (plug (Frame.R cp W ap kp vp :: gs) X)) (hW : W.color = BLACK) :
    RbTree.deleteFixUpRightRed t (some X.ptr) (some W.ptr) = .ok (t, some W.ptr) := by
  have hw : Shape d t (plug (Frame.L cp ap kp vp X :: gs) W) := h
  have e1 := hw.getColor_ptr
  simp [RbTree.deleteFixUpRightRed, e1, hW]

/-- Sibling RED: two recolorings and a right rotation at the parent. -/
theorem deleteFixUpRightRed_red {cp : Color} {ap aw : Nat} {kp kw : K} {vp vw : V}
    {wl wr X : Tree K V}
    (h : Shape d t (plug (Frame.R cp (node RED wl aw kw vw wr) ap kp vp :: gs) X))
    (hxp : t.getParent (some X.ptr) = .ok (some ap)) :
    ∃ t1, RbTree.deleteFixUpRightRed t (some X.ptr) (some aw) = .ok (t1, some wr.ptr) ∧
      Shape d t1 (plug (Frame.R RED wr ap kp vp :: Frame.R BLACK wl aw kw vw :: gs) X) ∧
      t1.mem 0 = t.mem 0 := by
  have hw : Shape d t (plug (Frame.L cp ap kp vp X :: gs) (node RED wl aw kw vw wr)) := h
  have e1 := hw.getColor_focus
  obtain ⟨t1, w1, h1, m1⟩ := hw.setColor BLACK
  have h1x : Shape d t1 (plug (Frame.R cp (node BLACK wl aw kw vw wr) ap kp vp :: gs) X) := h1
  have e2 := h1x.parent_keep m1 hxp rfl
  obtain ⟨t2, w2, h2, m2⟩ := h1x.setColor_top RED
  have e3 := h2.parent_keep m2 e2 rfl
  have h2p : Shape d t2 (plug gs (node RED (node BLACK wl aw kw vw wr) ap kp vp X)) := h2
  obtain ⟨t3, w3, h3, m3⟩ := h2p.rightRotate
  have h3x : Shape d t3 (plug (Frame.R RED wr ap kp vp :: Frame.R BLACK wl aw kw vw :: gs) X) :=
    h3
  have e4 := h3x.parent_keep m3 e3 rfl
  have e5 := h3x.getLeft_top
  refine ⟨t3, ?_, h3x, by rw [m3, m2, m1]⟩
  simp only [Frame.ptr_R, Frame.leftPtr_R] at w2 e5
  simp [RbTree.deleteFixUpRightRed, e1, w1, e2, w2, e3, w3, e4, e5]

/-- Sibling BLACK with two BLACK children. -/
theorem deleteFixUpRightBlack_both {cp cw : Color} {ap aw : Nat} {kp kw : K} {vp vw : V}
    {wl wr X : Tree K V}
    (h : Shape d t (plug (Frame.R cp (node cw wl aw kw vw wr) ap kp vp :: gs) X))
    (hxp : t.getParent (some X.ptr) = .ok (some ap))
    (hl : wl.color = BLACK) (hr : wr.color = BLACK) :
    ∃ t1, RbTree.deleteFixUpRightBlack t (some X.ptr) (some aw) = .ok (t1, some ap) ∧
      Shape d t1 (plug gs (node cp (node RED wl aw kw vw wr) ap kp vp X)) ∧
      t1.mem 0 = t.mem 0 := by
  have hw : Shape d t (plug (Frame.L cp ap kp vp X :: gs) (node cw wl aw kw vw wr)) := h
  have e1 := hw.getLeft_focus
  have e2 := hw.getRight_focus
  have hwl : Shape d t (plug (Frame.L cw aw kw vw wr :: Frame.L cp ap kp vp X :: gs) wl) := h
  have hwr : Shape d t (plug (Frame.R cw wl aw kw vw :: Frame.L cp ap kp vp X :: gs) wr) := h
  have e3 := hwl.getColor_ptr
  have e4 := hwr.getColor_ptr
  obtain ⟨t1, w1, h1, m1⟩ := hw.setColor RED
  have h1x : Shape d t1 (plug (Frame.R cp (node RED wl aw kw vw wr) ap kp vp :: gs) X) := h1
  have e5 := h1x.parent_keep m1 hxp rfl
  refine ⟨t1, ?_, h1, m1⟩
  simp [RbTree.deleteFixUpRightBlack, e1, e2, e3, e4, hl, hr, w1, e5]

/-- Sibling BLACK with a RED left child: three recolorings and a right rotation
at the parent; `x` becomes the root. -/
theorem deleteFixUpRightBlack_far {cp cw : Color} {ap aw awl : Nat} {kp kw kwl : K}
    {vp vw vwl : V} {wll wlr wr X : Tree K V}
    (h : Shape d t (plug (Frame.R cp
      (node cw (node RED wll awl kwl vwl wlr) aw kw vw wr) ap kp vp :: gs) X))
    (hxp : t.getParent (some X.ptr) = .ok (some ap)) :
    ∃ t1, RbTree.deleteFixUpRightBlack t (some X.ptr) (some aw) = .ok (t1, t1.root) ∧
      Shape d t1 (plug gs (node cp (node BLACK wll awl kwl vwl wlr) aw kw vw
        (node BLACK wr ap kp vp X))) ∧
      t1.mem 0 = t.mem 0 := by
  have hw : Shape d t (plug (Frame.L cp ap kp vp X :: gs)
      (node cw (node RED wll awl kwl vwl wlr) aw kw vw wr)) := h
  have e1 := hw.getLeft_focus
  have hwl : Shape d t (plug (Frame.L cw aw kw vw wr :: Frame.L cp ap kp vp X :: gs)
      (node RED wll awl kwl vwl wlr)) := h
  have e3 := hwl.getColor_focus
  have e5 := h.getColor_top
  obtain ⟨t1, w1, h1, m1⟩ := hw.setColor cp
  have h1x : Shape d t1 (plug (Frame.R cp
      (node cp (node RED wll awl kwl vwl wlr) aw kw vw wr) ap kp vp :: gs) X) := h1
  have e6 := h1x.parent_keep m1 hxp rfl
  obtain ⟨t2, w2, h2, m2⟩ := h1x.setColor_top BLACK
  have h2w : Shape d t2 (plug (Frame.L BLACK ap kp vp X :: gs)
      (node cp (node RED wll awl kwl vwl wlr) aw kw vw wr)) := h2
  have e7 := h2w.getLeft_focus
  have h2l : Shape d t2 (plug (Frame.L cp aw kw vw wr :: Frame.L BLACK ap kp vp X :: gs)
      (node RED wll awl kwl vwl wlr)) := h2
  obtain ⟨t3, w3, h3, m3⟩ := h2l.setColor BLACK
  have h3x : Shape d t3 (plug (Frame.R BLACK
      (node cp (node BLACK wll awl kwl vwl wlr) aw kw vw wr) ap kp vp :: gs) X) := h3
  have e8 := h3x.parent_keep (m3.trans m2) e6 rfl
  have h3p : Shape d t3 (plug gs (node BLACK
      (node cp (node BLACK wll awl kwl vwl wlr) aw kw vw wr) ap kp vp X)) := h3
  obtain ⟨t4, w4, h4, m4⟩ := h3p.rightRotate
  refine ⟨t4, ?_, h4, by rw [m4, m3, m2, m1]⟩
  simp only [Frame.ptr_R, Frame.color_R, Tree.ptr_node] at w2 e5 e1 e7
  simp [RbTree.deleteFixUpRightBlack, e1, e3, e5, hxp, w1, e6, w2, e7, w3, e8, w4]

/-- Sibling BLACK with a BLACK left child and a RED right child: a left rotation
at the sibling first, then as in the previous case. -/
theorem deleteFixUpRightBlack_near {cp cw : Color} {ap aw awr : Nat} {kp kw kwr : K}
    {vp vw vwr : V} {wl wrl wrr X : Tree K V}
    (h : Shape d t (plug (Frame.R cp
      (node cw wl aw kw vw (node RED wrl awr kwr vwr wrr)) ap kp vp :: gs) X))
    (hxp : t.getParent (some X.ptr) = .ok (some ap)) (hl : wl.color = BLACK) :
    ∃ t1, RbTree.deleteFixUpRightBlack t (some X.ptr) (some aw) = .ok (t1, t1.root) ∧
      Shape d t1 (plug gs (node cp (node BLACK wl aw kw vw wrl) awr kwr vwr
        (node BLACK wrr ap kp vp X))) ∧
      t1.mem 0 = t.mem 0 := by
  have hw : Shape d t (plug (Frame.L cp ap kp vp X :: gs)
      (node cw wl aw kw vw (node RED wrl awr kwr vwr wrr))) := h
  have e1 := hw.getLeft_focus
  have e2 := hw.getRight_focus
  have hwl : Shape d t (plug (Frame.L cw aw kw vw (node RED wrl awr kwr vwr wrr) ::
      Frame.L cp ap kp vp X :: gs) wl) := h
  have hwr : Shape d t (plug (Frame.R cw wl aw kw vw :: Frame.L cp ap kp vp X :: gs)
      (node RED wrl awr kwr vwr wrr)) := h
  have e3 := hwl.getColor_ptr
  have e4 := hwr.getColor_focus
  -- the block of the near child
  obtain ⟨t1, w1, h1, m1⟩ := hwr.setColor BLACK
  have h1w : Shape d t1 (plug (Frame.L cp ap kp vp X :: gs)
      (node cw wl aw kw vw (node BLACK wrl awr kwr vwr wrr))) := h1
  obtain ⟨t2, w2, h2, m2⟩ := h1w.setColor RED
  obtain ⟨t3, w3, h3, m3⟩ := h2.leftRotate
  have h3x : Shape d t3 (plug (Frame.R cp
      (node BLACK (node RED wl aw kw vw wrl) awr kwr vwr wrr) ap kp vp :: gs) X) := h3
  have m30 : t3.mem 0 = t.mem 0 := by rw [m3, m2, m1]
  have e5 := h3x.parent_keep m30 hxp rfl
  have e6 := h3x.getLeft_top
  -- the rest
  have e7 := h3x.getColor_top
  have h3w : Shape d t3 (plug (Frame.L cp ap kp vp X :: gs)
      (node BLACK (node RED wl aw kw vw wrl) awr kwr vwr wrr)) := h3
  obtain ⟨t4, w4, h4, m4⟩ := h3w.setColor cp
  have h4x : Shape d t4 (plug (Frame.R cp
      (node cp (node RED wl aw kw vw wrl) awr kwr vwr wrr) ap kp vp :: gs) X) := h4
  have e8 := h4x.parent_keep m4 e5 rfl
  obtain ⟨t5, w5, h5, m5⟩ := h4x.setColor_top BLACK
  have h5w : Shape d t5 (plug (Frame.L BLACK ap kp vp X :: gs)
      (node cp (node RED wl aw kw vw wrl) awr kwr vwr wrr)) := h5
  have e9 := h5w.getLeft_focus
  have h5l : Shape d t5 (plug (Frame.L cp awr kwr vwr wrr :: Frame.L BLACK ap kp vp X :: gs)
      (node RED wl aw kw vw wrl)) := h5
  obtain ⟨t6, w6, h6, m6⟩ := h5l.setColor BLACK
  have h6x : Shape d t6 (plug (Frame.R BLACK
      (node cp (node BLACK wl aw kw vw wrl) awr kwr vwr wrr) ap kp vp :: gs) X) := h6
  have e10 := h6x.parent_keep (m6.trans m5) e8 rfl
  have h6p : Shape d t6 (plug gs (node BLACK
      (node cp (node BLACK wl aw kw vw wrl) awr kwr vwr wrr) ap kp vp X)) := h6
  obtain ⟨t7, w7, h7, m7⟩ := h6p.rightRotate
  refine ⟨t7, ?_, h7, by rw [m7, m6, m5, m4, m30]⟩
  simp only [Frame.ptr_R, Frame.color_R, Frame.leftPtr_R, Tree.ptr_node] at w5 e2 e6 e7 e9
  simp [RbTree.deleteFixUpRightBlack, e1, e2, e3, e4, hl, w1, w2, w3, e5, e6, e7, w4, e8, w5, e9,
    w6, e10, w7]

end Shape

end RbSpec

namespace RbSpec

open Color Tree

variable {K V : Type}

variable {d : Int}

/-! ## The loop of `deleteFixUp` -/

/-- No RED node has a RED child, not counting the links out of the root. -/
def Tree.noRedRedBelow : Tree K V → Prop
  | leaf => True
  | node _ l _ _ _ r => l.noRedRed ∧ r.noRedRed

theorem Tree.noRedRed_of_black {X : Tree K V} (hc : X.color = BLACK) (h : X.noRedRedBelow) :
    X.noRedRed := by
  cases X with
  | leaf => trivial
  | node c l a k v r =>
    simp only [Tree.color_node] at hc
    subst hc
    simp only [Tree.noRedRedBelow] at h
    simpa using h

theorem Tree.noRedRedBelow_of_noRedRed {X : Tree K V} (h : X.noRedRed) : X.noRedRedBelow := by
  cases X with
  | leaf => trivial
  | node c l a k v r => exact h.2

/-- State of the tree at the head of the loop of `deleteFixUp`: the paths through
the focus `x` are one BLACK node short, everything else is in order (the root of
the focus itself may be RED with a RED child or a RED parent). -/
structure DelInv (gs : List (Frame K V)) (X : Tree K V) : Prop where
  bal : X.balanced
  nrr : X.noRedRedBelow
  cbal : ctxBal gs (X.bh + 1)
  cnrr : ctxNRR gs
  top : rootColor gs BLACK = BLACK

theorem rootColor_tail {f : Frame K V} {gs : List (Frame K V)} {c : Color}
    (h : rootColor (f :: gs) c = BLACK) : rootColor gs BLACK = BLACK := by
  cases gs with
  | nil => rfl
  | cons g gs => exact h

theorem rootColor_cons_eq (f : Frame K V) (gs : List (Frame K V)) (c c1 : Color) :
    rootColor (f :: gs) c = rootColor (f :: gs) c1 := rfl

theorem Tree.ne_leaf_of_bh {W : Tree K V} {n : Nat} (h : W.bh = n + 1) : W ≠ leaf := by
  intro e
  subst e
  simp at h

theorem Tree.exists_node {W : Tree K V} (h : W ≠ leaf) :
    ∃ c l a k v r, W = node c l a k v r := by
  cases W with
  | leaf => exact absurd rfl h
  | node c l a k v r => exact ⟨c, l, a, k, v, r, rfl⟩

variable {t : RbTree K V} {gs : List (Frame K V)}

/-- The loop stops when `x` is the root or RED, and the assignment
`x.color = BLACK` then leaves a red-black tree. -/
theorem deleteFixUp_finish {X : Tree K V} (h : Shape d t (plug gs X)) (inv : DelInv gs X)
    (hex : gs = [] ∨ X.color = RED) (n : Nat) :
    ∃ t2 T2, RbTree.deleteFixUpLoop (n + 1) t (some X.ptr) = .ok (t, some X.ptr) ∧
      t.setColor (some X.ptr) BLACK = .ok t2 ∧ Shape d t2 T2 ∧ T2.isRB ∧
      T2.toList = (plug gs X).toList := by
  have hloop : RbTree.deleteFixUpLoop (n + 1) t (some X.ptr) = .ok (t, some X.ptr) := by
    cases gs with
    | nil =>
      have := h.root_plug
      simp only [ctxRoot] at this
      simp [RbTree.deleteFixUpLoop, this]
    | cons f gs1 =>
      have hc : X.color = RED := by
        rcases hex with e | e
        · exact absurd e (by simp)
        · exact e
      have e1 := h.getColor_ptr
      have e2 := h.root_ne_focus
      simp [RbTree.deleteFixUpLoop, e2, e1, hc]
  obtain ⟨hbal, hnrr, hcbal, hcnrr, htop⟩ := inv
  cases X with
  | leaf =>
    have hg : gs = [] := by
      rcases hex with e | e
      · exact e
      · simp at e
    subst hg
    obtain ⟨t2, e2, h2⟩ := h.setColor_nil
    exact ⟨t2, leaf, hloop, e2, h2, ⟨rfl, trivial, trivial⟩, rfl⟩
  | node c l a k v r =>
    obtain ⟨t2, e2, h2, -⟩ := h.setColor BLACK
    refine ⟨t2, _, hloop, e2, h2, ⟨?_, ?_, ?_⟩, ?_⟩
    · rw [color_plug]
      cases gs with
      | nil => rfl
      | cons f gs1 => exact htop
    · rw [noRedRed_plug]
      simp only [Tree.noRedRedBelow] at hnrr
      exact ⟨by simpa using hnrr, by simp, hcnrr⟩
    · rw [balanced_plug]
      simp only [Tree.balanced_node, Tree.bh_node, Tree.blk_BLACK] at hbal ⊢
      refine ⟨hbal, ?_⟩
      rcases hex with e | e
      · subst e; trivial
      · simp only [Tree.color_node] at e
        subst e
        simpa using hcbal
    · apply toList_plug_congr
      simp

/-- The second half of a round for a left child `x` whose sibling is BLACK: either
the sibling turns RED and `x` moves to the parent, or the subtree of the parent
is rebuilt with the missing BLACK node and `x` becomes the root. -/
theorem deleteFixUpLeftBlack_step {cp : Color} {ap aw : Nat} {kp kw : K} {vp vw : V}
    {wl wr X : Tree K V}
    (h : Shape d t (plug (Frame.L cp ap kp vp (node BLACK wl aw kw vw wr) :: gs) X))
    (hxp : t.getParent (some X.ptr) = .ok (some ap))
    (hXb : X.balanced) (hXn : X.noRedRed)
    (hWb : wl.balanced ∧ wr.balanced ∧ wl.bh = wr.bh) (hWn : wl.noRedRed ∧ wr.noRedRed)
    (hbh : wl.bh = X.bh) :
    ∃ t1 x1, RbTree.deleteFixUpLeftBlack t (some X.ptr) (some aw) = .ok (t1, x1) ∧
      t1.mem 0 = t.mem 0 ∧
      ((x1 = some ap ∧ wl.color = BLACK ∧ wr.color = BLACK ∧
          Shape d t1 (plug gs (node cp X ap kp vp (node RED wl aw kw vw wr)))) ∨
        (x1 = t1.root ∧ ∃ S, Shape d t1 (plug gs S) ∧ S.color = cp ∧ S.balanced ∧
          S.noRedRed ∧ S.bh = X.bh + 1 + blk cp ∧
          S.toList = (node cp X ap kp vp (node BLACK wl aw kw vw wr)).toList)) := by
  rcases wr.color_cases with hr | hr
  · -- far child RED
    obtain ⟨wrl, awr, kwr, vwr, wrr, rfl⟩ := Tree.eq_node_of_red hr
    obtain ⟨t1, e1, h1, m1⟩ := h.deleteFixUpLeftBlack_far hxp
    refine ⟨t1, _, e1, m1, Or.inr ⟨rfl, _, h1, rfl, ?_, ?_, ?_, ?_⟩⟩
    · simp only [Tree.balanced_node, Tree.bh_node, Tree.blk_RED, Tree.blk_BLACK] at hWb ⊢
      obtain ⟨h1, ⟨h2, h3, h4⟩, h5⟩ := hWb
      refine ⟨⟨hXb, h1, ?_⟩, ⟨h2, h3, h4⟩, ?_⟩ <;> omega
    · simp only [Tree.noRedRed_node, Tree.color_node] at hWn ⊢
      simp
      tauto
    · simp only [Tree.bh_node, Tree.blk_BLACK]
    · simp
  · rcases wl.color_cases with hl | hl
    · -- near child RED
      obtain ⟨wll, awl, kwl, vwl, wlr, rfl⟩ := Tree.eq_node_of_red hl
      obtain ⟨t1, e1, h1, m1⟩ := h.deleteFixUpLeftBlack_near hxp hr
      refine ⟨t1, _, e1, m1, Or.inr ⟨rfl, _, h1, rfl, ?_, ?_, ?_, ?_⟩⟩
      · simp only [Tree.balanced_node, Tree.bh_node, Tree.blk_RED, Tree.blk_BLACK] at hWb hbh ⊢
        obtain ⟨⟨h1, h2, h3⟩, h4, h5⟩ := hWb
        refine ⟨⟨hXb, h1, ?_⟩, ⟨h2, h4, ?_⟩, ?_⟩ <;> omega
      · simp only [Tree.noRedRed_node, Tree.color_node] at hWn ⊢
        simp
        tauto
      · simp only [Tree.bh_node, Tree.blk_BLACK]
      · simp
    · -- both BLACK
      obtain ⟨t1, e1, h1, m1⟩ := h.deleteFixUpLeftBlack_both hxp hl hr
      exact ⟨t1, _, e1, m1, Or.inl ⟨rfl, hl, hr, h1⟩⟩

/-- The second half of a round for a right child `x` whose sibling is BLACK. -/
theorem deleteFixUpRightBlack_step {cp : Color} {ap aw : Nat} {kp kw : K} {vp vw : V}
    {wl wr X : Tree K V}
    (h : Shape d t (plug (Frame.R cp (node BLACK wl aw kw vw wr) ap kp vp :: gs) X))
    (hxp : t.getParent (some X.ptr) = .ok (some ap))
    (hXb : X.balanced) (hXn : X.noRedRed)
    (hWb : wl.balanced ∧ wr.balanced ∧ wl.bh = wr.bh) (hWn : wl.noRedRed ∧ wr.noRedRed)
    (hbh : wl.bh = X.bh) :
    ∃ t1 x1, RbTree.deleteFixUpRightBlack t (some X.ptr) (some aw) = .ok (t1, x1) ∧
      t1.mem 0 = t.mem 0 ∧
      ((x1 = some ap ∧ wl.color = BLACK ∧ wr.color = BLACK ∧
          Shape d t1 (plug gs (node cp (node RED wl aw kw vw wr) ap kp vp X))) ∨
        (x1 = t1.root ∧ ∃ S, Shape d t1 (plug gs S) ∧ S.color = cp ∧ S.balanced ∧
          S.noRedRed ∧ S.bh = X.bh + 1 + blk cp ∧
          S.toList = (node cp (node BLACK wl aw kw vw wr) ap kp vp X).toList)) := by
  rcases wl.color_cases with hl | hl
  · -- far child RED
    obtain ⟨wll, awl, kwl, vwl, wlr, rfl⟩ := Tree.eq_node_of_red hl
    obtain ⟨t1, e1, h1, m1⟩ := h.deleteFixUpRightBlack_far hxp
    refine ⟨t1, _, e1, m1, Or.inr ⟨rfl, _, h1, rfl, ?_, ?_, ?_, ?_⟩⟩
    · simp only [Tree.balanced_node, Tree.bh_node, Tree.blk_RED, Tree.blk_BLACK] at hWb hbh ⊢
      obtain ⟨⟨h1, h2, h3⟩, h4, h5⟩ := hWb
      refine ⟨⟨h1, h2, h3⟩, ⟨h4, hXb, ?_⟩, ?_⟩ <;> omega
    · simp only [Tree.noRedRed_node, Tree.color_node] at hWn ⊢
      simp
      tauto
    · simp only [Tree.bh_node, Tree.blk_BLACK, Tree.blk_RED] at hbh ⊢
      omega
    · simp
  · rcases wr.color_cases with hr | hr
    · -- near child RED
      obtain ⟨wrl, awr, kwr, vwr, wrr, rfl⟩ := Tree.eq_node_of_red hr
      obtain ⟨t1, e1, h1, m1⟩ := h.deleteFixUpRightBlack_near hxp hl
      refine ⟨t1, _, e1, m1, Or.inr ⟨rfl, _, h1, rfl, ?_, ?_, ?_, ?_⟩⟩
      · simp only [Tree.balanced_node, Tree.bh_node, Tree.blk_RED, Tree.blk_BLACK] at hWb hbh ⊢
        obtain ⟨h1, ⟨h2, h3, h4⟩, h5⟩ := hWb
        refine ⟨⟨h1, h2, ?_⟩, ⟨h3, hXb, ?_⟩, ?_⟩ <;> omega
      · simp only [Tree.noRedRed_node, Tree.color_node] at hWn ⊢
        simp
        tauto
      · simp only [Tree.bh_node, Tree.blk_BLACK, Tree.blk_RED] at hbh ⊢
        omega
      · simp
    · -- both BLACK
      obtain ⟨t1, e1, h1, m1⟩ := h.deleteFixUpRightBlack_both hxp hl hr
      exact ⟨t1, _, e1, m1, Or.inl ⟨rfl, hl, hr, h1⟩⟩

end RbSpec

namespace RbSpec

open Color Tree

variable {K V : Type}

variable {d : Int}

variable {t : RbTree K V}

/-- After a round that made `x` the root: the loop stops and the assignment
`x.color = BLACK` leaves a red-black tree. -/
theorem deleteFixUp_done {T : Tree K V} (h : Shape d t T) (hb : T.balanced) (hn : T.noRedRed)
    (m : Nat) :
    ∃ t3 T3, RbTree.deleteFixUpLoop (m + 1) t t.root = .ok (t, t.root) ∧
      t.setColor t.root BLACK = .ok t3 ∧ Shape d t3 T3 ∧ T3.isRB ∧ T3.toList = T.toList := by
  have hT : Shape d t (plug [] T) := h
  have inv : DelInv [] T :=
    ⟨hb, Tree.noRedRedBelow_of_noRedRed hn, trivial, trivial, rfl⟩
  obtain ⟨t3, T3, e1, e2, h3, hrb, hl⟩ := deleteFixUp_finish hT inv (Or.inl rfl) m
  rw [← h.root_eq] at e1 e2
  exact ⟨t3, T3, e1, e2, h3, hrb, hl⟩

theorem deleteFixUpLoop_spec : ∀ (n : Nat) (gs : List (Frame K V)) (X : Tree K V)
    (t : RbTree K V), Shape d t (plug gs X) → DelInv gs X →
    (∀ f gs1, gs = f :: gs1 → t.getParent (some X.ptr) = .ok (some f.ptr)) →
    gs.length < n →
    ∃ t1 x1 t2 T2, RbTree.deleteFixUpLoop n t (some X.ptr) = .ok (t1, x1) ∧
      t1.setColor x1 BLACK = .ok t2 ∧ Shape d t2 T2 ∧ T2.isRB ∧
      T2.toList = (plug gs X).toList := by
  intro n
  induction n with
  | zero => intro gs X t _ _ _ hlt; exact absurd hlt (Nat.not_lt_zero _)
  | succ n ih =>
    intro gs X t h inv hxp hlt
    by_cases hex : gs = [] ∨ X.color = RED
    · obtain ⟨t2, T2, e1, e2, h2, hrb, hl⟩ := deleteFixUp_finish h inv hex n
      exact ⟨t, _, t2, T2, e1, e2, h2, hrb, hl⟩
    · simp only [not_or] at hex
      obtain ⟨hgs, hXc⟩ := hex
      have hXc : X.color = BLACK := by
        rcases X.color_cases with e | e
        · exact absurd e hXc
        · exact e
      obtain ⟨hbal, hnrr, hcbal, hcnrr, htop⟩ := inv
      have hXn : X.noRedRed := Tree.noRedRed_of_black hXc hnrr
      cases gs with
      | nil => exact absurd rfl hgs
      | cons f gs1 =>
        have e_root := h.root_ne_focus
        have e_col := h.getColor_ptr
        have e_par := hxp f gs1 rfl
        have e_left := h.getLeft_top
        simp only [List.length_cons] at hlt
        obtain ⟨m, rfl⟩ : ∃ m, n = m + 1 := ⟨n - 1, by omega⟩
        cases f with
        | L cp ap kp vp W =>
          simp only [ctxBal, ctxNRR, Frame.sib_L, Frame.sib_R, Frame.color_L, Frame.color_R]
            at hcbal hcnrr
          obtain ⟨hWb, hWh, hcb1⟩ := hcbal
          obtain ⟨hWn, hcW, hcn1⟩ := hcnrr
          obtain ⟨cw, wl, aw, kw, vw, wr, rfl⟩ := Tree.exists_node (Tree.ne_leaf_of_bh hWh)
          have e_sib := h.getRight_top
          simp only [Frame.ptr_L, Frame.rightPtr_L, Tree.ptr_node] at e_par e_left e_sib
          have hne : X.ptr ≠ aw := h.sib_ptr_ne_gen (by simp)
          have hfix : ∀ r, RbTree.deleteFixUpLeft t (some X.ptr) = r →
              RbTree.deleteFixUpLoop (m + 1 + 1) t (some X.ptr) =
                (r >>= fun p => RbTree.deleteFixUpLoop (m + 1) p.1 p.2) := by
            intro r hr
            subst hr
            simp [RbTree.deleteFixUpLoop, e_root, e_col, hXc, e_par, e_left, hne]
            try rfl
          simp only [Tree.balanced_node, Tree.bh_node, Tree.noRedRed_node, Tree.color_node]
            at hWb hWh hWn hcW
          cases cw with
          | RED =>
            -- sibling RED: the parent is BLACK and the children of the sibling are real
            have hcp : cp = BLACK := by
              rcases hc : cp with _ | _
              · have := (hcW hc).1
                simp at this
              · rfl
            subst hcp
            simp only [Tree.blk_RED, Tree.blk_BLACK, Nat.add_zero] at hWb hWh hcb1
            simp only [forall_const] at hWn
            obtain ⟨⟨hcl, hcr⟩, hnl, hnr⟩ := hWn
            have hnsib : wl.bh = X.bh + 1 := by omega
            obtain ⟨c0, wll, awl, kwl, vwl, wlr, rfl⟩ :=
              Tree.exists_node (Tree.ne_leaf_of_bh hnsib)
            simp only [Tree.color_node] at hcl hcr
            first | subst hcl | subst hcr
            obtain ⟨t1, er, h1, m1⟩ := h.deleteFixUpLeftRed_red e_par
            have e_par1 := h1.parent_keep m1 e_par rfl
            simp only [Tree.balanced_node, Tree.bh_node, Tree.noRedRed_node, Tree.color_node,
              Tree.blk_BLACK] at hWb hnl hnr hnsib
            obtain ⟨t2, x1, es, m2, alt⟩ := deleteFixUpLeftBlack_step h1 e_par1 hbal hXn
              (by tauto) (by tauto) (by omega)
            have efix : RbTree.deleteFixUpLeft t (some X.ptr) = .ok (t2, x1) := by
              simp [RbTree.deleteFixUpLeft, e_par, e_sib, er, es]
            rw [hfix _ efix]
            rcases alt with ⟨rfl, hc1, hc2, h2⟩ | ⟨rfl, S, h2, hSc, hSb, hSn, hSh, hSl⟩
            · -- the parent, now RED, becomes `x`: the loop stops there
              have inv2 : DelInv (Frame.L BLACK aw kw vw wr :: gs1)
                  (node RED X ap kp vp (node RED wll awl kwl vwl wlr)) := by
                refine ⟨?_, ?_, ?_, ?_, ?_⟩
                · simp only [Tree.balanced_node, Tree.bh_node, Tree.blk_RED]
                  refine ⟨?_, ?_, ?_⟩ <;> first | assumption | tauto | omega
                · simp only [Tree.noRedRedBelow, Tree.noRedRed_node, Tree.color_node]
                  tauto
                · simp only [ctxBal, Frame.sib_L, Frame.sib_R, Frame.color_L, Frame.color_R,
                    Tree.bh_node, Tree.blk_RED, Tree.blk_BLACK]
                  refine ⟨by tauto, by omega, ctxBal_congr hcb1 (by omega)⟩
                · simp only [ctxNRR, Frame.sib_L, Frame.sib_R, Frame.color_L, Frame.color_R]
                  exact ⟨by assumption, by simp, hcn1⟩
                · exact htop
              have h2x : Shape d t2 (plug (Frame.L BLACK aw kw vw wr :: gs1)
                  (node RED X ap kp vp (node RED wll awl kwl vwl wlr))) := h2
              obtain ⟨t3, T3, e1, e2, h3, hrb, hl⟩ :=
                deleteFixUp_finish h2x inv2 (Or.inr rfl) m
              refine ⟨t2, _, t3, T3, ?_, e2, h3, hrb, ?_⟩
              · simpa using e1
              · rw [hl]
                simp only [plug_cons]
                apply toList_plug_congr
                simp
            · -- `x` is the root
              have hb2 : (plug (Frame.L BLACK aw kw vw wr :: gs1) S).balanced := by
                rw [balanced_plug]
                refine ⟨hSb, ?_⟩
                simp only [ctxBal, Frame.sib_L, Frame.sib_R, Frame.color_L, Frame.color_R,
                  Tree.blk_RED, Tree.blk_BLACK] at hSh ⊢
                refine ⟨by tauto, by omega, ctxBal_congr hcb1 (by omega)⟩
              have hn2 : (plug (Frame.L BLACK aw kw vw wr :: gs1) S).noRedRed := by
                rw [noRedRed_plug]
                refine ⟨hSn, by simp, ?_⟩
                simp only [ctxNRR, Frame.sib_L, Frame.sib_R, Frame.color_L, Frame.color_R]
                exact ⟨by assumption, by simp, hcn1⟩
              obtain ⟨t3, T3, e1, e2, h3, hrb, hl⟩ := deleteFixUp_done h2 hb2 hn2 m
              refine ⟨t2, _, t3, T3, ?_, e2, h3, hrb, ?_⟩
              · simpa using e1
              · rw [hl]
                simp only [plug_cons]
                apply toList_plug_congr
                simp [hSl]
          | BLACK =>
            simp only [Tree.blk_BLACK] at hWh
            have er := h.deleteFixUpLeftRed_black (by simp)
            simp only [Tree.ptr_node] at er
            obtain ⟨t2, x1, es, m2, alt⟩ := deleteFixUpLeftBlack_step h e_par hbal hXn
              hWb ⟨hWn.2.1, hWn.2.2⟩ (by omega)
            have efix : RbTree.deleteFixUpLeft t (some X.ptr) = .ok (t2, x1) := by
              simp [RbTree.deleteFixUpLeft, e_par, e_sib, er, es]
            rw [hfix _ efix]
            rcases alt with ⟨rfl, hc1, hc2, h2⟩ | ⟨rfl, S, h2, hSc, hSb, hSn, hSh, hSl⟩
            · -- the parent becomes `x`
              have inv2 : DelInv gs1 (node cp X ap kp vp (node RED wl aw kw vw wr)) := by
                refine ⟨?_, ?_, ?_, hcn1, rootColor_tail htop⟩
                · simp only [Tree.balanced_node, Tree.bh_node, Tree.blk_RED]
                  refine ⟨?_, ?_, ?_⟩ <;> first | assumption | tauto | omega
                · simp only [Tree.noRedRedBelow, Tree.noRedRed_node, Tree.color_node]
                  tauto
                · simp only [Tree.bh_node, Tree.blk_RED]
                  exact ctxBal_congr hcb1 (by omega)
              have e_par2 : ∀ f gs2, gs1 = f :: gs2 →
                  t2.getParent (some (node cp X ap kp vp (node RED wl aw kw vw wr)).ptr) =
                    .ok (some f.ptr) := by
                intro f gs2 e
                subst e
                exact h2.getParent_focus
              obtain ⟨t3, x3, t4, T4, e1, e2, h4, hrb, hl⟩ :=
                ih gs1 _ t2 h2 inv2 e_par2 (by omega)
              refine ⟨t3, x3, t4, T4, ?_, e2, h4, hrb, ?_⟩
              · simpa using e1
              · rw [hl]
                simp only [plug_cons]
                apply toList_plug_congr
                simp
            · -- `x` is the root
              have hb2 : (plug gs1 S).balanced := by
                rw [balanced_plug]
                exact ⟨hSb, ctxBal_congr hcb1 (by omega)⟩
              have hn2 : (plug gs1 S).noRedRed := by
                rw [noRedRed_plug]
                refine ⟨hSn, ?_, hcn1⟩
                intro hc
                rw [hSc]
                rcases hcp : cp with _ | _
                · have := (hcW hcp).2
                  rw [hc] at this
                  simp at this
                · rfl
              obtain ⟨t3, T3, e1, e2, h3, hrb, hl⟩ := deleteFixUp_done h2 hb2 hn2 m
              refine ⟨t2, _, t3, T3, ?_, e2, h3, hrb, ?_⟩
              · simpa using e1
              · rw [hl]
                simp only [plug_cons]
                apply toList_plug_congr
                simp [hSl]
        | R cp W ap kp vp =>
          simp only [ctxBal, ctxNRR, Frame.sib_L, Frame.sib_R, Frame.color_L, Frame.color_R]
            at hcbal hcnrr
          obtain ⟨hWb, hWh, hcb1⟩ := hcbal
          obtain ⟨hWn, hcW, hcn1⟩ := hcnrr
          obtain ⟨cw, wl, aw, kw, vw, wr, rfl⟩ := Tree.exists_node (Tree.ne_leaf_of_bh hWh)
          have e_sib := h.getLeft_top
          simp only [Frame.ptr_R, Frame.leftPtr_R, Tree.ptr_node] at e_par e_left e_sib
          have hne : X.ptr ≠ aw := h.sib_ptr_ne_gen (by simp)
          have hfix : ∀ r, RbTree.deleteFixUpRight t (some X.ptr) = r →
              RbTree.deleteFixUpLoop (m + 1 + 1) t (some X.ptr) =
                (r >>= fun p => RbTree.deleteFixUpLoop (m + 1) p.1 p.2) := by
            intro r hr
            subst hr
            simp [RbTree.deleteFixUpLoop, e_root, e_col, hXc, e_par, e_left, hne]
            try rfl
          simp only [Tree.balanced_node, Tree.bh_node, Tree.noRedRed_node, Tree.color_node]
            at hWb hWh hWn hcW
          cases cw with
          | RED =>
            -- sibling RED: the parent is BLACK and the children of the sibling are real
            have hcp : cp = BLACK := by
              rcases hc : cp with _ | _
              · have := (hcW hc).1
                simp at this
              · rfl
            subst hcp
            simp only [Tree.blk_RED, Tree.blk_BLACK, Nat.add_zero] at hWb hWh hcb1
            simp only [forall_const] at hWn
            obtain ⟨⟨hcl, hcr⟩, hnl, hnr⟩ := hWn
            have hnsib : wr.bh = X.bh + 1 := by omega
            obtain ⟨c0, wrl, awr, kwr, vwr, wrr, rfl⟩ :=
              Tree.exists_node (Tree.ne_leaf_of_bh hnsib)
            simp only [Tree.color_node] at hcl hcr
            first | subst hcl | subst hcr
            obtain ⟨t1, er, h1, m1⟩ := h.deleteFixUpRightRed_red e_par
            have e_par1 := h1.parent_keep m1 e_par rfl
            simp only [Tree.balanced_node, Tree.bh_node, Tree.noRedRed_node, Tree.color_node,
              Tree.blk_BLACK] at hWb hnl hnr hnsib
            obtain ⟨t2, x1, es, m2, alt⟩ := deleteFixUpRightBlack_step h1 e_par1 hbal hXn
              (by tauto) (by tauto) (by omega)
            have efix : RbTree.deleteFixUpRight t (some X.ptr) = .ok (t2, x1) := by
              simp [RbTree.deleteFixUpRight, e_par, e_sib, er, es]
            rw [hfix _ efix]
            rcases alt with ⟨rfl, hc1, hc2, h2⟩ | ⟨rfl, S, h2, hSc, hSb, hSn, hSh, hSl⟩
            · -- the parent, now RED, becomes `x`: the loop stops there
              have inv2 : DelInv (Frame.R BLACK wl aw kw vw :: gs1)
                  (node RED (node RED wrl awr kwr vwr wrr) ap kp vp X) := by
                refine ⟨?_, ?_, ?_, ?_, ?_⟩
                · simp only [Tree.balanced_node, Tree.bh_node, Tree.blk_RED]
                  refine ⟨?_, ?_, ?_⟩ <;> first | assumption | tauto | omega
                · simp only [Tree.noRedRedBelow, Tree.noRedRed_node, Tree.color_node]
                  tauto
                · simp only [ctxBal, Frame.sib_L, Frame.sib_R, Frame.color_L, Frame.color_R,
                    Tree.bh_node, Tree.blk_RED, Tree.blk_BLACK]
                  refine ⟨by tauto, by omega, ctxBal_congr hcb1 (by omega)⟩
                · simp only [ctxNRR, Frame.sib_L, Frame.sib_R, Frame.color_L, Frame.color_R]
                  exact ⟨by assumption, by simp, hcn1⟩
                · exact htop
              have h2x : Shape d t2 (plug (Frame.R BLACK wl aw kw vw :: gs1)
                  (node RED (node RED wrl awr kwr vwr wrr) ap kp vp X)) := h2
              obtain ⟨t3, T3, e1, e2, h3, hrb, hl⟩ :=
                deleteFixUp_finish h2x inv2 (Or.inr rfl) m
              refine ⟨t2, _, t3, T3, ?_, e2, h3, hrb, ?_⟩
              · simpa using e1
              · rw [hl]
                simp only [plug_cons]
                apply toList_plug_congr
                simp
            · -- `x` is the root
              have hb2 : (plug (Frame.R BLACK wl aw kw vw :: gs1) S).balanced := by
                rw [balanced_plug]
                refine ⟨hSb, ?_⟩
                simp only [ctxBal, Frame.sib_L, Frame.sib_R, Frame.color_L, Frame.color_R,
                  Tree.blk_RED, Tree.blk_BLACK] at hSh ⊢
                refine ⟨by tauto, by omega, ctxBal_congr hcb1 (by omega)⟩
              have hn2 : (plug (Frame.R BLACK wl aw kw vw :: gs1) S).noRedRed := by
                rw [noRedRed_plug]
                refine ⟨hSn, by simp, ?_⟩
                simp only [ctxNRR, Frame.sib_L, Frame.sib_R, Frame.color_L, Frame.color_R]
                exact ⟨by assumption, by simp, hcn1⟩
              obtain ⟨t3, T3, e1, e2, h3, hrb, hl⟩ := deleteFixUp_done h2 hb2 hn2 m
              refine ⟨t2, _, t3, T3, ?_, e2, h3, hrb, ?_⟩
              · simpa using e1
              · rw [hl]
                simp only [plug_cons]
                apply toList_plug_congr
                simp [hSl]
          | BLACK =>
            simp only [Tree.blk_BLACK] at hWh
            have er := h.deleteFixUpRightRed_black (by simp)
            simp only [Tree.ptr_node] at er
            obtain ⟨t2, x1, es, m2, alt⟩ := deleteFixUpRightBlack_step h e_par hbal hXn
              hWb ⟨hWn.2.1, hWn.2.2⟩ (by omega)
            have efix : RbTree.deleteFixUpRight t (some X.ptr) = .ok (t2, x1) := by
              simp [RbTree.deleteFixUpRight, e_par, e_sib, er, es]
            rw [hfix _ efix]
            rcases alt with ⟨rfl, hc1, hc2, h2⟩ | ⟨rfl, S, h2, hSc, hSb, hSn, hSh, hSl⟩
            · -- the parent becomes `x`
              have inv2 : DelInv gs1 (node cp (node RED wl aw kw vw wr) ap kp vp X) := by
                refine ⟨?_, ?_, ?_, hcn1, rootColor_tail htop⟩
                · simp only [Tree.balanced_node, Tree.bh_node, Tree.blk_RED]
                  refine ⟨?_, ?_, ?_⟩ <;> first | assumption | tauto | omega
                · simp only [Tree.noRedRedBelow, Tree.noRedRed_node, Tree.color_node]
                  tauto
                · simp only [Tree.bh_node, Tree.blk_RED]
                  exact ctxBal_congr hcb1 (by omega)
              have e_par2 : ∀ f gs2, gs1 = f :: gs2 →
                  t2.getParent (some (node cp (node RED wl aw kw vw wr) ap kp vp X).ptr) =
                    .ok (some f.ptr) := by
                intro f gs2 e
                subst e
                exact h2.getParent_focus
              obtain ⟨t3, x3, t4, T4, e1, e2, h4, hrb, hl⟩ :=
                ih gs1 _ t2 h2 inv2 e_par2 (by omega)
              refine ⟨t3, x3, t4, T4, ?_, e2, h4, hrb, ?_⟩
              · simpa using e1
              · rw [hl]
                simp only [plug_cons]
                apply toList_plug_congr
                simp
            · -- `x` is the root
              have hb2 : (plug gs1 S).balanced := by
                rw [balanced_plug]
                exact ⟨hSb, ctxBal_congr hcb1 (by omega)⟩
              have hn2 : (plug gs1 S).noRedRed := by
                rw [noRedRed_plug]
                refine ⟨hSn, ?_, hcn1⟩
                intro hc
                rw [hSc]
                rcases hcp : cp with _ | _
                · have := (hcW hcp).2
                  rw [hc] at this
                  simp at this
                · rfl
              obtain ⟨t3, T3, e1, e2, h3, hrb, hl⟩ := deleteFixUp_done h2 hb2 hn2 m
              refine ⟨t2, _, t3, T3, ?_, e2, h3, hrb, ?_⟩
              · simpa using e1
              · rw [hl]
                simp only [plug_cons]
                apply toList_plug_congr
                simp [hSl]

end RbSpec

namespace RbSpec

open Color Tree

variable {K V : Type}

variable {d : Int}

/-! ## Method `deleteFixUp` -/

theorem deleteFixUp_spec {t : RbTree K V} {gs : List (Frame K V)} {X : Tree K V}
    (h : Shape d t (plug gs X)) (inv : DelInv gs X)
    (hxp : ∀ f gs1, gs = f :: gs1 → t.getParent (some X.ptr) = .ok (some f.ptr)) :
    ∃ t2 T2, t.deleteFixUp (some X.ptr) = .ok t2 ∧ Shape d t2 T2 ∧ T2.isRB ∧
      T2.toList = (plug gs X).toList := by
  have hlen : gs.length < t.fuel := by
    have h1 := h.length_lt_next
    rw [(addrs_plug gs X).length_eq] at h1
    have := length_le_ctxAddrs gs
    simp only [List.length_append, RbTree.fuel] at *
    omega
  obtain ⟨t1, x1, t2, T2, e1, e2, h2, hrb, hl⟩ := deleteFixUpLoop_spec _ gs X t h inv hxp hlen
  exact ⟨t2, T2, by simp [RbTree.deleteFixUp, e1, e2], h2, hrb, hl⟩

/-! ## The nodes `Delete` works on -/

/-- The leftmost node below a link, with the frames above it: where the loop of
`min` stops. -/
def leftmost : Tree K V → List (Frame K V) → List (Frame K V) × Tree K V
  | leaf, fs => (fs, leaf)
  | node c l a k v r, fs =>
    match l with
    | leaf => (fs, node c leaf a k v r)
    | node _ _ _ _ _ _ => leftmost l (Frame.L c a k v r :: fs)

/-- The tree with the key of the node at address `a` overwritten. -/
def Tree.setKeyAt (a : Nat) (k1 : K) : Tree K V → Tree K V
  | leaf => leaf
  | node c l b k v r =>
    node c (l.setKeyAt a k1) b (if b = a then k1 else k) v (r.setKeyAt a k1)

/-- A frame with the key at address `a` overwritten, in its node or below. -/
def Frame.setKeyAt (a : Nat) (k1 : K) : Frame K V → Frame K V
  | Frame.L c b k v r => Frame.L c b (if b = a then k1 else k) v (r.setKeyAt a k1)
  | Frame.R c l b k v => Frame.R c (l.setKeyAt a k1) b (if b = a then k1 else k) v

theorem leftmost_plug : ∀ (s : Tree K V) (fs : List (Frame K V)),
    plug (leftmost s fs).1 (leftmost s fs).2 = plug fs s := by
  intro s
  induction s with
  | leaf => intro fs; rfl
  | node c l a k v r ihl _ =>
    intro fs
    cases l with
    | leaf => rfl
    | node c1 l1 a1 k1 v1 r1 =>
      simp only [leftmost]
      exact ihl _

theorem leftmost_node : ∀ (s : Tree K V) (fs : List (Frame K V)), s ≠ leaf →
    ∃ c a k v r, (leftmost s fs).2 = node c leaf a k v r := by
  intro s
  induction s with
  | leaf => intro fs h; exact absurd rfl h
  | node c l a k v r ihl _ =>
    intro fs _
    cases l with
    | leaf => exact ⟨c, a, k, v, r, rfl⟩
    | node c1 l1 a1 k1 v1 r1 =>
      simp only [leftmost]
      exact ihl _ (by simp)

section setKeyAt

variable (a : Nat) (k1 : K)

@[simp] theorem Tree.setKeyAt_ptr (T : Tree K V) : (T.setKeyAt a k1).ptr = T.ptr := by
  cases T <;> rfl

@[simp] theorem Tree.setKeyAt_color (T : Tree K V) : (T.setKeyAt a k1).color = T.color := by
  cases T <;> rfl

@[simp] theorem Tree.setKeyAt_addrs (T : Tree K V) : (T.setKeyAt a k1).addrs = T.addrs := by
  induction T with
  | leaf => rfl
  | node c l b k v r ihl ihr => simp [Tree.setKeyAt, Tree.addrs, ihl, ihr]

@[simp] theorem Tree.setKeyAt_bh (T : Tree K V) : (T.setKeyAt a k1).bh = T.bh := by
  induction T with
  | leaf => rfl
  | node c l b k v r ihl ihr => simp [Tree.setKeyAt, ihl]

@[simp] theorem Tree.setKeyAt_balanced (T : Tree K V) :
    (T.setKeyAt a k1).balanced ↔ T.balanced := by
  induction T with
  | leaf => rfl
  | node c l b k v r ihl ihr => simp [Tree.setKeyAt, ihl, ihr]

@[simp] theorem Tree.setKeyAt_noRedRed (T : Tree K V) :
    (T.setKeyAt a k1).noRedRed ↔ T.noRedRed := by
  induction T with
  | leaf => rfl
  | node c l b k v r ihl ihr => simp [Tree.setKeyAt, ihl, ihr]

@[simp] theorem Frame.setKeyAt_framePtr (f : Frame K V) : (f.setKeyAt a k1).ptr = f.ptr := by
  cases f <;> rfl

@[simp] theorem Frame.setKeyAt_frameColor (f : Frame K V) : (f.setKeyAt a k1).color = f.color := by
  cases f <;> rfl

@[simp] theorem Frame.setKeyAt_sib (f : Frame K V) :
    (f.setKeyAt a k1).sib = f.sib.setKeyAt a k1 := by
  cases f <;> rfl

theorem Frame.setKeyAt_fill (f : Frame K V) (s : Tree K V) :
    (f.fill s).setKeyAt a k1 = (f.setKeyAt a k1).fill (s.setKeyAt a k1) := by
  cases f <;> rfl

theorem setKeyAt_plug (fs : List (Frame K V)) (s : Tree K V) :
    (plug fs s).setKeyAt a k1 = plug (fs.map (Frame.setKeyAt a k1)) (s.setKeyAt a k1) := by
  induction fs generalizing s with
  | nil => rfl
  | cons f fs ih => simp [plug_cons, ih, Frame.setKeyAt_fill]

@[simp] theorem setKeyAt_ctxPtr (fs : List (Frame K V)) :
    ctxPtr (fs.map (Frame.setKeyAt a k1)) = ctxPtr fs := by
  cases fs <;> simp

@[simp] theorem setKeyAt_ctxColor (fs : List (Frame K V)) :
    ctxColor (fs.map (Frame.setKeyAt a k1)) = ctxColor fs := by
  cases fs <;> simp

@[simp] theorem setKeyAt_ctxBal (fs : List (Frame K V)) (n : Nat) :
    ctxBal (fs.map (Frame.setKeyAt a k1)) n ↔ ctxBal fs n := by
  induction fs generalizing n with
  | nil => rfl
  | cons f fs ih => simp [ctxBal, ih]

@[simp] theorem setKeyAt_ctxNRR (fs : List (Frame K V)) :
    ctxNRR (fs.map (Frame.setKeyAt a k1)) ↔ ctxNRR fs := by
  induction fs with
  | nil => rfl
  | cons f fs ih => simp [ctxNRR, ih]

@[simp] theorem setKeyAt_rootColor (fs : List (Frame K V)) (c : Color) :
    rootColor (fs.map (Frame.setKeyAt a k1)) c = rootColor fs c := by
  induction fs generalizing c with
  | nil => rfl
  | cons f fs ih => simp [rootColor, ih]

theorem Tree.setKeyAt_isRB {T : Tree K V} (h : T.isRB) : (T.setKeyAt a k1).isRB := by
  obtain ⟨h1, h2, h3⟩ := h
  exact ⟨by simpa using h1, by simpa using h2, by simpa using h3⟩

end setKeyAt

variable [LinearOrder K]

/-- The node where the descent of `Delete` for `key` stops, with the frames above
it; `none` when the descent reaches the sentinel. -/
def findPath (key : K) : Tree K V → List (Frame K V) → Option (List (Frame K V) × Tree K V)
  | leaf, _ => none
  | node c l a k v r, fs =>
    if k < key then findPath key r (Frame.R c l a k v :: fs)
    else if k = key then some (fs, node c l a k v r)
    else findPath key l (Frame.L c a k v r :: fs)

theorem findPath_plug (key : K) : ∀ (s : Tree K V) (fs gs : List (Frame K V)) (y : Tree K V),
    findPath key s fs = some (gs, y) →
      plug gs y = plug fs s ∧ ∃ c l a v r, y = node c l a key v r := by
  intro s
  induction s with
  | leaf => intro fs gs y h; simp [findPath] at h
  | node c l a k v r ihl ihr =>
    intro fs gs y h
    simp only [findPath] at h
    split at h
    · exact ihr _ _ _ h
    · split at h
      · rename_i e
        simp only [Option.some.injEq, Prod.mk.injEq] at h
        obtain ⟨rfl, rfl⟩ := h
        exact ⟨rfl, c, l, a, v, r, by rw [e]⟩
      · exact ihl _ _ _ h

theorem findPath_none_of_not_mem (key : K) : ∀ (s : Tree K V) (fs : List (Frame K V)),
    key ∉ s.keys → findPath key s fs = none := by
  intro s
  induction s with
  | leaf => intro fs _; rfl
  | node c l a k v r ihl ihr =>
    intro fs h
    simp only [Tree.keys, Tree.toList_node, List.map_append, List.map_cons, List.mem_append,
      List.mem_cons, not_or] at h
    have hl : key ∉ l.keys := by simpa [Tree.keys] using h.1
    have hr : key ∉ r.keys := by simpa [Tree.keys] using h.2.2
    have hk : ¬ k = key := fun e => h.2.1 e.symm
    simp only [findPath, hk, if_false]
    split
    · exact ihr _ hr
    · exact ihl _ hl

end RbSpec

namespace RbSpec

open Color Tree

variable {K V : Type}

variable {d : Int}

/-! ## The steps of `Delete` on a shaped store -/

theorem Tree.height_left_lt (c : Color) (l : Tree K V) (a : Nat) (k : K) (v : V)
    (r : Tree K V) : l.height < (node c l a k v r).height :=
  Nat.lt_succ_of_le (Nat.le_max_left _ _)

theorem Tree.height_right_lt (c : Color) (l : Tree K V) (a : Nat) (k : K) (v : V)
    (r : Tree K V) : r.height < (node c l a k v r).height :=
  Nat.lt_succ_of_le (Nat.le_max_right _ _)

theorem minLoop_spec {t : RbTree K V} : ∀ (s : Tree K V) (fs : List (Frame K V)) (n : Nat),
    Shape d t (plug fs s) → s ≠ leaf → s.height ≤ n →
      t.minLoop n (some s.ptr) = .ok (some (leftmost s fs).2.ptr) := by
  intro s
  induction s with
  | leaf => intro fs n _ h; exact absurd rfl h
  | node c l a k v r ihl _ =>
    intro fs n h _ hn
    cases n with
    | zero => simp [Tree.height] at hn
    | succ n =>
      have e1 := h.getLeft_focus
      cases l with
      | leaf =>
        simp only [Tree.ptr_leaf] at e1
        simp [RbTree.minLoop, e1, h.null_eq, leftmost]
      | node c1 l1 a1 k1 v1 r1 =>
        have hl : Shape d t (plug (Frame.L c a k v r :: fs) (node c1 l1 a1 k1 v1 r1)) := h
        have ha1 := hl.focus_ne_zero
        have hh : (node c1 l1 a1 k1 v1 r1).height ≤ n := by
          have := Tree.height_left_lt c (node c1 l1 a1 k1 v1 r1) a k v r
          omega
        have ih := ihl (Frame.L c a k v r :: fs) n hl (by simp) hh
        simp only [Tree.ptr_node] at e1 ih ⊢
        simp [RbTree.minLoop, e1, h.null_eq, ha1, ih, leftmost]

namespace Shape

/-- A store that differs from a shaped one by the node at the focus, which has a
sentinel child, being replaced in its parent by its other child `X`. -/
theorem unlink {t t2 : RbTree K V} {gs : List (Frame K V)} {cy : Color} {yl yr : Tree K V}
    {ay : Nat} {ky : K} {vy : V} (h : Shape d t (plug gs (node cy yl ay ky vy yr)))
    (X : Tree K V) (hX : (X = yl ∧ yr = leaf) ∨ (X = yr ∧ yl = leaf))
    (hnull : t2.null = t.null) (hnext : t2.next = t.next) (hcount : t2.count = t.count)
    (hroot : t2.root = if ctxPtr gs = 0 then some X.ptr else t.root)
    (hx : X.ptr ≠ 0 → t2.mem X.ptr = { t.mem X.ptr with parent := some (ctxPtr gs) })
    (hcol : (t2.mem 0).color = BLACK) (hleft : (t2.mem 0).left = none)
    (hright : (t2.mem 0).right = none)
    (htop : ∀ f gs1, gs = f :: gs1 → t2.mem f.ptr = f.cell X.ptr (ctxPtr gs1))
    (hother : ∀ a, a ≠ 0 → a ≠ X.ptr → a ≠ ctxPtr gs → t2.mem a = t.mem a) :
    Shape (d + 1) t2 (plug gs X) := by
  have hnd := h.nodup_plug
  have hpp := h.pos_plug
  have hfc := h.focus_cells
  have hsub : X.addrs.Sublist (node cy yl ay ky vy yr).addrs := by
    rcases hX with ⟨rfl, -⟩ | ⟨rfl, -⟩
    · simp only [Tree.addrs]
      exact List.sublist_append_left _ _
    · simp only [Tree.addrs]
      exact (List.sublist_cons_self _ _).trans (List.sublist_append_right _ _)
  have hlen : (node cy yl ay ky vy yr).addrs.length = X.addrs.length + 1 := by
    rcases hX with ⟨rfl, e⟩ | ⟨rfl, e⟩ <;> subst e <;> simp [Tree.addrs]
  have hXcells : ∀ c ∈ X.cells ay, t.mem c.1 = c.2 := by
    intro c hc
    apply hfc c
    rcases hX with ⟨rfl, -⟩ | ⟨rfl, -⟩ <;> simp [Tree.cells, hc]
  have hnd2 : (X.addrs ++ ctxAddrs gs).Nodup :=
    hnd.sublist (List.Sublist.append hsub (List.Sublist.refl _))
  have hpp2 : ∀ a ∈ X.addrs ++ ctxAddrs gs, 0 < a ∧ a < t.next := by
    intro a ha
    apply hpp a
    rcases List.mem_append.1 ha with e | e
    · exact List.mem_append_left _ (hsub.subset e)
    · exact List.mem_append_right _ e
  have hdisj := (List.nodup_append.1 hnd2).2.2
  have hPmem : ctxPtr gs = 0 ∨ ctxPtr gs ∈ ctxAddrs gs := by
    cases gs with
    | nil => left; rfl
    | cons f fs1 => right; simp [ctxAddrs]
  apply mk_plug (hnull.trans h.null_eq)
  · rw [hroot]
    cases gs with
    | nil => simp [ctxRoot]
    | cons f gs1 =>
      have := h.top_ne_zero
      simp only [ctxPtr_cons, this, if_false]
      rw [h.root_plug]
      simp [ctxRoot]
  · refine Tree.cells_reparent hXcells ?_ ?_ (List.nodup_append.1 hnd2).1
      (fun a ha => (hpp2 a (List.mem_append_left _ ha)).1)
    · exact hx
    · intro a ha hne
      apply hother a
      · have := (hpp2 a (List.mem_append_left _ ha)).1; omega
      · exact hne
      · rcases hPmem with e | e
        · rw [e]
          have := (hpp2 a (List.mem_append_left _ ha)).1; omega
        · intro e1; rw [← e1] at e; exact hdisj ha e
  · intro c hc
    cases gs with
    | nil => simp [ctxCells] at hc
    | cons f gs1 =>
      simp only [ctxCells, List.mem_cons, List.mem_append] at hc
      rcases hc with hc | hc
      · subst hc
        exact htop f gs1 rfl
      · have hm : c.1 ∈ f.sib.addrs ++ ctxAddrs gs1 := by
          rcases hc with hc | hc
          · exact List.mem_append_left _ (Tree.mem_cells_addr hc)
          · exact List.mem_append_right _ (mem_ctxCells_addr hc)
        have hmF : c.1 ∈ ctxAddrs (f :: gs1) := by
          simp only [ctxAddrs, List.mem_cons]; right; exact hm
        have hne : c.1 ≠ f.ptr := by
          intro e; rw [e] at hm
          have := (List.nodup_append.1 hnd2).2.1
          simp only [ctxAddrs, List.nodup_cons] at this
          exact this.1 hm
        have hc0 : c.1 ≠ 0 := by
          have := (hpp2 c.1 (List.mem_append_right _ hmF)).1; omega
        have hcX : c.1 ≠ X.ptr := by
          rcases X.ptr_cases with e | e
          · rw [e]; exact hc0
          · intro e1; rw [← e1] at e; exact hdisj e hmF
        rw [hother c.1 hc0 hcX hne]
        exact h.ctx_cells c (by
          simp only [ctxCells, Tree.ptr_node, List.mem_cons, List.mem_append]
          right; exact hc)
  · exact hnd2
  · intro a ha; rw [hnext]; exact hpp2 a ha
  · exact hcol
  · exact hleft
  · exact hright
  · rw [hnext]; exact h.next_pos
  · rw [hcount, h.count_eq, (addrs_plug _ _).length_eq]
    simp only [List.length_append, hlen]
    push_cast
    omega

end Shape

/-- The records of a tree with one key overwritten. -/
theorem cells_setKeyAt (a : Nat) (k1 : K) : ∀ (T : Tree K V) (par : Nat)
    (c : Nat × RbTreeNode K V), c ∈ (T.setKeyAt a k1).cells par →
      ∃ c0 ∈ T.cells par, c.1 = c0.1 ∧
        c.2 = if c0.1 = a then { c0.2 with Key := some k1 } else c0.2 := by
  intro T
  induction T with
  | leaf => intro par c hc; simp [Tree.setKeyAt, Tree.cells] at hc
  | node c0 l b k v r ihl ihr =>
    intro par c hc
    simp only [Tree.setKeyAt, Tree.cells, List.mem_append, List.mem_cons] at hc
    rcases hc with hc | hc | hc
    · obtain ⟨c1, h1, h2, h3⟩ := ihl b c hc
      exact ⟨c1, by simp [Tree.cells, h1], h2, h3⟩
    · subst hc
      refine ⟨(b, Tree.cell c0 l k v r par), by simp [Tree.cells], rfl, ?_⟩
      by_cases e : b = a <;> simp [Tree.cell, e]
    · obtain ⟨c1, h1, h2, h3⟩ := ihr b c hc
      exact ⟨c1, by simp [Tree.cells, h1], h2, h3⟩

namespace Shape

/-- The assignment `curr.Key = y.Key`. -/
theorem setKey {t : RbTree K V} {T : Tree K V} (h : Shape d t T) {a : Nat} (ha : a ≠ 0)
    (k1 : K) :
    ∃ t1, t.setKey (some a) (some k1) = .ok t1 ∧ Shape d t1 (T.setKeyAt a k1) ∧
      (∀ b, b ≠ a → t1.mem b = t.mem b) := by
  refine ⟨_, rfl, ?_, fun b hb => Function.update_noteq hb _ _⟩
  have h0 : (Function.update t.mem a { t.mem a with Key := some k1 }) 0 = t.mem 0 :=
    Function.update_noteq (fun e => ha e.symm) _ _
  refine ⟨h.null_eq, ?_, ?_, ?_, ?_, ?_, ?_, ?_, h.next_pos, ?_⟩
  · simpa using h.root_eq
  · intro c hc
    obtain ⟨c0, h1, h2, h3⟩ := cells_setKeyAt a k1 T 0 c hc
    have h4 := h.cells c0 h1
    show Function.update t.mem a _ c.1 = c.2
    rw [h2, h3, Function.update_apply]
    by_cases e : c0.1 = a
    · simp only [e, if_true]
      rw [← e, h4]
    · simp only [e, if_false]
      exact h4
  · simpa using h.nodup
  · simpa using h.pos
  · show (Function.update t.mem a _ 0).color = BLACK
    rw [h0]; exact h.nil_color
  · show (Function.update t.mem a _ 0).left = none
    rw [h0]; exact h.nil_left
  · show (Function.update t.mem a _ 0).right = none
    rw [h0]; exact h.nil_right
  · simpa using h.count_eq

end Shape

variable [LinearOrder K]

theorem DeleteLoop_spec {t : RbTree K V} (key : K) :
    ∀ (s : Tree K V) (fs : List (Frame K V)) (n : Nat), Shape d t (plug fs s) → s.height < n →
      t.DeleteLoop key n (some s.ptr) =
        .ok (some (match findPath key s fs with
          | none => 0
          | some p => p.2.ptr)) := by
  intro s
  induction s with
  | leaf =>
    intro fs n h hn
    cases n with
    | zero => exact absurd hn (Nat.not_lt_zero _)
    | succ n => simp [RbTree.DeleteLoop, h.null_eq, findPath]
  | node c l a k v r ihl ihr =>
    intro fs n h hn
    cases n with
    | zero => exact absurd hn (Nat.not_lt_zero _)
    | succ n =>
      have ha0 := h.focus_ne_zero
      have e1 := h.recvKey_focus
      have e2 := h.getLeft_focus
      have e3 := h.getRight_focus
      simp only [Tree.height] at hn
      have hl : l.height < n := by
        have := Nat.le_max_left l.height r.height
        simp only [Nat.max_def] at *
        split at hn <;> omega
      have hr : r.height < n := by
        have := Nat.le_max_right l.height r.height
        simp only [Nat.max_def] at *
        split at hn <;> omega
      have il := ihl (Frame.L c a k v r :: fs) n h hl
      have ir := ihr (Frame.R c l a k v :: fs) n h hr
      by_cases hlt : k < key
      · simp [RbTree.DeleteLoop, h.null_eq, ha0, e1, e3, RbTree.Less, hlt, findPath, ir]
      · by_cases heq : k = key
        · simp [RbTree.DeleteLoop, h.null_eq, ha0, e1, RbTree.Less, RbTree.Equal, hlt, heq,
            findPath]
        · simp [RbTree.DeleteLoop, h.null_eq, ha0, e1, e2, RbTree.Less, RbTree.Equal, hlt, heq,
            findPath, il]

end RbSpec

namespace RbSpec

open Color Tree

variable {K V : Type}

variable {d : Int}

/-! ## Unlinking a node -/

/-- Writing the `parent` field of any record keeps the other fields of the
sentinel. -/
theorem nil_keep_parent (m : Nat → RbTreeNode K V) (p : Nat) (q : Ptr) :
    (Function.update m p { m p with parent := q } 0).color = (m 0).color ∧
    (Function.update m p { m p with parent := q } 0).left = (m 0).left ∧
    (Function.update m p { m p with parent := q } 0).right = (m 0).right := by
  by_cases e : p = 0
  · subst e; simp
  · rw [Function.update_noteq (fun e1 => e e1.symm)]
    exact ⟨rfl, rfl, rfl⟩

namespace Shape

variable {t : RbTree K V} {gs : List (Frame K V)}

/-- The relinking statements of `Delete` for a node `y` that has a sentinel
child: its other child `X` takes its place; the record of `y` stays as it was
and `x.parent` reads as the parent of `y`, also when `x` is the sentinel. -/
theorem deleteSplice_spec {cy : Color} {yl yr : Tree K V} {ay : Nat} {ky : K} {vy : V}
    (h : Shape d t (plug gs (node cy yl ay ky vy yr)))
    (X : Tree K V) (hX : (X = yl ∧ yr = leaf) ∨ (X = yr ∧ yl = leaf)) :
    ∃ t2, t.deleteSplice (some ay) = .ok (t2, some X.ptr) ∧ Shape (d + 1) t2 (plug gs X) ∧
      t2.mem ay = t.mem ay ∧
      (∀ f gs1, gs = f :: gs1 → t2.getParent (some X.ptr) = .ok (some f.ptr)) := by
  have hy := h.mem_focus
  have hay0 := h.focus_ne_zero
  have hnd := h.nodup_plug
  have hpp := h.pos_plug
  have e1 := h.getLeft_focus
  have e2 := h.getRight_focus
  have e3 := h.getParent_focus
  have hXay : X.ptr ≠ ay := by
    apply Tree.ptr_ne_of_not_mem _ hay0
    have h1 := (List.nodup_append.1 hnd).1
    simp only [Tree.addrs] at h1
    have h2 := (List.nodup_middle.1 h1)
    simp only [List.nodup_cons, List.mem_append, not_or] at h2
    rcases hX with ⟨rfl, -⟩ | ⟨rfl, -⟩
    · exact h2.1.1
    · exact h2.1.2
  have hcase : (X.ptr ≠ 0 ∧ yl.ptr = X.ptr) ∨ (yl.ptr = 0 ∧ yr.ptr = X.ptr) := by
    rcases hX with ⟨rfl, rfl⟩ | ⟨rfl, rfl⟩
    · by_cases e : X.ptr = 0
      · right; exact ⟨e, e.symm⟩
      · left; exact ⟨e, rfl⟩
    · right; exact ⟨rfl, rfl⟩
  cases gs with
  | nil =>
    refine ⟨{ t with
        mem := Function.update t.mem X.ptr { t.mem X.ptr with parent := some 0 }
        root := some X.ptr }, ?_, ?_, ?_, ?_⟩
    · simp only [ctxPtr_nil] at e3
      rcases hcase with ⟨hz, el⟩ | ⟨el, er⟩
      · simp [RbTree.deleteSplice, RbTree.getLeft, RbTree.getRight, el, hz, RbTree.setParent,
          RbTree.store, RbTree.getParent, Function.update_apply, hXay.symm, hy, Tree.cell,
          h.null_eq]
      · simp [RbTree.deleteSplice, RbTree.getLeft, RbTree.getRight, el, er, RbTree.setParent,
          RbTree.store, RbTree.getParent, Function.update_apply, hXay.symm, hy, Tree.cell,
          h.null_eq]
    · apply h.unlink X hX
      · rfl
      · rfl
      · rfl
      · simp
      · intro _; simp
      · exact (nil_keep_parent t.mem X.ptr (some 0)).1.trans h.nil_color
      · exact (nil_keep_parent t.mem X.ptr (some 0)).2.1.trans h.nil_left
      · exact (nil_keep_parent t.mem X.ptr (some 0)).2.2.trans h.nil_right
      · intro f gs1 e; exact absurd e (by simp)
      · intro a _ ha _
        exact Function.update_noteq ha _ _
    · exact Function.update_noteq hXay.symm _ _
    · intro f gs1 e; exact absurd e (by simp)
  | cons f gs1 =>
    have hf0 := h.top_ne_zero
    have hfy := h.top_ptr_ne
    have htc := h.ctx_top_cell
    have hsib := h.sib_ptr_ne
    have hfX : X.ptr ≠ f.ptr := by
      apply Tree.ptr_ne_of_not_mem _ hf0
      intro hm
      have h1 : f.ptr ∈ (node cy yl ay ky vy yr).addrs := by
        rcases hX with ⟨rfl, -⟩ | ⟨rfl, -⟩ <;> simp [Tree.addrs, hm]
      exact (List.nodup_append.1 hnd).2.2 h1 (by simp [ctxAddrs])
    cases f with
    | L c a k v r =>
      simp only [Frame.ptr_L, Frame.sib_L, Frame.cell, Tree.ptr_node, ctxPtr_cons]
        at hf0 hfX hfy htc e3 hsib
      refine ⟨{ t with
          mem := Function.update
            (Function.update t.mem X.ptr { t.mem X.ptr with parent := some a }) a
            { t.mem a with left := some X.ptr } }, ?_, ?_, ?_, ?_⟩
      · rcases hcase with ⟨hz, el⟩ | ⟨el, er⟩
        · simp [RbTree.deleteSplice, el, hz, RbTree.setParent, RbTree.store,
            RbTree.getParent, RbTree.getLeft, RbTree.getRight, RbTree.setLeft, RbTree.setRight,
            Function.update_apply, hXay.symm, hfX.symm, hf0, htc, hsib, hsib.symm, hy, Tree.cell,
            h.null_eq]
        · simp [RbTree.deleteSplice, el, er, RbTree.setParent, RbTree.store,
            RbTree.getParent, RbTree.getLeft, RbTree.getRight, RbTree.setLeft, RbTree.setRight,
            Function.update_apply, hXay.symm, hfX.symm, hf0, htc, hsib, hsib.symm, hy, Tree.cell,
            h.null_eq]
      · apply h.unlink X hX
        · rfl
        · rfl
        · rfl
        · simp [hf0]
        · intro _
          simp [Function.update_apply, hfX]
        · by_cases e : X.ptr = 0
          · simp [Function.update_apply, Ne.symm hf0, e, h.nil_color]
          · simp [Function.update_apply, Ne.symm hf0, Ne.symm e, h.nil_color]
        · by_cases e : X.ptr = 0
          · simp [Function.update_apply, Ne.symm hf0, e, h.nil_left]
          · simp [Function.update_apply, Ne.symm hf0, Ne.symm e, h.nil_left]
        · by_cases e : X.ptr = 0
          · simp [Function.update_apply, Ne.symm hf0, e, h.nil_right]
          · simp [Function.update_apply, Ne.symm hf0, Ne.symm e, h.nil_right]
        · intro f gs2 e
          simp only [List.cons.injEq] at e
          obtain ⟨rfl, rfl⟩ := e
          simp [Frame.cell, Function.update_apply, htc]
        · intro b _ hb1 hb2
          simp only [ctxPtr_cons, Frame.ptr_L] at hb2
          simp [Function.update_apply, hb1, hb2]
      · simp [Function.update_apply, hfy.symm, hXay.symm]
      · intro f gs2 e
        simp only [List.cons.injEq] at e
        obtain ⟨rfl, rfl⟩ := e
        simp [RbTree.getParent, Function.update_apply, hfX, hfX.symm]
    | R c l a k v =>
      simp only [Frame.ptr_R, Frame.sib_R, Frame.cell, Tree.ptr_node, ctxPtr_cons]
        at hf0 hfX hfy htc e3 hsib
      refine ⟨{ t with
          mem := Function.update
            (Function.update t.mem X.ptr { t.mem X.ptr with parent := some a }) a
            { t.mem a with right := some X.ptr } }, ?_, ?_, ?_, ?_⟩
      · rcases hcase with ⟨hz, el⟩ | ⟨el, er⟩
        · simp [RbTree.deleteSplice, el, hz, RbTree.setParent, RbTree.store,
            RbTree.getParent, RbTree.getLeft, RbTree.getRight, RbTree.setLeft, RbTree.setRight,
            Function.update_apply, hXay.symm, hfX.symm, hf0, htc, hsib, hsib.symm, hy, Tree.cell,
            h.null_eq]
        · simp [RbTree.deleteSplice, el, er, RbTree.setParent, RbTree.store,
            RbTree.getParent, RbTree.getLeft, RbTree.getRight, RbTree.setLeft, RbTree.setRight,
            Function.update_apply, hXay.symm, hfX.symm, hf0, htc, hsib, hsib.symm, hy, Tree.cell,
            h.null_eq]
      · apply h.unlink X hX
        · rfl
        · rfl
        · rfl
        · simp [hf0]
        · intro _
          simp [Function.update_apply, hfX]
        · by_cases e : X.ptr = 0
          · simp [Function.update_apply, Ne.symm hf0, e, h.nil_color]
          · simp [Function.update_apply, Ne.symm hf0, Ne.symm e, h.nil_color]
        · by_cases e : X.ptr = 0
          · simp [Function.update_apply, Ne.symm hf0, e, h.nil_left]
          · simp [Function.update_apply, Ne.symm hf0, Ne.symm e, h.nil_left]
        · by_cases e : X.ptr = 0
          · simp [Function.update_apply, Ne.symm hf0, e, h.nil_right]
          · simp [Function.update_apply, Ne.symm hf0, Ne.symm e, h.nil_right]
        · intro f gs2 e
          simp only [List.cons.injEq] at e
          obtain ⟨rfl, rfl⟩ := e
          simp [Frame.cell, Function.update_apply, htc]
        · intro b _ hb1 hb2
          simp only [ctxPtr_cons, Frame.ptr_R] at hb2
          simp [Function.update_apply, hb1, hb2]
      · simp [Function.update_apply, hfy.symm, hXay.symm]
      · intro f gs2 e
        simp only [List.cons.injEq] at e
        obtain ⟨rfl, rfl⟩ := e
        simp [RbTree.getParent, Function.update_apply, hfX, hfX.symm]

end Shape

end RbSpec

namespace RbSpec

open Color Tree

variable {K V : Type}

variable {d : Int}

/-! ## Method `Delete` -/

@[simp] theorem Tree.setKeyAt_noRedRedBelow (a : Nat) (k1 : K) (T : Tree K V) :
    (T.setKeyAt a k1).noRedRedBelow ↔ T.noRedRedBelow := by
  cases T with
  | leaf => rfl
  | node c l b k v r => simp [Tree.setKeyAt, Tree.noRedRedBelow]

theorem DelInv.setKeyAt {gs : List (Frame K V)} {X : Tree K V} (inv : DelInv gs X) (a : Nat)
    (k1 : K) : DelInv (gs.map (Frame.setKeyAt a k1)) (X.setKeyAt a k1) := by
  obtain ⟨h1, h2, h3, h4, h5⟩ := inv
  exact ⟨by simpa using h1, by simpa using h2, by simpa using h3, by simpa using h4,
    by simpa using h5⟩

/-- The color conditions around a node with a sentinel child, once its other
child `X` has taken its place. -/
theorem unlink_inv {gs : List (Frame K V)} {cy : Color} {yl yr : Tree K V} {ay : Nat} {ky : K}
    {vy : V} (hrb : (plug gs (node cy yl ay ky vy yr)).isRB) (X : Tree K V)
    (hX : (X = yl ∧ yr = leaf) ∨ (X = yr ∧ yl = leaf)) :
    (cy = BLACK → DelInv gs X) ∧ (cy = RED → (plug gs X).isRB) := by
  obtain ⟨hc, hn, hb⟩ := hrb
  rw [color_plug] at hc
  rw [noRedRed_plug] at hn
  rw [balanced_plug] at hb
  simp only [Tree.balanced_node, Tree.bh_node, Tree.noRedRed_node, Tree.color_node] at hc hn hb
  obtain ⟨⟨hcc, hnl, hnr⟩, hlink, hcn⟩ := hn
  obtain ⟨⟨hbl, hbr, hbe⟩, hcb⟩ := hb
  have hXb : X.balanced := by rcases hX with ⟨rfl, -⟩ | ⟨rfl, -⟩ <;> assumption
  have hXn : X.noRedRed := by rcases hX with ⟨rfl, -⟩ | ⟨rfl, -⟩ <;> assumption
  have hXh : X.bh = yl.bh := by
    rcases hX with ⟨rfl, -⟩ | ⟨rfl, -⟩
    · rfl
    · exact hbe.symm
  constructor
  · intro e
    subst e
    refine ⟨hXb, Tree.noRedRedBelow_of_noRedRed hXn, ctxBal_congr hcb ?_, hcn, hc⟩
    simp only [Tree.blk_BLACK]
    omega
  · intro e
    subst e
    refine ⟨?_, ?_, ?_⟩
    · rw [color_plug]
      cases gs with
      | nil => simp [rootColor] at hc
      | cons f gs1 => exact hc
    · rw [noRedRed_plug]
      refine ⟨hXn, fun _ => ?_, hcn⟩
      rcases hX with ⟨rfl, -⟩ | ⟨rfl, -⟩
      · exact (hcc rfl).1
      · exact (hcc rfl).2
    · rw [balanced_plug]
      refine ⟨hXb, ctxBal_congr hcb ?_⟩
      simp only [Tree.blk_RED]
      omega

namespace Shape

/-- The statement `t.count--`. -/
theorem dec_count {t : RbTree K V} {T : Tree K V} (h : Shape (d + 1) t T) :
    Shape d { t with count := t.count - 1 } T :=
  ⟨h.null_eq, h.root_eq, h.cells, h.nodup, h.pos, h.nil_color, h.nil_left, h.nil_right,
    h.next_pos, by
      show t.count - 1 = _
      rw [h.count_eq]
      omega⟩

end Shape

/-- The second half of `Delete` for a node `y` with a sentinel child: the call
returns, and the tree is a red-black tree again, with the entries of the tree
where `y` is unlinked and `curr` (at address `a`) has taken its key. -/
theorem deleteUnlink_spec {t : RbTree K V} {gs : List (Frame K V)} {cy : Color}
    {yl yr : Tree K V} {ay : Nat} {ky : K} {vy : V}
    (h : Shape d t (plug gs (node cy yl ay ky vy yr)))
    (hrb : (plug gs (node cy yl ay ky vy yr)).isRB) (X : Tree K V)
    (hX : (X = yl ∧ yr = leaf) ∨ (X = yr ∧ yl = leaf)) (a : Nat) (ha0 : a ≠ 0) :
    ∃ t4 T4, t.deleteUnlink (some a) (some ay) = .ok t4 ∧ Shape (d + 1) t4 T4 ∧ T4.isRB ∧
      T4.toList = (if ay = a then plug gs X else (plug gs X).setKeyAt a ky).toList := by
  obtain ⟨t2, e2, h2, hm2, hp2⟩ := h.deleteSplice_spec X hX
  have hy := h.mem_focus
  obtain ⟨hB, hR⟩ := unlink_inv hrb X hX
  by_cases hya : ay = a
  · subst hya
    have ec : t2.getColor (some ay) = .ok cy := by
      simp [RbTree.getColor, hm2, hy, Tree.cell]
    cases cy with
    | BLACK =>
      obtain ⟨t4, T4, e4, h4, hrb4, hl4⟩ := deleteFixUp_spec h2 (hB rfl) hp2
      refine ⟨t4, T4, ?_, h4, hrb4, by simpa using hl4⟩
      simp [RbTree.deleteUnlink, e2, ec, e4]
    | RED =>
      refine ⟨t2, _, ?_, h2, hR rfl, by simp⟩
      simp [RbTree.deleteUnlink, e2, ec]
  · obtain ⟨t3, e3, h3, ho3⟩ := h2.setKey ha0 ky
    have hm3 : t3.mem ay = t.mem ay := (ho3 ay hya).trans hm2
    have ek : t2.getKey (some ay) = .ok (some ky) := by
      simp [RbTree.getKey, hm2, hy, Tree.cell]
    have ec : t3.getColor (some ay) = .ok cy := by
      simp [RbTree.getColor, hm3, hy, Tree.cell]
    have hne : ¬ (some ay : Ptr) = some a := fun e => hya (Option.some.inj e)
    cases cy with
    | BLACK =>
      rw [setKeyAt_plug] at h3
      have hp3 : ∀ f gs1, gs.map (Frame.setKeyAt a ky) = f :: gs1 →
          t3.getParent (some (X.setKeyAt a ky).ptr) = .ok (some f.ptr) := by
        intro f gs1 e
        cases X with
        | leaf =>
          cases gs with
          | nil => simp at e
          | cons g gs2 =>
            simp only [List.map_cons, List.cons.injEq] at e
            obtain ⟨rfl, -⟩ := e
            have := hp2 g gs2 rfl
            have e0 := ho3 0 (fun e1 => ha0 e1.symm)
            simp only [Tree.ptr_leaf, RbTree.getParent] at this
            simp only [Tree.setKeyAt, Tree.ptr_leaf, RbTree.getParent, e0]
            simpa using this
        | node cx xl ax kx vx xr =>
          have := h3.getParent_focus
          rw [e] at this
          simpa [Tree.setKeyAt] using this
      obtain ⟨t4, T4, e4, h4, hrb4, hl4⟩ := deleteFixUp_spec h3 ((hB rfl).setKeyAt a ky) hp3
      refine ⟨t4, T4, ?_, h4, hrb4, ?_⟩
      · simp only [Tree.setKeyAt_ptr] at e4
        simp [RbTree.deleteUnlink, e2, hne, ek, e3, ec, e4]
      · rw [hl4, if_neg hya, setKeyAt_plug]
    | RED =>
      refine ⟨t3, _, ?_, h3, Tree.setKeyAt_isRB a ky (hR rfl), by rw [if_neg hya]⟩
      simp [RbTree.deleteUnlink, e2, hne, ek, e3, ec]

/-- The tree `Delete` leaves when the descent stops at `cur` under the frames
`fs`: a node with a sentinel child is replaced by its other child; otherwise the
node `min` returns (the leftmost node of the whole tree, since `min` restarts at
the root) is replaced by its right child and its key is written into `cur`. -/
def unlinked (T : Tree K V) (fs : List (Frame K V)) : Tree K V → Tree K V
  | leaf => T
  | node _ l a _ _ r =>
    match l, r with
    | leaf, _ => plug fs r
    | node _ _ _ _ _ _, leaf => plug fs l
    | node _ _ _ _ _ _, node _ _ _ _ _ _ =>
      match leftmost T [] with
      | (gs, node _ _ _ ky _ yr) => (plug gs yr).setKeyAt a ky
      | (_, leaf) => T

/-- The value held by the root node of a tree. -/
def Tree.rootValue : Tree K V → Option V
  | leaf => none
  | node _ _ _ _ v _ => some v

section

variable [LinearOrder K]

/-- Method `Delete` on a shaped store holding a red-black tree: the call
returns; with no equal key on the descent the state is returned as it is,
otherwise the receipt holds the key and the value of the node found, and the
store holds a red-black tree with the entries of `unlinked`. -/
theorem Delete_spec {t : RbTree K V} {T : Tree K V} (h : Shape d t T) (hrb : T.isRB) (key : K) :
    match findPath key T [] with
    | none => t.Delete key = .ok (t, none)
    | some (fs, cur) =>
      ∃ t1 T1 ret, t.Delete key = .ok (t1, some ret) ∧ Shape d t1 T1 ∧ T1.isRB ∧
        ret.Key = some key ∧ ret.Value = cur.rootValue ∧
        (ret.left = t.null ∧ ret.right = t.null ∧ ret.parent = t.null) ∧
        T1.toList = (unlinked T fs cur).toList := by
  have hT : Shape d t (plug [] T) := h
  have hl := DeleteLoop_spec key T [] t.fuel hT h.height_lt_fuel
  rw [← h.root_eq] at hl
  cases hp : findPath key T [] with
  | none =>
    simp only [hp] at hl ⊢
    simp [RbTree.Delete, hl, h.null_eq]
  | some p =>
    obtain ⟨fs, cur⟩ := p
    obtain ⟨hpl, c, l, a, v, r, rfl⟩ := findPath_plug key T [] fs _ hp
    simp only [hp, Tree.ptr_node] at hl ⊢
    have hpl1 : plug fs (node c l a key v r) = T := hpl
    have hf : Shape d t (plug fs (node c l a key v r)) := by rw [hpl1]; exact h
    have hrbf : (plug fs (node c l a key v r)).isRB := by rw [hpl1]; exact hrb
    have ha0 := hf.focus_ne_zero
    have ek := hf.getKey_focus
    have ev := hf.getValue_focus
    have ec := hf.getColor_focus
    have el := hf.getLeft_focus
    have er := hf.getRight_focus
    cases l with
    | leaf =>
      obtain ⟨t4, T4, e4, h4, hrb4, hl4⟩ :=
        deleteUnlink_spec hf hrbf r (Or.inr ⟨rfl, rfl⟩) a ha0
      refine ⟨{ t4 with count := t4.count - 1 }, T4,
        { Key := some key, Value := some v, color := c, left := some 0, right := some 0,
          parent := some 0 }, ?_, h4.dec_count, hrb4, rfl, rfl,
          ⟨h.null_eq.symm, h.null_eq.symm, h.null_eq.symm⟩, ?_⟩
      · simp only [Tree.ptr_leaf] at el
        simp [RbTree.Delete, hl, h.null_eq, ha0, ek, ev, ec, el, er, e4]
      · simpa [unlinked] using hl4
    | node c1 l1 a1 k1 v1 r1 =>
      have hl0 : a1 ≠ 0 := by
        have := hf.pos_plug a1 (by simp [Tree.addrs])
        omega
      cases r with
      | leaf =>
        obtain ⟨t4, T4, e4, h4, hrb4, hl4⟩ :=
          deleteUnlink_spec hf hrbf (node c1 l1 a1 k1 v1 r1) (Or.inl ⟨rfl, rfl⟩) a ha0
        refine ⟨{ t4 with count := t4.count - 1 }, T4,
        { Key := some key, Value := some v, color := c, left := some 0, right := some 0,
          parent := some 0 }, ?_, h4.dec_count, hrb4, rfl, rfl,
          ⟨h.null_eq.symm, h.null_eq.symm, h.null_eq.symm⟩, ?_⟩
        · simp only [Tree.ptr_leaf, Tree.ptr_node] at el er
          simp [RbTree.Delete, hl, h.null_eq, ha0, ek, ev, ec, el, er, hl0, e4]
        · simpa [unlinked] using hl4
      | node c2 l2 a2 k2 v2 r2 =>
        have hr0 : a2 ≠ 0 := by
          have := hf.pos_plug a2 (by simp [Tree.addrs])
          omega
        have hTn : T ≠ leaf := by
          rw [← hpl1]
          exact plug_ne_leaf _ (fun e => Tree.noConfusion e)
        have hmin := minLoop_spec T [] t.fuel hT hTn (Nat.le_of_lt h.height_lt_fuel)
        rw [← h.root_eq] at hmin
        obtain ⟨cy, ay, ky, vy, yr, hy⟩ := leftmost_node T [] hTn
        have hyp := leftmost_plug T []
        rcases hlm : leftmost T [] with ⟨gs, y⟩
        rw [hlm] at hy hyp hmin
        simp only at hy hyp hmin
        subst hy
        have hyp1 : plug gs (node cy leaf ay ky vy yr) = T := hyp
        have hg : Shape d t (plug gs (node cy leaf ay ky vy yr)) := by rw [hyp1]; exact h
        have hrbg : (plug gs (node cy leaf ay ky vy yr)).isRB := by rw [hyp1]; exact hrb
        have hne : ay ≠ a := by
          intro e
          subst e
          have e1 := hg.getLeft_focus
          rw [el] at e1
          simp only [Tree.ptr_leaf, Tree.ptr_node, Res.ok.injEq, Option.some.injEq] at e1
          exact hl0 e1
        obtain ⟨t4, T4, e4, h4, hrb4, hl4⟩ :=
          deleteUnlink_spec hg hrbg yr (Or.inr ⟨rfl, rfl⟩) a ha0
        refine ⟨{ t4 with count := t4.count - 1 }, T4,
        { Key := some key, Value := some v, color := c, left := some 0, right := some 0,
          parent := some 0 }, ?_, h4.dec_count, hrb4, rfl, rfl,
          ⟨h.null_eq.symm, h.null_eq.symm, h.null_eq.symm⟩, ?_⟩
        · simp only [Tree.ptr_leaf, Tree.ptr_node] at el er hmin
          simp [RbTree.Delete, hl, h.null_eq, ha0, ek, ev, ec, el, er, hl0, hr0,
            RbTree.successor, RbTree.min, hmin, e4]
        · rw [hl4, if_neg hne]
          simp [unlinked, hlm]

end

end RbSpec

namespace RbSpec

open Color Tree

/-! ## Claims -/

/-- The calls of `TestNewRbTree2`: keys 1, 10, 11, 17, -1 with their values. -/
def testOps : List (Int × Nat) := [(1, 20), (10, 1), (11, 2), (17, 3), (-1, 4)]

section

variable {K V : Type} [LinearOrder K]


/-- C1: after any finite sequence of `Insert` calls on `NewRbTree()` the calls
all return, the sentinel is BLACK, the root is BLACK, no RED node has a RED
child, and all paths from the root to a sentinel link hold the same number of
BLACK nodes (the tree is read back from the store by traversal). -/
theorem C1_insert_keeps_invariants (ops : List (K × V)) :
    ∃ t T, insertAll (NewRbTree : RbTree K V) ops = .ok t ∧ t.view = .ok T ∧
      t.getColor t.null = .ok BLACK ∧ t.getColor t.root = .ok BLACK ∧
      T.color = BLACK ∧ T.noRedRed ∧ T.pathsEqual := by
  obtain ⟨t, T, e, h, hc, hn, hb⟩ := insertAll_isRB ops NewRbTree leaf shape_new isRB_leaf
  refine ⟨t, T, e, h.view, ?_, ?_, hc, hn, Tree.pathsEqual_of_balanced hb⟩
  · simp [h.null_eq, RbTree.getColor, h.nil_color]
  · have hT : Shape 0 t (plug [] T) := h
    rw [h.root_eq, hT.getColor_ptr, hc]

end

/-- C2: after any finite sequence of `Insert` calls on `NewRbTree()`, `Range`
visits entries whose keys are strictly ascending, and it visits the pair
`(k, v)` exactly when `v` is the value of the first call with key `k`; on the
keys 1, 10, 11, 17, -1 it yields -1, 1, 10, 11, 17. -/
theorem C2_range_sorted_first_values :
    (∀ (K V : Type) [LinearOrder K] (ops : List (K × V)),
      ∃ (t : RbTree K V) (L : List (K × V)), insertAll (NewRbTree : RbTree K V) ops = .ok t ∧
        t.Range = .ok (L.map (fun p => (some p.1, some p.2))) ∧
        L.Pairwise (fun x y => x.1 < y.1) ∧
        ∀ k v, (k, v) ∈ L ↔ ops.lookup k = some v) ∧
    (insertAll NewRbTree testOps >>= fun t => t.Range) =
      .ok [(some (-1), some 4), (some 1, some 20), (some 10, some 1), (some 11, some 2),
        (some 17, some 3)] := by
  constructor
  · intro K V _ ops
    obtain ⟨t, T, e, h, -, hs, hm⟩ :=
      insertAll_sorted ops NewRbTree leaf shape_new isRB_leaf sorted_leaf
    refine ⟨t, T.toList, e, h.range, hs, ?_⟩
    intro k v
    rw [hm k v]
    simp [Tree.keys]
  · decide!

section

variable {K V : Type} [LinearOrder K]

/-- C3: on a tree built by `Insert` calls, `Insert(k, v)` returns false exactly
when `k` is among the keys `Range` visits, and then the whole state (root,
store, count) is the one before the call. -/
theorem C3_insert_false_iff_present (ops : List (K × V)) (k : K) (v : V) :
    ∃ t L t1 b, insertAll (NewRbTree : RbTree K V) ops = .ok t ∧ t.Range = .ok L ∧
      t.Insert k v = .ok (t1, b) ∧ (b = false ↔ some k ∈ L.map Prod.fst) ∧
      (b = false → t1 = t) := by
  obtain ⟨t, T, e, h, hrb, hs, -⟩ :=
    insertAll_sorted ops NewRbTree leaf shape_new isRB_leaf sorted_leaf
  obtain ⟨t1, T1, b, e1, -, -, -, hb, hu, -⟩ := Insert_sorted h hrb hs k v
  refine ⟨t, _, t1, b, e, h.range, e1, ?_, hu⟩
  rw [hb]
  simp [calls, Tree.keys]

end

end RbSpec

namespace RbSpec

open Color Tree

/-! ## Claims on `Get` and `Delete` -/

section

variable {K V : Type} [LinearOrder K]

variable {d : Int}

/-- On a sorted tree the descent of `Delete` stops at the node of a present key. -/
theorem findPath_of_mem (key : K) (v : V) : ∀ (s : Tree K V) (fs : List (Frame K V)),
    s.sorted → (key, v) ∈ s.toList →
      ∃ gs c l a r, findPath key s fs = some (gs, node c l a key v r) := by
  intro s
  induction s with
  | leaf => intro fs _ hm; simp at hm
  | node c l a k v0 r ihl ihr =>
    intro fs hs hm
    simp only [Tree.sorted, Tree.toList_node, List.pairwise_append, List.pairwise_cons] at hs
    obtain ⟨hsl, ⟨hkr, hsr⟩, hlr⟩ := hs
    simp only [Tree.toList_node, List.mem_append, List.mem_cons] at hm
    rcases hm with hm | hm | hm
    · have hlt : key < k := hlr _ hm (k, v0) (by simp)
      have h1 : ¬ k < key := not_lt.2 (le_of_lt hlt)
      have h2 : ¬ k = key := fun e => (ne_of_lt hlt) e.symm
      simp only [findPath, h1, h2, if_false]
      exact ihl _ hsl hm
    · simp only [Prod.mk.injEq] at hm
      obtain ⟨rfl, rfl⟩ := hm
      exact ⟨fs, c, l, a, r, by simp [findPath]⟩
    · have hlt : k < key := hkr _ hm
      simp only [findPath, hlt, if_true]
      exact ihr _ hsr hm

/-- One `Delete` on a shaped store holding a red-black tree, whatever the order
of its keys: the call returns and the result is again a red-black tree. -/
theorem Delete_isRB {t : RbTree K V} {T : Tree K V} (h : Shape d t T) (hrb : T.isRB) (key : K) :
    ∃ t1 T1 r, t.Delete key = .ok (t1, r) ∧ Shape d t1 T1 ∧ T1.isRB := by
  have hd := Delete_spec h hrb key
  cases hp : findPath key T [] with
  | none =>
    simp only [hp] at hd
    exact ⟨t, T, none, hd, h, hrb⟩
  | some p =>
    simp only [hp] at hd
    obtain ⟨t1, T1, ret, e, h1, hrb1, -⟩ := hd
    exact ⟨t1, T1, some ret, e, h1, hrb1⟩

/-- One call of the test programs: `Insert(key, value)` or `Delete(key)`. -/
inductive Op (K V : Type) where
  | insert (key : K) (value : V) : Op K V
  | delete (key : K) : Op K V

/-- A sequence of `Insert` and `Delete` calls, results dropped. -/
def runOps (t : RbTree K V) : List (Op K V) → Res (RbTree K V)
  | [] => pure t
  | Op.insert k v :: ops => do
    let (t1, _) ← t.Insert k v
    runOps t1 ops
  | Op.delete k :: ops => do
    let (t1, _) ← t.Delete k
    runOps t1 ops

/-- A sequence of `Delete` calls; the flags tell which calls returned a node. -/
def deleteAll (t : RbTree K V) : List K → Res (RbTree K V × List Bool)
  | [] => pure (t, [])
  | k :: ks => do
    let (t1, r) ← t.Delete k
    let (t2, bs) ← deleteAll t1 ks
    pure (t2, r.isSome :: bs)

theorem runOps_isRB : ∀ (ops : List (Op K V)) (t : RbTree K V) (T : Tree K V),
    Shape d t T → T.isRB → ∃ t1 T1, runOps t ops = .ok t1 ∧ Shape d t1 T1 ∧ T1.isRB := by
  intro ops
  induction ops with
  | nil => intro t T h hrb; exact ⟨t, T, rfl, h, hrb⟩
  | cons op ops ih =>
    intro t T h hrb
    cases op with
    | insert k v =>
      obtain ⟨t1, T1, b, e, h1, hrb1⟩ := Insert_isRB h hrb k v
      obtain ⟨t2, T2, e2, h2, hrb2⟩ := ih t1 T1 h1 hrb1
      exact ⟨t2, T2, by simp [runOps, e, e2], h2, hrb2⟩
    | delete k =>
      obtain ⟨t1, T1, r, e, h1, hrb1⟩ := Delete_isRB h hrb k
      obtain ⟨t2, T2, e2, h2, hrb2⟩ := ih t1 T1 h1 hrb1
      exact ⟨t2, T2, by simp [runOps, e, e2], h2, hrb2⟩

theorem lookup_none_of_not_mem (k : K) : ∀ (ops : List (K × V)),
    k ∉ ops.map Prod.fst → ops.lookup k = none := by
  intro ops
  induction ops with
  | nil => intro _; rfl
  | cons op ops ih =>
    intro hk
    obtain ⟨k0, v0⟩ := op
    simp only [List.map_cons, List.mem_cons, not_or] at hk
    have hne : (k == k0) = false := by simpa using hk.1
    simp only [List.lookup, hne]
    exact ih hk.2

end

/-- C4: after the inserts of the test, `Get(10)` returns the stored value 1 with
found = true (10 is the key at the root), but `Get(1)` and `Get(-1)` return
`(nil, false)` although `Range` visits the keys 1 and -1: the loop of `Get`
goes left where `Insert` went right. -/
theorem C4_get_descends_wrong_side :
    (insertAll NewRbTree testOps >>= fun t => t.Get 10) = .ok (some 1, true) ∧
    (insertAll NewRbTree testOps >>= fun t => t.Range) =
      .ok [(some (-1), some 4), (some 1, some 20), (some 10, some 1), (some 11, some 2),
        (some 17, some 3)] ∧
    (insertAll NewRbTree testOps >>= fun t => t.Get 1) = .ok (none, false) ∧
    (insertAll NewRbTree testOps >>= fun t => t.Get (-1)) = .ok (none, false) := by
  decide!

/-- C5: after the inserts of the test, `Delete(1)` leaves `Range` with the keys
-1, 10, 11, 17, but `Delete(10)` leaves it with the keys 1, -1, 11, 17, which
is neither ascending nor the former sequence without 10: `min` restarts at the
root, so the node unlinked is the minimum of the whole tree. -/
theorem C5_delete_breaks_order :
    (insertAll NewRbTree testOps >>= fun t => t.Delete 1 >>= fun p =>
      p.1.Range >>= fun L => pure (L.map Prod.fst)) =
      .ok [some (-1), some 10, some 11, some 17] ∧
    (insertAll NewRbTree testOps >>= fun t => t.Delete 10 >>= fun p =>
      p.1.Range >>= fun L => pure (L.map Prod.fst)) =
      .ok [some 1, some (-1), some 11, some 17] := by
  decide!

/-- C6: after the inserts of the test `Range` visits the pair (-1, 4); after
`Delete(10)` it visits (1, 20), (-1, 1), (11, 2), (17, 3): the key -1 is
paired with the value 1 of the deleted entry, since only the key of the
unlinked node is copied. -/
theorem C6_delete_changes_other_entry :
    (insertAll NewRbTree testOps >>= fun t => t.Range >>= fun L =>
      pure (decide ((some (-1), some 4) ∈ L))) = .ok true ∧
    (insertAll NewRbTree testOps >>= fun t => t.Delete 10 >>= fun p => p.1.Range) =
      .ok [(some 1, some 20), (some (-1), some 1), (some 11, some 2), (some 17, some 3)] := by
  decide!

section

variable {K V : Type} [LinearOrder K]

/-- C7: on a tree built by `Insert` calls, where `v` is the value of the first
call with key `k`, `Delete(k)` returns a node with `Key` `k` and `Value` `v`,
whose three links are the sentinel. -/
theorem C7_delete_returns_receipt (ops : List (K × V)) (k : K) (v : V)
    (hk : ops.lookup k = some v) :
    ∃ t t1 ret, insertAll (NewRbTree : RbTree K V) ops = .ok t ∧
      t.Delete k = .ok (t1, some ret) ∧ ret.Key = some k ∧ ret.Value = some v ∧
      ret.left = t.null ∧ ret.right = t.null ∧ ret.parent = t.null := by
  obtain ⟨t, T, e, h, hrb, hs, hm⟩ :=
    insertAll_sorted ops NewRbTree leaf shape_new isRB_leaf sorted_leaf
  have hmem : (k, v) ∈ T.toList := (hm k v).2 (Or.inr ⟨by simp [Tree.keys], hk⟩)
  obtain ⟨gs, c, l, a, r, hp⟩ := findPath_of_mem k v T [] hs hmem
  have hd := Delete_spec h hrb k
  simp only [hp] at hd
  obtain ⟨t1, T1, ret, e1, -, -, hkey, hval, hdet, -⟩ := hd
  exact ⟨t, t1, ret, e, e1, hkey, hval, hdet⟩

theorem C7_delete_returns_receipt_witness :
    testOps.lookup 1 = some 20 ∧
      ∃ t t1 ret, insertAll (NewRbTree : RbTree Int Nat) testOps = .ok t ∧
        t.Delete 1 = .ok (t1, some ret) ∧ ret.Key = some 1 ∧ ret.Value = some 20 ∧
        ret.left = t.null ∧ ret.right = t.null ∧ ret.parent = t.null :=
  ⟨by decide, C7_delete_returns_receipt testOps 1 20 (by decide)⟩

/-- C8: on a tree built by `Insert` calls, none of them with key `k`,
`Delete(k)` returns nil and the state after the call (root, store, count) is
the state before it. -/
theorem C8_delete_absent_is_noop (ops : List (K × V)) (k : K) (hk : k ∉ ops.map Prod.fst) :
    ∃ t, insertAll (NewRbTree : RbTree K V) ops = .ok t ∧ t.Delete k = .ok (t, none) := by
  obtain ⟨t, T, e, h, hrb, hs, hm⟩ :=
    insertAll_sorted ops NewRbTree leaf shape_new isRB_leaf sorted_leaf
  have hno : k ∉ T.keys := by
    rw [mem_keys_iff]
    rintro ⟨v, hv⟩
    have := (hm k v).1 hv
    simp [lookup_none_of_not_mem k ops hk] at this
  have hd := Delete_spec h hrb k
  simp only [findPath_none_of_not_mem k T [] hno] at hd
  exact ⟨t, e, hd⟩

theorem C8_delete_absent_is_noop_witness :
    (5 : Int) ∉ testOps.map Prod.fst ∧
      ∃ t, insertAll (NewRbTree : RbTree Int Nat) testOps = .ok t ∧ t.Delete 5 = .ok (t, none) :=
  ⟨by decide, C8_delete_absent_is_noop testOps 5 (by decide)⟩

/-- C9: after any finite sequence of `Insert` and `Delete` calls on
`NewRbTree()`, a further `Delete(k)` returns and leaves the sentinel BLACK, the
root BLACK, no RED node with a RED child, and the same number of BLACK nodes on
all paths from the root to a sentinel link. -/
theorem C9_delete_keeps_invariants (ops : List (Op K V)) (k : K) :
    ∃ t t1 r T1, runOps (NewRbTree : RbTree K V) ops = .ok t ∧ t.Delete k = .ok (t1, r) ∧
      t1.view = .ok T1 ∧ t1.getColor t1.null = .ok BLACK ∧ t1.getColor t1.root = .ok BLACK ∧
      T1.color = BLACK ∧ T1.noRedRed ∧ T1.pathsEqual := by
  obtain ⟨t, T, e, h, hrb⟩ := runOps_isRB ops NewRbTree leaf shape_new isRB_leaf
  obtain ⟨t1, T1, r, e1, h1, hc, hn, hb⟩ := Delete_isRB h hrb k
  refine ⟨t, t1, r, T1, e, e1, h1.view, ?_, ?_, hc, hn, Tree.pathsEqual_of_balanced hb⟩
  · simp [h1.null_eq, RbTree.getColor, h1.nil_color]
  · have hT : Shape 0 t1 (plug [] T1) := h1
    rw [h1.root_eq, hT.getColor_ptr, hc]

end

/-- C10: after the inserts of the test, the calls `Delete(10)`, `Delete(1)`,
`Delete(11)`, `Delete(17)`, `Delete(-1)` return a node, nil, a node, a node, a
node, and the tree is not empty at the end: `Size()` is 1, the root, `Min()`
and `Max()` are the node at address 1, not the sentinel at address 0, and
`Range` visits the pair (1, 20). -/
theorem C10_round_trip_leaves_entry :
    (insertAll NewRbTree testOps >>= fun t => deleteAll t [10, 1, 11, 17, -1] >>= fun p =>
      pure (p.2, p.1.Size)) = .ok ([true, false, true, true, true], 1) ∧
    (insertAll NewRbTree testOps >>= fun t => deleteAll t [10, 1, 11, 17, -1] >>= fun p =>
      p.1.Min >>= fun mn => p.1.Max >>= fun mx => pure (p.1.null, p.1.root, mn, mx)) =
      .ok (some 0, some 1, some 1, some 1) ∧
    (insertAll NewRbTree testOps >>= fun t => deleteAll t [10, 1, 11, 17, -1] >>= fun p =>
      p.1.Range) = .ok [(some 1, some 20)] := by
  decide!

end RbSpec

namespace RbSpec

open Color Tree

variable {K V : Type}

variable {d : Int}

/-! ## Methods `Update`, `Get`, `Min`, `Max` on a shaped store -/

namespace Shape

variable {t : RbTree K V} {fs : List (Frame K V)}

/-- The assignment `curr.Value = val` on the root of the focus. -/
theorem setValue {c : Color} {l r : Tree K V} {a : Nat} {k : K} {v : V}
    (h : Shape d t (plug fs (node c l a k v r))) (v1 : V) :
    Shape d { t with mem := Function.update t.mem a { t.mem a with Value := some v1 } }
      (plug fs (node c l a k v1 r)) := by
  have ha0 := h.focus_ne_zero
  have hnd := h.nodup_plug
  simp only [Tree.addrs, List.nodup_append, List.nodup_cons, List.mem_append, List.mem_cons,
    List.append_assoc, List.cons_append, List.disjoint_cons_right, List.disjoint_append_right,
    not_or] at hnd
  have h0 : (Function.update t.mem a { t.mem a with Value := some v1 }) 0 = t.mem 0 :=
    Function.update_noteq (fun e => ha0 e.symm) _ _
  refine h.replace rfl (List.Perm.refl _) rfl rfl rfl rfl ?_ ?_ ?_ ?_ ?_
  · intro b hb _
    apply Function.update_noteq
    intro e; apply hb; simp [Tree.addrs, e]
  · show (Function.update t.mem a _ 0).color = BLACK
    rw [h0]; exact h.nil_color
  · show (Function.update t.mem a _ 0).left = none
    rw [h0]; exact h.nil_left
  · show (Function.update t.mem a _ 0).right = none
    rw [h0]; exact h.nil_right
  · intro c2 hc2
    have hfc := h.focus_cells
    simp only [Tree.cells, List.mem_append, List.mem_cons] at hc2
    rcases hc2 with hc2 | hc2 | hc2
    · have hm := Tree.mem_cells_addr hc2
      have hne : c2.1 ≠ a := fun e => hnd.2.2.1 (e ▸ hm)
      show Function.update t.mem a _ c2.1 = c2.2
      rw [Function.update_noteq hne]
      exact hfc c2 (by simp [Tree.cells, hc2])
    · subst hc2
      show Function.update t.mem a _ a = _
      rw [Function.update_same, h.mem_focus]
      rfl
    · have hm := Tree.mem_cells_addr hc2
      have hne : c2.1 ≠ a := fun e => hnd.2.1.1.1 (e ▸ hm)
      show Function.update t.mem a _ c2.1 = c2.2
      rw [Function.update_noteq hne]
      exact hfc c2 (by simp [Tree.cells, hc2])

end Shape

/-- The color conditions do not look at the values. -/
theorem isRB_setValue {fs : List (Frame K V)} {c : Color} {l r : Tree K V} {a : Nat} {k : K}
    {v : V} (hrb : (plug fs (node c l a k v r)).isRB) (v1 : V) :
    (plug fs (node c l a k v1 r)).isRB := by
  obtain ⟨hc, hn, hb⟩ := hrb
  rw [color_plug] at hc
  rw [noRedRed_plug] at hn
  rw [balanced_plug] at hb
  refine ⟨?_, ?_, ?_⟩
  · rw [color_plug]; exact hc
  · rw [noRedRed_plug]; exact hn
  · rw [balanced_plug]; exact hb

/-- The rightmost node below a link, with the frames above it. -/
def rightmost : Tree K V → List (Frame K V) → List (Frame K V) × Tree K V
  | leaf, fs => (fs, leaf)
  | node c l a k v r, fs =>
    match r with
    | leaf => (fs, node c l a k v leaf)
    | node _ _ _ _ _ _ => rightmost r (Frame.R c l a k v :: fs)

theorem rightmost_plug : ∀ (s : Tree K V) (fs : List (Frame K V)),
    plug (rightmost s fs).1 (rightmost s fs).2 = plug fs s := by
  intro s
  induction s with
  | leaf => intro fs; rfl
  | node c l a k v r _ ihr =>
    intro fs
    cases r with
    | leaf => rfl
    | node c1 l1 a1 k1 v1 r1 =>
      simp only [rightmost]
      exact ihr _

theorem rightmost_node : ∀ (s : Tree K V) (fs : List (Frame K V)), s ≠ leaf →
    ∃ c l a k v, (rightmost s fs).2 = node c l a k v leaf := by
  intro s
  induction s with
  | leaf => intro fs h; exact absurd rfl h
  | node c l a k v r _ ihr =>
    intro fs _
    cases r with
    | leaf => exact ⟨c, l, a, k, v, rfl⟩
    | node c1 l1 a1 k1 v1 r1 =>
      simp only [rightmost]
      exact ihr _ (fun e => Tree.noConfusion e)

theorem maxLoop_spec {t : RbTree K V} : ∀ (s : Tree K V) (fs : List (Frame K V)) (n : Nat),
    Shape d t (plug fs s) → s ≠ leaf → s.height ≤ n →
      t.maxLoop n (some s.ptr) = .ok (some (rightmost s fs).2.ptr) := by
  intro s
  induction s with
  | leaf => intro fs n _ h; exact absurd rfl h
  | node c l a k v r _ ihr =>
    intro fs n h _ hn
    cases n with
    | zero => simp [Tree.height] at hn
    | succ n =>
      have e1 := h.getRight_focus
      cases r with
      | leaf =>
        simp only [Tree.ptr_leaf] at e1
        simp [RbTree.maxLoop, e1, h.null_eq, rightmost]
      | node c1 l1 a1 k1 v1 r1 =>
        have hl : Shape d t (plug (Frame.R c l a k v :: fs) (node c1 l1 a1 k1 v1 r1)) := h
        have ha1 := hl.focus_ne_zero
        have hh : (node c1 l1 a1 k1 v1 r1).height ≤ n := by
          have := Tree.height_right_lt c l a k v (node c1 l1 a1 k1 v1 r1)
          omega
        have ih := ihr (Frame.R c l a k v :: fs) n hl (fun e => Tree.noConfusion e) hh
        simp only [Tree.ptr_node] at e1 ih ⊢
        simp [RbTree.maxLoop, e1, h.null_eq, ha1, ih, rightmost]

theorem leftmost_ctxL : ∀ (s : Tree K V) (fs : List (Frame K V)),
    ctxL (leftmost s fs).1 = ctxL fs := by
  intro s
  induction s with
  | leaf => intro fs; rfl
  | node c l a k v r ihl _ =>
    intro fs
    cases l with
    | leaf => rfl
    | node c1 l1 a1 k1 v1 r1 =>
      show ctxL (leftmost (node c1 l1 a1 k1 v1 r1) (Frame.L c a k v r :: fs)).1 = ctxL fs
      rw [ihl]
      rfl

theorem rightmost_ctxR : ∀ (s : Tree K V) (fs : List (Frame K V)),
    ctxR (rightmost s fs).1 = ctxR fs := by
  intro s
  induction s with
  | leaf => intro fs; rfl
  | node c l a k v r _ ihr =>
    intro fs
    cases r with
    | leaf => rfl
    | node c1 l1 a1 k1 v1 r1 =>
      show ctxR (rightmost (node c1 l1 a1 k1 v1 r1) (Frame.R c l a k v :: fs)).1 = ctxR fs
      rw [ihr]
      rfl

section

variable [LinearOrder K]

theorem UpdateLoop_spec {t : RbTree K V} (key : K) (val : V) :
    ∀ (s : Tree K V) (fs : List (Frame K V)) (n : Nat), Shape d t (plug fs s) → s.height < n →
      t.UpdateLoop key val n (some s.ptr) =
        match findPath key s fs with
        | none => .ok (t, false)
        | some p => .ok ({ t with mem := (Function.update t.mem p.2.ptr
            { t.mem p.2.ptr with Value := some val }) }, true) := by
  intro s
  induction s with
  | leaf =>
    intro fs n h hn
    cases n with
    | zero => exact absurd hn (Nat.not_lt_zero _)
    | succ n => simp [RbTree.UpdateLoop, h.null_eq, findPath]
  | node c l a k v r ihl ihr =>
    intro fs n h hn
    cases n with
    | zero => exact absurd hn (Nat.not_lt_zero _)
    | succ n =>
      have ha0 := h.focus_ne_zero
      have e1 := h.recvKey_focus
      have e2 := h.getLeft_focus
      have e3 := h.getRight_focus
      have hl : l.height < n := by
        have := Tree.height_left_lt c l a k v r
        omega
      have hr : r.height < n := by
        have := Tree.height_right_lt c l a k v r
        omega
      have il := ihl (Frame.L c a k v r :: fs) n h hl
      have ir := ihr (Frame.R c l a k v :: fs) n h hr
      by_cases hlt : k < key
      · simp [RbTree.UpdateLoop, h.null_eq, ha0, e1, e3, RbTree.Less, hlt, findPath, ir]
      · by_cases heq : k = key
        · simp [RbTree.UpdateLoop, h.null_eq, ha0, e1, RbTree.Less, RbTree.Equal, hlt, heq,
            findPath, RbTree.setValue, RbTree.store]
        · simp [RbTree.UpdateLoop, h.null_eq, ha0, e1, e2, RbTree.Less, RbTree.Equal, hlt, heq,
            findPath, il]

/-- Method `Update` on a shaped store: the call returns; with no equal key on
the descent the state is returned as it is, otherwise only the `Value` of the
record found is overwritten, and the store holds the same tree with that value. -/
theorem Update_spec {t : RbTree K V} {T : Tree K V} (h : Shape d t T) (key : K) (val : V) :
    match findPath key T [] with
    | none => t.Update key val = .ok (t, false)
    | some (fs, cur) =>
      ∃ c l a v r, cur = node c l a key v r ∧ Shape d t (plug fs (node c l a key v r)) ∧
        t.Update key val = .ok ({ t with mem := (Function.update t.mem a
          { t.mem a with Value := some val }) }, true) ∧
        Shape d { t with mem := Function.update t.mem a { t.mem a with Value := some val } }
          (plug fs (node c l a key val r)) := by
  have hT : Shape d t (plug [] T) := h
  have hl := UpdateLoop_spec key val T [] t.fuel hT h.height_lt_fuel
  rw [← h.root_eq] at hl
  cases hp : findPath key T [] with
  | none =>
    simp only [hp] at hl ⊢
    exact hl
  | some p =>
    obtain ⟨fs, cur⟩ := p
    obtain ⟨hpl, c, l, a, v, r, rfl⟩ := findPath_plug key T [] fs _ hp
    simp only [hp, Tree.ptr_node] at hl ⊢
    have hpl1 : plug fs (node c l a key v r) = T := hpl
    have hf : Shape d t (plug fs (node c l a key v r)) := by rw [hpl1]; exact h
    exact ⟨c, l, a, v, r, rfl, hf, hl, hf.setValue val⟩

/-- One `Update` on a shaped store holding a red-black tree, whatever the order
of its keys: the call returns, the result is again a red-black tree and the
count is the same. -/
theorem Update_isRB {t : RbTree K V} {T : Tree K V} (h : Shape d t T) (hrb : T.isRB) (key : K)
    (val : V) :
    ∃ t1 T1 b, t.Update key val = .ok (t1, b) ∧ Shape d t1 T1 ∧ T1.isRB ∧ t1.count = t.count := by
  have hu := Update_spec h key val
  cases hp : findPath key T [] with
  | none =>
    simp only [hp] at hu
    exact ⟨t, T, false, hu, h, hrb, rfl⟩
  | some p =>
    obtain ⟨fs, cur⟩ := p
    simp only [hp] at hu
    obtain ⟨c, l, a, v, r, rfl, hf, e, h1⟩ := hu
    obtain ⟨hpl, -⟩ := findPath_plug key T [] fs _ hp
    have hpl1 : plug fs (node c l a key v r) = T := hpl
    refine ⟨_, _, true, e, h1, isRB_setValue (by rw [hpl1]; exact hrb) val, rfl⟩

/-- The loop of `Get` returns on every shaped store. -/
theorem GetLoop_total {t : RbTree K V} (key : K) :
    ∀ (s : Tree K V) (fs : List (Frame K V)) (n : Nat), Shape d t (plug fs s) → s.height < n →
      ∃ r, t.GetLoop key n (some s.ptr) = .ok r := by
  intro s
  induction s with
  | leaf =>
    intro fs n h hn
    cases n with
    | zero => exact absurd hn (Nat.not_lt_zero _)
    | succ n => exact ⟨(none, false), by simp [RbTree.GetLoop, h.null_eq]⟩
  | node c l a k v r ihl ihr =>
    intro fs n h hn
    cases n with
    | zero => exact absurd hn (Nat.not_lt_zero _)
    | succ n =>
      have ha0 := h.focus_ne_zero
      have e1 := h.recvKey_focus
      have e2 := h.getLeft_focus
      have e3 := h.getRight_focus
      have e4 := h.getValue_focus
      have hl : l.height < n := by
        have := Tree.height_left_lt c l a k v r
        omega
      have hr : r.height < n := by
        have := Tree.height_right_lt c l a k v r
        omega
      obtain ⟨rl, il⟩ := ihl (Frame.L c a k v r :: fs) n h hl
      obtain ⟨rr, ir⟩ := ihr (Frame.R c l a k v :: fs) n h hr
      by_cases hlt : k < key
      · exact ⟨rl, by simp [RbTree.GetLoop, h.null_eq, ha0, e1, e2, RbTree.Less, hlt, il]⟩
      · by_cases heq : k = key
        · exact ⟨(some v, true), by
            simp [RbTree.GetLoop, h.null_eq, ha0, e1, e4, RbTree.Less, RbTree.Equal, hlt, heq]⟩
        · exact ⟨rr, by
            simp [RbTree.GetLoop, h.null_eq, ha0, e1, e3, RbTree.Less, RbTree.Equal, hlt, heq,
              ir]⟩

theorem Get_total {t : RbTree K V} {T : Tree K V} (h : Shape d t T) (key : K) :
    ∃ r, t.Get key = .ok r := by
  have hT : Shape d t (plug [] T) := h
  have := GetLoop_total key T [] t.fuel hT h.height_lt_fuel
  rw [← h.root_eq] at this
  exact this

/-- Below a link where every key is less than `key`, the loop of `Get` goes left
to the sentinel. -/
theorem GetLoop_lt {t : RbTree K V} (key : K) :
    ∀ (s : Tree K V) (fs : List (Frame K V)) (n : Nat), Shape d t (plug fs s) → s.height < n →
      (∀ x ∈ s.toList, x.1 < key) → t.GetLoop key n (some s.ptr) = .ok (none, false) := by
  intro s
  induction s with
  | leaf =>
    intro fs n h hn _
    cases n with
    | zero => exact absurd hn (Nat.not_lt_zero _)
    | succ n => simp [RbTree.GetLoop, h.null_eq]
  | node c l a k v r ihl _ =>
    intro fs n h hn hall
    cases n with
    | zero => exact absurd hn (Nat.not_lt_zero _)
    | succ n =>
      have ha0 := h.focus_ne_zero
      have e1 := h.recvKey_focus
      have e2 := h.getLeft_focus
      have hl : l.height < n := by
        have := Tree.height_left_lt c l a k v r
        omega
      have hlt : k < key := hall (k, v) (by simp)
      have il := ihl (Frame.L c a k v r :: fs) n h hl (fun x hx => hall x (by simp [hx]))
      simp [RbTree.GetLoop, h.null_eq, ha0, e1, e2, RbTree.Less, hlt, il]

/-- Below a link where every key is greater than `key`, the loop of `Get` goes
right to the sentinel. -/
theorem GetLoop_gt {t : RbTree K V} (key : K) :
    ∀ (s : Tree K V) (fs : List (Frame K V)) (n : Nat), Shape d t (plug fs s) → s.height < n →
      (∀ x ∈ s.toList, key < x.1) → t.GetLoop key n (some s.ptr) = .ok (none, false) := by
  intro s
  induction s with
  | leaf =>
    intro fs n h hn _
    cases n with
    | zero => exact absurd hn (Nat.not_lt_zero _)
    | succ n => simp [RbTree.GetLoop, h.null_eq]
  | node c l a k v r _ ihr =>
    intro fs n h hn hall
    cases n with
    | zero => exact absurd hn (Nat.not_lt_zero _)
    | succ n =>
      have ha0 := h.focus_ne_zero
      have e1 := h.recvKey_focus
      have e3 := h.getRight_focus
      have hr : r.height < n := by
        have := Tree.height_right_lt c l a k v r
        omega
      have hgt : key < k := hall (k, v) (by simp)
      have hlt : ¬ k < key := not_lt.2 (le_of_lt hgt)
      have hne : ¬ k = key := fun e => (ne_of_lt hgt) e.symm
      have ir := ihr (Frame.R c l a k v :: fs) n h hr (fun x hx => hall x (by simp [hx]))
      simp [RbTree.GetLoop, h.null_eq, ha0, e1, e3, RbTree.Less, RbTree.Equal, hlt, hne, ir]

end

end RbSpec

namespace RbSpec

open Color Tree

variable {K V : Type}

/-! ## Counting facts on trees -/

/-- In-order sequence of the addresses with their keys. -/
def Tree.entries : Tree K V → List (Nat × K)
  | leaf => []
  | node _ l a k _ r => l.entries ++ (a, k) :: r.entries

/-- In-order sequence of the keys, values and colors. -/
def Tree.triples : Tree K V → List (K × V × Color)
  | leaf => []
  | node c l _ k v r => l.triples ++ (k, v, c) :: r.triples

/-- The node of a frame and the nodes of its subtree, as entries. -/
def Frame.entries : Frame K V → List (Nat × K)
  | Frame.L _ a k _ r => (a, k) :: r.entries
  | Frame.R _ l a k _ => l.entries ++ [(a, k)]

/-- The entries outside the focus. -/
def ctxEntries : List (Frame K V) → List (Nat × K)
  | [] => []
  | f :: fs => f.entries ++ ctxEntries fs

theorem Tree.length_toList (T : Tree K V) : T.toList.length = T.addrs.length := by
  induction T with
  | leaf => rfl
  | node c l a k v r ihl ihr => simp [Tree.addrs, ihl, ihr]

theorem Tree.entries_fst (T : Tree K V) : T.entries.map Prod.fst = T.addrs := by
  induction T with
  | leaf => rfl
  | node c l a k v r ihl ihr => simp [Tree.entries, Tree.addrs, ihl, ihr]

theorem Tree.entries_snd (T : Tree K V) : T.entries.map Prod.snd = T.keys := by
  induction T with
  | leaf => rfl
  | node c l a k v r ihl ihr =>
    simp only [Tree.keys] at ihl ihr
    simp [Tree.entries, Tree.keys, ihl, ihr]

theorem Tree.mem_entries_addr {T : Tree K V} {x : Nat × K} (h : x ∈ T.entries) :
    x.1 ∈ T.addrs := by
  rw [← Tree.entries_fst]
  exact List.mem_map_of_mem _ h

theorem Frame.entries_fill (f : Frame K V) (s : Tree K V) :
    (f.fill s).entries.Perm (s.entries ++ f.entries) := by
  cases f with
  | L c a k v r => simp [Frame.fill, Tree.entries, Frame.entries]
  | R c l a k v =>
    simp only [Frame.fill, Tree.entries, Frame.entries]
    have h1 : (l.entries ++ (a, k) :: s.entries).Perm ((a, k) :: (l.entries ++ s.entries)) :=
      List.perm_middle
    have h2 : (s.entries ++ (l.entries ++ [(a, k)])).Perm ((a, k) :: (l.entries ++ s.entries)) := by
      rw [← List.append_assoc]
      refine (List.perm_append_singleton _ _).trans (List.Perm.cons _ ?_)
      exact List.perm_append_comm
    exact h1.trans h2.symm

theorem entries_plug (fs : List (Frame K V)) (s : Tree K V) :
    (plug fs s).entries.Perm (s.entries ++ ctxEntries fs) := by
  induction fs generalizing s with
  | nil => simp [ctxEntries]
  | cons f fs ih =>
    rw [plug_cons]
    refine (ih (f.fill s)).trans ?_
    simp only [ctxEntries, ← List.append_assoc]
    exact (f.entries_fill s).append_right _

theorem Tree.setKeyAt_of_not_mem (a : Nat) (k1 : K) : ∀ (T : Tree K V), a ∉ T.addrs →
    T.setKeyAt a k1 = T := by
  intro T
  induction T with
  | leaf => intro _; rfl
  | node c l b k v r ihl ihr =>
    intro h
    simp only [Tree.addrs, List.mem_append, List.mem_cons, not_or] at h
    have hb : ¬ b = a := fun e => h.2.1 e.symm
    simp [Tree.setKeyAt, ihl h.1, ihr h.2.2, hb]

theorem Tree.keys_node (c : Color) (l : Tree K V) (a : Nat) (k : K) (v : V) (r : Tree K V) :
    (node c l a k v r).keys = l.keys ++ k :: r.keys := by
  simp [Tree.keys]

/-- Overwriting the key `key` of the node at address `a` by `k1` swaps one
occurrence of `key` for `k1` among the keys. -/
theorem Tree.keys_setKeyAt_perm (a : Nat) (key k1 : K) : ∀ (S : Tree K V), S.addrs.Nodup →
    (a, key) ∈ S.entries →
      ∃ R, S.keys.Perm (key :: R) ∧ (S.setKeyAt a k1).keys.Perm (k1 :: R) := by
  intro S
  induction S with
  | leaf => intro _ hm; simp [Tree.entries] at hm
  | node c l b k v r ihl ihr =>
    intro hnd hm
    simp only [Tree.addrs, List.nodup_append, List.nodup_cons] at hnd
    obtain ⟨hl, ⟨hbr, hr⟩, hdis⟩ := hnd
    have hbl : b ∉ l.addrs := fun e => hdis e (List.mem_cons_self _ _)
    simp only [Tree.entries, List.mem_append, List.mem_cons] at hm
    rcases hm with hm | hm | hm
    · have hal := Tree.mem_entries_addr hm
      have hba : ¬ b = a := fun e => hbl (e ▸ hal)
      have har : a ∉ r.addrs := fun e => hdis hal (List.mem_cons_of_mem _ e)
      obtain ⟨R, h1, h2⟩ := ihl hl hm
      refine ⟨R ++ k :: r.keys, ?_, ?_⟩
      · rw [Tree.keys_node]
        exact h1.append_right _
      · simp only [Tree.setKeyAt, hba, if_false, Tree.setKeyAt_of_not_mem a k1 r har]
        rw [Tree.keys_node]
        exact h2.append_right _
    · simp only [Prod.mk.injEq] at hm
      obtain ⟨rfl, rfl⟩ := hm
      refine ⟨l.keys ++ r.keys, ?_, ?_⟩
      · rw [Tree.keys_node]
        exact List.perm_middle
      · simp only [Tree.setKeyAt, if_true, Tree.setKeyAt_of_not_mem a k1 l hbl,
          Tree.setKeyAt_of_not_mem a k1 r hbr]
        rw [Tree.keys_node]
        exact List.perm_middle
    · have har := Tree.mem_entries_addr hm
      have hba : ¬ b = a := fun e => hbr (e ▸ har)
      have hal : a ∉ l.addrs := fun e => hdis e (List.mem_cons_of_mem _ har)
      obtain ⟨R, h1, h2⟩ := ihr hr hm
      refine ⟨l.keys ++ k :: R, ?_, ?_⟩
      · rw [Tree.keys_node]
        have h3 : (l.keys ++ k :: r.keys).Perm (l.keys ++ k :: key :: R) :=
          (h1.cons k).append_left _
        refine h3.trans ?_
        have h4 : (l.keys ++ k :: key :: R).Perm (l.keys ++ key :: k :: R) :=
          (List.Perm.swap _ _ _).append_left _
        exact h4.trans List.perm_middle
      · simp only [Tree.setKeyAt, hba, if_false, Tree.setKeyAt_of_not_mem a k1 l hal]
        rw [Tree.keys_node]
        have h3 : (l.keys ++ k :: (r.setKeyAt a k1).keys).Perm (l.keys ++ k :: k1 :: R) :=
          (h2.cons k).append_left _
        refine h3.trans ?_
        have h4 : (l.keys ++ k :: k1 :: R).Perm (l.keys ++ k1 :: k :: R) :=
          (List.Perm.swap _ _ _).append_left _
        exact h4.trans List.perm_middle

/-- Unlinking the node at the focus, which has a sentinel child, removes its
entry and no other. -/
theorem entries_unlink_perm (gs : List (Frame K V)) {cy : Color} {yl yr : Tree K V} {ay : Nat}
    {ky : K} {vy : V} (X : Tree K V) (hX : (X = yl ∧ yr = leaf) ∨ (X = yr ∧ yl = leaf)) :
    (plug gs (node cy yl ay ky vy yr)).entries.Perm ((ay, ky) :: (plug gs X).entries) := by
  refine (entries_plug gs _).trans ?_
  refine List.Perm.trans ?_ ((entries_plug gs X).cons _).symm
  rcases hX with ⟨rfl, rfl⟩ | ⟨rfl, rfl⟩
  · simp only [Tree.entries, List.append_assoc, List.cons_append, List.nil_append]
    exact List.perm_middle
  · simp [Tree.entries]

section

variable [LinearOrder K]

/-- The keys after `Delete` found a node: those before, less one occurrence of
the key searched. -/
theorem unlinked_keys_perm {key : K} {T : Tree K V} {fs : List (Frame K V)} {cur : Tree K V}
    (hp : findPath key T [] = some (fs, cur)) (hnd : T.addrs.Nodup) :
    T.keys.Perm (key :: (unlinked T fs cur).keys) := by
  obtain ⟨hpl, c, l, a, v, r, rfl⟩ := findPath_plug key T [] fs _ hp
  have hpl1 : plug fs (node c l a key v r) = T := hpl
  have hk : ∀ (A : Tree K V) (B : Tree K V), A.entries.Perm ((a, key) :: B.entries) →
      A.keys.Perm (key :: B.keys) := by
    intro A B h
    have := h.map Prod.snd
    simpa [Tree.entries_snd] using this
  cases l with
  | leaf =>
    have : (plug fs (node c leaf a key v r)).entries.Perm ((a, key) :: (plug fs r).entries) :=
      entries_unlink_perm fs r (Or.inr ⟨rfl, rfl⟩)
    rw [hpl1] at this
    simpa [unlinked] using hk _ _ this
  | node c1 l1 a1 k1 v1 r1 =>
    cases r with
    | leaf =>
      have : (plug fs (node c (node c1 l1 a1 k1 v1 r1) a key v leaf)).entries.Perm
          ((a, key) :: (plug fs (node c1 l1 a1 k1 v1 r1)).entries) :=
        entries_unlink_perm fs (node c1 l1 a1 k1 v1 r1) (Or.inl ⟨rfl, rfl⟩)
      rw [hpl1] at this
      simpa [unlinked] using hk _ _ this
    | node c2 l2 a2 k2 v2 r2 =>
      have hTn : T ≠ leaf := by
        rw [← hpl1]
        exact plug_ne_leaf _ (fun e => Tree.noConfusion e)
      obtain ⟨cy, ay, ky, vy, yr, hy⟩ := leftmost_node T [] hTn
      have hyp := leftmost_plug T []
      rcases hlm : leftmost T [] with ⟨gs, y⟩
      rw [hlm] at hy hyp
      simp only at hy hyp
      subst hy
      have hyp1 : plug gs (node cy leaf ay ky vy yr) = T := hyp
      have hTS : (plug gs (node cy leaf ay ky vy yr)).entries.Perm
          ((ay, ky) :: (plug gs yr).entries) :=
        entries_unlink_perm gs yr (Or.inr ⟨rfl, rfl⟩)
      rw [hyp1] at hTS
      have hA := hTS.map Prod.fst
      simp only [Tree.entries_fst, List.map_cons] at hA
      have hnd1 := hA.nodup_iff.1 hnd
      obtain ⟨hay, hSnd⟩ := List.nodup_cons.1 hnd1
      have hmem : (a, key) ∈ T.entries := by
        rw [← hpl1]
        refine (entries_plug fs _).mem_iff.2 (List.mem_append_left _ ?_)
        simp [Tree.entries]
      have hmem1 := hTS.mem_iff.1 hmem
      have hKS : T.keys.Perm (ky :: (plug gs yr).keys) := by
        have := hTS.map Prod.snd
        simpa [Tree.entries_snd] using this
      have hun : unlinked T fs (node c (node c1 l1 a1 k1 v1 r1) a key v (node c2 l2 a2 k2 v2 r2)) =
          (plug gs yr).setKeyAt a ky := by
        simp [unlinked, hlm]
      rw [hun]
      by_cases e : a = ay
      · have hkk : key = ky := by
          rcases List.mem_cons.1 hmem1 with h1 | h1
          · exact (Prod.mk.inj h1).2
          · exact absurd (e ▸ Tree.mem_entries_addr h1) hay
        rw [Tree.setKeyAt_of_not_mem a ky _ (e ▸ hay), hkk]
        exact hKS
      · have hmS : (a, key) ∈ (plug gs yr).entries := by
          rcases List.mem_cons.1 hmem1 with h1 | h1
          · exact absurd (Prod.mk.inj h1).1 e
          · exact h1
        obtain ⟨R, h1, h2⟩ := Tree.keys_setKeyAt_perm a key ky _ hSnd hmS
        refine hKS.trans (List.Perm.trans ?_ (h2.cons key).symm)
        exact (h1.cons ky).trans (List.Perm.swap _ _ _)

end

/-! ## The height of a red-black tree -/

theorem Tree.pow_bh_le (T : Tree K V) (hb : T.balanced) : 2 ^ T.bh ≤ T.addrs.length + 1 := by
  induction T with
  | leaf => simp [Tree.addrs]
  | node c l a k v r ihl ihr =>
    obtain ⟨hl, hr, he⟩ := hb
    have h1 := ihl hl
    have h2 := ihr hr
    rw [← he] at h2
    simp only [Tree.bh_node, Tree.addrs, List.length_append, List.length_cons]
    cases c with
    | RED => simp only [Tree.blk_RED, Nat.add_zero]; omega
    | BLACK =>
      simp only [Tree.blk_BLACK, pow_succ]
      omega

theorem Tree.height_le_bh (T : Tree K V) (hn : T.noRedRed) (hb : T.balanced) :
    T.height ≤ 2 * T.bh + (if T.color = RED then 1 else 0) := by
  induction T with
  | leaf => simp [Tree.height]
  | node c l a k v r ihl ihr =>
    obtain ⟨hl, hr, he⟩ := hb
    obtain ⟨hc, hnl, hnr⟩ := hn
    have h1 := ihl hnl hl
    have h2 := ihr hnr hr
    rw [← he] at h2
    have hmax : Nat.max l.height r.height ≤ Nat.max l.height r.height := le_refl _
    simp only [Tree.height, Tree.bh_node, Tree.color_node]
    cases c with
    | RED =>
      obtain ⟨cl, cr⟩ := hc rfl
      simp only [cl, cr, reduceCtorEq, if_false] at h1 h2
      simp only [Tree.blk_RED, if_true]
      have : Nat.max l.height r.height ≤ 2 * l.bh := Nat.max_le.2 ⟨by omega, by omega⟩
      omega
    | BLACK =>
      simp only [Tree.blk_BLACK, if_false]
      have : Nat.max l.height r.height ≤ 2 * l.bh + 1 := by
        apply Nat.max_le.2
        constructor
        · split at h1 <;> omega
        · split at h2 <;> omega
      omega

/-- A red-black tree with `n` nodes has height `h` with `2 ^ h ≤ (n + 1) ^ 2`. -/
theorem Tree.pow_height_le (T : Tree K V) (hrb : T.isRB) :
    2 ^ T.height ≤ (T.addrs.length + 1) ^ 2 := by
  obtain ⟨hc, hn, hb⟩ := hrb
  have h1 := T.height_le_bh hn hb
  simp only [hc, if_false] at h1
  have h2 := T.pow_bh_le hb
  calc 2 ^ T.height ≤ 2 ^ (2 * T.bh) := Nat.pow_le_pow_right (by decide) (by simpa using h1)
    _ = (2 ^ T.bh) ^ 2 := by rw [Nat.mul_comm, pow_mul]
    _ ≤ (T.addrs.length + 1) ^ 2 := Nat.pow_le_pow_left h2 2

/-! ## Rotations and the in-order sequence -/

theorem Frame.fill_triples_congr (f : Frame K V) {s s1 : Tree K V}
    (h : s.triples = s1.triples) : (f.fill s).triples = (f.fill s1).triples := by
  cases f <;> simp [Frame.fill, Tree.triples, h]

theorem triples_plug_congr (fs : List (Frame K V)) {s s1 : Tree K V}
    (h : s.triples = s1.triples) : (plug fs s).triples = (plug fs s1).triples := by
  induction fs generalizing s s1 with
  | nil => simpa using h
  | cons f fs ih => exact ih (f.fill_triples_congr h)

end RbSpec

namespace RbSpec

open Color Tree

variable {K V : Type}

variable {d : Int}

/-! ## Calls and their effect on the count -/

section

variable [LinearOrder K]

/-- One `Insert` on a shaped store holding a red-black tree: the count grows by
one exactly when the call returns true. -/
theorem Insert_count {t : RbTree K V} {T : Tree K V} (h : Shape d t T) (hrb : T.isRB)
    (key : K) (val : V) :
    ∃ t1 T1 b, t.Insert key val = .ok (t1, b) ∧ Shape d t1 T1 ∧ T1.isRB ∧
      t1.count = t.count + (if b then 1 else 0) := by
  have hi := Insert_spec h hrb key val
  cases hp : insPath key T [] with
  | none =>
    simp only [hp] at hi
    exact ⟨t, T, false, hi, h, hrb, by simp⟩
  | some fs =>
    simp only [hp] at hi
    obtain ⟨t1, T1, e, h1, hrb1, hl⟩ := hi
    refine ⟨t1, T1, true, e, h1, hrb1, ?_⟩
    have hpl : plug fs leaf = T := insPath_plug key T [] fs hp
    have h2 : T1.toList.length = T.toList.length + 1 := by
      rw [hl, ← hpl, toList_plug, toList_plug]
      simp
      omega
    rw [Tree.length_toList, Tree.length_toList] at h2
    rw [h1.count_eq, h.count_eq, h2]
    simp
    omega

/-- One `Delete` on a shaped store holding a red-black tree: a call that returns
nil changes nothing; a call that returns a node takes one occurrence of the key
out of the keys of the tree and one off the count. -/
theorem Delete_keys {t : RbTree K V} {T : Tree K V} (h : Shape d t T) (hrb : T.isRB) (key : K) :
    ∃ t1 T1 r, t.Delete key = .ok (t1, r) ∧ Shape d t1 T1 ∧ T1.isRB ∧
      (r = none → t1 = t ∧ T1 = T) ∧
      (r.isSome = true → T.keys.Perm (key :: T1.keys) ∧ t1.count = t.count - 1) := by
  have hd := Delete_spec h hrb key
  cases hp : findPath key T [] with
  | none =>
    simp only [hp] at hd
    exact ⟨t, T, none, hd, h, hrb, fun _ => ⟨rfl, rfl⟩, by simp⟩
  | some p =>
    obtain ⟨fs, cur⟩ := p
    simp only [hp] at hd
    obtain ⟨t1, T1, ret, e, h1, hrb1, -, -, -, hl⟩ := hd
    have hperm := unlinked_keys_perm hp h.nodup
    have hk : T1.keys = (unlinked T fs cur).keys := by simp [Tree.keys, hl]
    rw [← hk] at hperm
    refine ⟨t1, T1, some ret, e, h1, hrb1, by simp, fun _ => ⟨hperm, ?_⟩⟩
    have h2 := hperm.length_eq
    simp only [Tree.keys, List.length_map, List.length_cons, Tree.length_toList] at h2
    rw [h1.count_eq, h.count_eq, h2]
    push_cast
    omega

end

/-- Method `Min` on a shaped store: the leftmost node below the root, the
sentinel for the empty tree. -/
theorem Min_spec {t : RbTree K V} {T : Tree K V} (h : Shape d t T) :
    t.Min = .ok (some (leftmost T []).2.ptr) := by
  cases T with
  | leaf => simp [RbTree.Min, RbTree.min, h.root_eq, h.null_eq, leftmost]
  | node c l a k v r =>
    have hT : Shape d t (plug [] (node c l a k v r)) := h
    have ha0 := hT.focus_ne_zero
    have hm := minLoop_spec (node c l a k v r) [] t.fuel hT (fun e => Tree.noConfusion e)
      (Nat.le_of_lt h.height_lt_fuel)
    simp only [Tree.ptr_node] at hm
    simp [RbTree.Min, RbTree.min, hm, h.null_eq, h.root_eq, ha0]

/-- Method `Max` on a shaped store: the rightmost node below the root, the
sentinel for the empty tree. -/
theorem Max_spec {t : RbTree K V} {T : Tree K V} (h : Shape d t T) :
    t.Max = .ok (some (rightmost T []).2.ptr) := by
  cases T with
  | leaf => simp [RbTree.Max, RbTree.max, h.root_eq, h.null_eq, rightmost]
  | node c l a k v r =>
    have hT : Shape d t (plug [] (node c l a k v r)) := h
    have ha0 := hT.focus_ne_zero
    have hm := maxLoop_spec (node c l a k v r) [] t.fuel hT (fun e => Tree.noConfusion e)
      (Nat.le_of_lt h.height_lt_fuel)
    simp only [Tree.ptr_node] at hm
    simp [RbTree.Max, RbTree.max, hm, h.null_eq, h.root_eq, ha0]

/-- One call of a public method. -/
inductive Call (K V : Type) where
  | insert (key : K) (value : V) : Call K V
  | update (key : K) (value : V) : Call K V
  | get (key : K) : Call K V
  | delete (key : K) : Call K V
  | range : Call K V
  | min : Call K V
  | max : Call K V
  | size : Call K V

section

variable [LinearOrder K]

/-- A sequence of calls of the public methods on one tree; besides the state
it returns the number of `Insert` calls that returned true and the number of
`Delete` calls that returned a node, counted from `ni` and `nd`. -/
def runCalls (t : RbTree K V) (ni nd : Int) : List (Call K V) → Res (RbTree K V × Int × Int)
  | [] => pure (t, ni, nd)
  | Call.insert k v :: cs => do
    let (t1, b) ← t.Insert k v
    runCalls t1 (if b then ni + 1 else ni) nd cs
  | Call.update k v :: cs => do
    let (t1, _) ← t.Update k v
    runCalls t1 ni nd cs
  | Call.get k :: cs => do
    let _ ← t.Get k
    runCalls t ni nd cs
  | Call.delete k :: cs => do
    let (t1, r) ← t.Delete k
    runCalls t1 ni (if r.isSome then nd + 1 else nd) cs
  | Call.range :: cs => do
    let _ ← t.Range
    runCalls t ni nd cs
  | Call.min :: cs => do
    let _ ← t.Min
    runCalls t ni nd cs
  | Call.max :: cs => do
    let _ ← t.Max
    runCalls t ni nd cs
  | Call.size :: cs =>
    let _ := t.Size
    runCalls t ni nd cs

/-- Every call returns, and the state after it is again a shaped store holding a
red-black tree whose count is the difference of the two numbers. -/
theorem runCalls_inv : ∀ (cs : List (Call K V)) (t : RbTree K V) (T : Tree K V) (ni nd : Int),
    Shape 0 t T → T.isRB → t.count = ni - nd →
      ∃ t1 T1 ni1 nd1, runCalls t ni nd cs = .ok (t1, ni1, nd1) ∧ Shape 0 t1 T1 ∧ T1.isRB ∧
        t1.count = ni1 - nd1 := by
  intro cs
  induction cs with
  | nil => intro t T ni nd h hrb hc; exact ⟨t, T, ni, nd, rfl, h, hrb, hc⟩
  | cons c cs ih =>
    intro t T ni nd h hrb hc
    cases c with
    | insert k v =>
      obtain ⟨t1, T1, b, e, h1, hrb1, hc1⟩ := Insert_count h hrb k v
      have hc2 : t1.count = (if b then ni + 1 else ni) - nd := by
        rw [hc1, hc]
        cases b <;> simp
        omega
      obtain ⟨t2, T2, ni2, nd2, e2, r2⟩ := ih t1 T1 _ nd h1 hrb1 hc2
      exact ⟨t2, T2, ni2, nd2, by simp [runCalls, e, e2], r2⟩
    | update k v =>
      obtain ⟨t1, T1, b, e, h1, hrb1, hc1⟩ := Update_isRB h hrb k v
      obtain ⟨t2, T2, ni2, nd2, e2, r2⟩ := ih t1 T1 ni nd h1 hrb1 (hc1.trans hc)
      exact ⟨t2, T2, ni2, nd2, by simp [runCalls, e, e2], r2⟩
    | get k =>
      obtain ⟨r, e⟩ := Get_total h k
      obtain ⟨t2, T2, ni2, nd2, e2, r2⟩ := ih t T ni nd h hrb hc
      exact ⟨t2, T2, ni2, nd2, by simp [runCalls, e, e2], r2⟩
    | delete k =>
      obtain ⟨t1, T1, r, e, h1, hrb1, hnone, hsome⟩ := Delete_keys h hrb k
      have hc2 : t1.count = ni - (if r.isSome then nd + 1 else nd) := by
        cases r with
        | none =>
          rw [(hnone rfl).1, hc]
          simp
        | some ret =>
          rw [(hsome rfl).2, hc]
          simp
          omega
      obtain ⟨t2, T2, ni2, nd2, e2, r2⟩ := ih t1 T1 ni _ h1 hrb1 hc2
      exact ⟨t2, T2, ni2, nd2, by simp [runCalls, e, e2], r2⟩
    | range =>
      obtain ⟨t2, T2, ni2, nd2, e2, r2⟩ := ih t T ni nd h hrb hc
      exact ⟨t2, T2, ni2, nd2, by simp [runCalls, h.range, e2], r2⟩
    | min =>
      obtain ⟨t2, T2, ni2, nd2, e2, r2⟩ := ih t T ni nd h hrb hc
      exact ⟨t2, T2, ni2, nd2, by simp [runCalls, Min_spec h, e2], r2⟩
    | max =>
      obtain ⟨t2, T2, ni2, nd2, e2, r2⟩ := ih t T ni nd h hrb hc
      exact ⟨t2, T2, ni2, nd2, by simp [runCalls, Max_spec h, e2], r2⟩
    | size =>
      obtain ⟨t2, T2, ni2, nd2, e2, r2⟩ := ih t T ni nd h hrb hc
      exact ⟨t2, T2, ni2, nd2, by simp [runCalls, e2], r2⟩

end

end RbSpec

namespace RbSpec

open Color Tree

/-! ## Claims on counts, `Update`, `Min`, `Max`, faults, height and rotations -/

section

variable {K V : Type} [LinearOrder K]

/-- C11: after any finite sequence of calls of the public methods on
`NewRbTree()` (`Insert`, `Update`, `Get` and `Delete` among them) the calls all
return, `Size()` is the number of `Insert` calls that returned true minus the
number of `Delete` calls that returned a node, and it is the number of entries
`Range` visits. -/
theorem C11_size_is_inserts_minus_deletes (cs : List (Call K V)) :
    ∃ t ni nd L, runCalls (NewRbTree : RbTree K V) 0 0 cs = .ok (t, ni, nd) ∧
      t.Size = ni - nd ∧ t.Range = .ok L ∧ (L.length : Int) = t.Size := by
  obtain ⟨t, T, ni, nd, e, h, -, hc⟩ :=
    runCalls_inv cs NewRbTree leaf 0 0 shape_new isRB_leaf (by simp [NewRbTree])
  refine ⟨t, ni, nd, _, e, hc, h.range, ?_⟩
  simp [calls, RbTree.Size, h.count_eq, Tree.length_toList]

/-- C12: on a tree built by `Insert` calls, `Update(k, v)` returns true exactly
when `k` is among the keys `Range` visits; when it returns false the state is
the one before the call; when it returns true the state differs from the one
before only in the `Value` field of one record, which is the record of the node
of the tree that holds `k`, and the tree is the same with `v` at that node. -/
theorem C12_update_overwrites_one_value (ops : List (K × V)) (k : K) (v : V) :
    ∃ t L t1 b, insertAll (NewRbTree : RbTree K V) ops = .ok t ∧ t.Range = .ok L ∧
      t.Update k v = .ok (t1, b) ∧ (b = true ↔ some k ∈ L.map Prod.fst) ∧
      (b = false → t1 = t) ∧
      (b = true → ∃ fs c l a v0 r, Shape 0 t (plug fs (node c l a k v0 r)) ∧
        t1 = { t with mem := Function.update t.mem a { t.mem a with Value := some v } } ∧
        Shape 0 t1 (plug fs (node c l a k v r))) := by
  obtain ⟨t, T, e, h, hrb, hs, -⟩ :=
    insertAll_sorted ops NewRbTree leaf shape_new isRB_leaf sorted_leaf
  have hu := Update_spec h k v
  by_cases hk : k ∈ T.keys
  · obtain ⟨v0, hv0⟩ := mem_keys_iff.1 hk
    obtain ⟨gs, c, l, a, r, hp⟩ := findPath_of_mem k v0 T [] hs hv0
    simp only [hp] at hu
    obtain ⟨c1, l1, a1, v1, r1, he, hf, eu, h1⟩ := hu
    refine ⟨t, _, _, true, e, h.range, eu, ?_, by simp, fun _ => ?_⟩
    · have : ∃ x, (k, x) ∈ T.toList := ⟨v0, hv0⟩
      simpa [calls] using this
    · exact ⟨gs, c1, l1, a1, v1, r1, hf, rfl, h1⟩
  · simp only [findPath_none_of_not_mem k T [] hk] at hu
    refine ⟨t, _, t, false, e, h.range, hu, ?_, fun _ => rfl, by simp⟩
    have : ¬ ∃ x, (k, x) ∈ T.toList := fun hx => hk (mem_keys_iff.2 hx)
    simpa [calls] using this

/-- C13: on a tree built by `Insert` calls, `Min()` and `Max()` return; when
`Range` visits nothing both return the sentinel; otherwise both return a node
other than the sentinel, whose keys are visited by `Range`, the key of `Min()`
being at most and the key of `Max()` at least every key `Range` visits. -/
theorem C13_min_max_extreme_keys (ops : List (K × V)) :
    ∃ t L mn mx, insertAll (NewRbTree : RbTree K V) ops = .ok t ∧ t.Range = .ok L ∧
      t.Min = .ok mn ∧ t.Max = .ok mx ∧
      (L = [] → mn = t.null ∧ mx = t.null) ∧
      (L ≠ [] → mn ≠ t.null ∧ mx ≠ t.null ∧
        ∃ kmin kmax, t.getKey mn = .ok (some kmin) ∧ t.getKey mx = .ok (some kmax) ∧
          some kmin ∈ L.map Prod.fst ∧ some kmax ∈ L.map Prod.fst ∧
          ∀ k, some k ∈ L.map Prod.fst → kmin ≤ k ∧ k ≤ kmax) := by
  obtain ⟨t, T, e, h, hrb, hs, -⟩ :=
    insertAll_sorted ops NewRbTree leaf shape_new isRB_leaf sorted_leaf
  refine ⟨t, _, _, _, e, h.range, Min_spec h, Max_spec h, ?_, ?_⟩
  · intro hL
    have hT : T = leaf := by
      cases T with
      | leaf => rfl
      | node c l a k v r => simp [calls] at hL
    subst hT
    simp [leftmost, rightmost, h.null_eq]
  · intro hL
    have hTn : T ≠ leaf := by
      intro e1
      subst e1
      simp [calls] at hL
    obtain ⟨cy, ay, ky, vy, yr, hy⟩ := leftmost_node T [] hTn
    have hyp := leftmost_plug T []
    have hyl := leftmost_ctxL T []
    rcases hlm : leftmost T [] with ⟨gs, y⟩
    rw [hlm] at hy hyp hyl
    simp only at hy hyp hyl
    subst hy
    obtain ⟨cz, zl, az, kz, vz, hz⟩ := rightmost_node T [] hTn
    have hzp := rightmost_plug T []
    have hzr := rightmost_ctxR T []
    rcases hrm : rightmost T [] with ⟨hs2, z⟩
    rw [hrm] at hz hzp hzr
    simp only at hz hzp hzr
    subst hz
    have hyp1 : plug gs (node cy leaf ay ky vy yr) = T := hyp
    have hzp1 : plug hs2 (node cz zl az kz vz leaf) = T := hzp
    have hg : Shape 0 t (plug gs (node cy leaf ay ky vy yr)) := by rw [hyp1]; exact h
    have hgz : Shape 0 t (plug hs2 (node cz zl az kz vz leaf)) := by rw [hzp1]; exact h
    have hLy : T.toList = (ky, vy) :: (yr.toList ++ ctxR gs) := by
      rw [← hyp1, toList_plug, hyl]
      simp [ctxL]
    have hLz : T.toList = (ctxL hs2 ++ zl.toList) ++ [(kz, vz)] := by
      rw [← hzp1, toList_plug, hzr]
      simp [ctxR]
    have hs1 : T.toList.Pairwise (fun x y => x.1 < y.1) := hs
    have hmin : ∀ x ∈ T.toList, ky ≤ x.1 := by
      intro x hx
      rw [hLy] at hs1 hx
      rcases List.mem_cons.1 hx with e1 | e1
      · rw [e1]
      · exact le_of_lt ((List.pairwise_cons.1 hs1).1 x e1)
    have hmax : ∀ x ∈ T.toList, x.1 ≤ kz := by
      intro x hx
      rw [hLz] at hs1 hx
      rcases List.mem_append.1 hx with e1 | e1
      · exact le_of_lt ((List.pairwise_append.1 hs1).2.2 x e1 (kz, vz) (by simp))
      · simp only [List.mem_singleton] at e1
        rw [e1]
    refine ⟨?_, ?_, ky, kz, ?_, ?_, ?_, ?_, ?_⟩
    · simp [h.null_eq, hg.focus_ne_zero]
    · simp [h.null_eq, hgz.focus_ne_zero]
    · exact hg.getKey_focus
    · exact hgz.getKey_focus
    · have : ∃ x, (ky, x) ∈ T.toList := ⟨vy, by rw [hLy]; simp⟩
      simpa [calls] using this
    · have : ∃ x, (kz, x) ∈ T.toList := ⟨vz, by rw [hLz]; simp⟩
      simpa [calls] using this
    · intro k hk
      have : ∃ x, (k, x) ∈ T.toList := by simpa [calls] using hk
      obtain ⟨x, hx⟩ := this
      exact ⟨hmin _ hx, hmax _ hx⟩

/-- C14: any finite sequence of calls of `Insert`, `Update`, `Get`, `Delete`,
`Range`, `Min`, `Max` and `Size` on `NewRbTree()` returns: no call
dereferences a `nil` link or key. After it the sentinel is still BLACK, which
keeps it from passing the guard `node.parent.color == RED` of `insertFixUp`,
and still has `nil` for `left` and `right`, so that a read of `w.left.color`
with `w` the sentinel would have been a fault. -/
theorem C14_no_call_faults (cs : List (Call K V)) :
    ∃ t ni nd, runCalls (NewRbTree : RbTree K V) 0 0 cs = .ok (t, ni, nd) ∧
      t.getLeft t.null = .ok none ∧ t.getRight t.null = .ok none ∧
      t.getColor t.null = .ok BLACK := by
  obtain ⟨t, T, ni, nd, e, h, -, -⟩ :=
    runCalls_inv cs NewRbTree leaf 0 0 shape_new isRB_leaf (by simp [NewRbTree])
  refine ⟨t, ni, nd, e, ?_, ?_, ?_⟩
  · simp [h.null_eq, RbTree.getLeft, h.nil_left]
  · simp [h.null_eq, RbTree.getRight, h.nil_right]
  · simp [h.null_eq, RbTree.getColor, h.nil_color]

/-- C15: on a tree built by `Insert` calls, with `h` the number of nodes on the
longest path from the root to a sentinel link and `n = Size()`,
`2 ^ h ≤ (n + 1) ^ 2`. -/
theorem C15_height_logarithmic (ops : List (K × V)) :
    ∃ t T, insertAll (NewRbTree : RbTree K V) ops = .ok t ∧ t.view = .ok T ∧
      (2 : Int) ^ T.height ≤ (t.Size + 1) ^ 2 := by
  obtain ⟨t, T, e, h, hrb⟩ := insertAll_isRB ops NewRbTree leaf shape_new isRB_leaf
  refine ⟨t, T, e, h.view, ?_⟩
  have := T.pow_height_le hrb
  simp only [RbTree.Size, h.count_eq, add_zero]
  exact_mod_cast this

end

section

variable {K V : Type} {d : Int}

/-- C16: in a store holding a tree with consistent links, for the node `X` at
the root of any subtree: when `X.right` is the sentinel `rbTreeLeftRotate(X)`
returns the state as it is, otherwise it returns a store holding the tree with
the pivot rotated above `X`, which has the same in-order sequence of keys,
values and colors, and whose root is the pivot when `X` was the root; the same
for `rbTreeRightRotate(X)` with `X.left`. -/
theorem C16_rotations_keep_sequence {t : RbTree K V} {fs : List (Frame K V)} {c : Color}
    {A C : Tree K V} {x : Nat} {k : K} {v : V} (h : Shape d t (plug fs (node c A x k v C))) :
    (C = leaf → t.rbTreeLeftRotate (some x) = .ok t) ∧
    (∀ c2 B y k2 v2 C2, C = node c2 B y k2 v2 C2 →
      ∃ t1, t.rbTreeLeftRotate (some x) = .ok t1 ∧
        Shape d t1 (plug fs (node c2 (node c A x k v B) y k2 v2 C2)) ∧
        (plug fs (node c2 (node c A x k v B) y k2 v2 C2)).triples =
          (plug fs (node c A x k v C)).triples ∧
        (fs = [] → t1.root = some y)) ∧
    (A = leaf → t.rbTreeRightRotate (some x) = .ok t) ∧
    (∀ c2 A2 y k2 v2 B, A = node c2 A2 y k2 v2 B →
      ∃ t1, t.rbTreeRightRotate (some x) = .ok t1 ∧
        Shape d t1 (plug fs (node c2 A2 y k2 v2 (node c B x k v C))) ∧
        (plug fs (node c2 A2 y k2 v2 (node c B x k v C))).triples =
          (plug fs (node c A x k v C)).triples ∧
        (fs = [] → t1.root = some y)) := by
  refine ⟨?_, ?_, ?_, ?_⟩
  · intro e
    subst e
    have := h.getRight_focus
    simp only [Tree.ptr_leaf] at this
    simp [RbTree.rbTreeLeftRotate, this, h.null_eq]
  · intro c2 B y k2 v2 C2 e
    subst e
    obtain ⟨t1, e1, h1, -⟩ := h.leftRotate
    refine ⟨t1, e1, h1, triples_plug_congr fs (by simp [Tree.triples]), ?_⟩
    intro e2
    subst e2
    exact h1.root_eq
  · intro e
    subst e
    have := h.getLeft_focus
    simp only [Tree.ptr_leaf] at this
    simp [RbTree.rbTreeRightRotate, this, h.null_eq]
  · intro c2 A2 y k2 v2 B e
    subst e
    obtain ⟨t1, e1, h1, -⟩ := h.rightRotate
    refine ⟨t1, e1, h1, triples_plug_congr fs (by simp [Tree.triples]), ?_⟩
    intro e2
    subst e2
    exact h1.root_eq

end

end RbSpec

namespace RbSpec

open Color Tree

/-! ## Claims on `successor`, the copy in `Delete`, `Get` and the keys after `Delete` -/

/-- The store after `Insert(1, 20)` and `Insert(10, 1)` on `NewRbTree()`: the
root, BLACK, at address 1 and its RED right child at address 2. -/
def rotStore : RbTree Int Nat :=
  { null := some 0
    root := some 1
    count := 2
    mem := fun a =>
      if a = 1 then
        { Key := some 1, Value := some 20, color := BLACK, left := some 0, right := some 2,
          parent := some 0 }
      else if a = 2 then
        { Key := some 10, Value := some 1, color := RED, left := some 0, right := some 0,
          parent := some 1 }
      else
        { Key := none, Value := none, color := BLACK, left := none, right := none,
          parent := none }
    next := 3 }

theorem rotStore_shape :
    Shape 0 rotStore (plug [] (node BLACK leaf 1 1 20 (node RED leaf 2 10 1 leaf))) where
  null_eq := rfl
  root_eq := rfl
  cells := by
    intro c hc
    simp only [plug, Tree.cells, List.nil_append, List.mem_cons, List.mem_singleton,
      List.not_mem_nil, or_false] at hc
    rcases hc with rfl | rfl <;> rfl
  nodup := by decide
  pos := by
    intro a ha
    simp only [plug, Tree.addrs, List.nil_append, List.mem_cons, List.mem_singleton,
      List.not_mem_nil, or_false] at ha
    rcases ha with rfl | rfl <;> decide
  nil_color := rfl
  nil_left := rfl
  nil_right := rfl
  next_pos := by decide
  count_eq := rfl

theorem C16_rotations_keep_sequence_witness :
    Shape 0 rotStore (plug [] (node BLACK leaf 1 1 20 (node RED leaf 2 10 1 leaf))) ∧
      (∃ t1, rotStore.rbTreeLeftRotate (some 1) = .ok t1 ∧ t1.root = some 2 ∧
        Shape 0 t1 (plug [] (node RED (node BLACK leaf 1 1 20 leaf) 2 10 1 leaf))) ∧
      rotStore.rbTreeRightRotate (some 1) = .ok rotStore :=
  ⟨rotStore_shape,
    (fun ⟨_, hL, hR, _⟩ =>
      ⟨(fun ⟨t1, e1, h1, _, hroot⟩ => ⟨t1, e1, hroot rfl, h1⟩) (hL RED leaf 2 10 1 leaf rfl),
        hR rfl⟩)
      (C16_rotations_keep_sequence rotStore_shape)⟩

/-- C17: after the inserts of the test the root holds key 10 and has a right
child, which holds key 11 and has no left child, so the minimum of the right
subtree of the root is the node of key 11; `successor(root)` returns the node
of key -1, the minimum of the whole tree. -/
theorem C17_successor_returns_tree_minimum :
    (insertAll NewRbTree testOps >>= fun t => t.getKey t.root) = .ok (some 10) ∧
    (insertAll NewRbTree testOps >>= fun t => t.getRight t.root >>= fun r =>
      t.getKey r >>= fun rk => t.getLeft r >>= fun rl =>
        pure (decide (r ≠ t.null), rk, decide (rl = t.null))) = .ok (true, some 11, true) ∧
    (insertAll NewRbTree testOps >>= fun t => t.successor t.root >>= fun s => t.getKey s) =
      .ok (some (-1)) := by
  decide!

/-- C18: after the inserts of the test the root `curr` holds key 10 and value 1
and has two real children; the node `y` that `Delete(10)` unlinks, the one
`successor(curr)` returns, holds key -1 and value 4; after `Delete(10)` the node
`curr` holds key -1 and still value 1. -/
theorem C18_delete_keeps_old_value :
    (insertAll NewRbTree testOps >>= fun t => t.getKey t.root >>= fun k =>
      t.getValue t.root >>= fun v => t.getLeft t.root >>= fun l =>
        t.getRight t.root >>= fun r =>
          pure (k, v, decide (l ≠ t.null), decide (r ≠ t.null))) =
      .ok (some 10, some 1, true, true) ∧
    (insertAll NewRbTree testOps >>= fun t => t.successor t.root >>= fun y =>
      t.getKey y >>= fun k => t.getValue y >>= fun v => pure (k, v)) =
      .ok (some (-1), some 4) ∧
    (insertAll NewRbTree testOps >>= fun t => t.Delete 10 >>= fun p =>
      p.1.getKey t.root >>= fun k => p.1.getValue t.root >>= fun v => pure (k, v)) =
      .ok (some (-1), some 1) := by
  decide!

section

variable {K V : Type} [LinearOrder K]

/-- C19: on a tree built by at least one `Insert` call, the root is a node, and
`Get(k)` returns found = true exactly when `k` is the key held by the root. -/
theorem C19_get_finds_only_root_key (op : K × V) (ops : List (K × V)) (k : K) :
    ∃ t kr r, insertAll (NewRbTree : RbTree K V) (op :: ops) = .ok t ∧ t.root ≠ t.null ∧
      t.getKey t.root = .ok (some kr) ∧ t.Get k = .ok r ∧ (r.2 = true ↔ k = kr) := by
  obtain ⟨t, T, e, h, hrb, hs, hm⟩ :=
    insertAll_sorted (op :: ops) NewRbTree leaf shape_new isRB_leaf sorted_leaf
  have hop : (op.1, op.2) ∈ T.toList :=
    (hm op.1 op.2).2 (Or.inr ⟨by simp [Tree.keys], by simp [List.lookup]⟩)
  cases T with
  | leaf => simp at hop
  | node c l a kr v r =>
    have hT : Shape 0 t (plug [] (node c l a kr v r)) := h
    have ha0 := hT.focus_ne_zero
    have e1 := hT.recvKey_focus
    have e2 := hT.getLeft_focus
    have e3 := hT.getRight_focus
    have e4 := hT.getValue_focus
    have ek := hT.getKey_focus
    have hroot : t.root = some a := h.root_eq
    have hfuel := h.height_lt_fuel
    simp only [RbTree.fuel] at hfuel
    have hl : l.height < t.next := by
      have := Tree.height_left_lt c l a kr v r
      omega
    have hr : r.height < t.next := by
      have := Tree.height_right_lt c l a kr v r
      omega
    simp only [Tree.sorted, Tree.toList_node, List.pairwise_append, List.pairwise_cons] at hs
    obtain ⟨-, ⟨hkr, -⟩, hlr⟩ := hs
    have hne : t.root ≠ t.null := by
      rw [hroot, h.null_eq]
      simp [ha0]
    by_cases hlt : kr < k
    · have hall : ∀ x ∈ l.toList, x.1 < k :=
        fun x hx => lt_trans (hlr x hx (kr, v) (by simp)) hlt
      have hg := GetLoop_lt k l (Frame.L c a kr v r :: []) t.next hT hl hall
      refine ⟨t, kr, (none, false), e, hne, by rw [hroot]; exact ek, ?_, ?_⟩
      · simp [RbTree.Get, RbTree.fuel, RbTree.GetLoop, hroot, h.null_eq, ha0, e1, e2,
          RbTree.Less, hlt, hg]
      · simp [ne_of_gt hlt]
    · by_cases heq : kr = k
      · refine ⟨t, kr, (some v, true), e, hne, by rw [hroot]; exact ek, ?_, by simp [heq]⟩
        simp [RbTree.Get, RbTree.fuel, RbTree.GetLoop, hroot, h.null_eq, ha0, e1, e4,
          RbTree.Less, RbTree.Equal, hlt, heq]
      · have hgt : k < kr := lt_of_le_of_ne (not_lt.1 hlt) (fun e5 => heq e5.symm)
        have hall : ∀ x ∈ r.toList, k < x.1 := fun x hx => lt_trans hgt (hkr x hx)
        have hg := GetLoop_gt k r (Frame.R c l a kr v :: []) t.next hT hr hall
        refine ⟨t, kr, (none, false), e, hne, by rw [hroot]; exact ek, ?_, ?_⟩
        · simp [RbTree.Get, RbTree.fuel, RbTree.GetLoop, hroot, h.null_eq, ha0, e1, e3,
            RbTree.Less, RbTree.Equal, hlt, heq, hg]
        · simp [ne_of_lt hgt]

/-- C20: after any finite sequence of `Insert` and `Delete` calls on
`NewRbTree()`, a `Delete(k)` that returns a node leaves `Range` visiting the
keys it visited before with one occurrence of `k` taken out, as multisets; a
`Delete(k)` that returns nil leaves what `Range` visits as it was. -/
theorem C20_delete_removes_one_key (ops : List (Op K V)) (k : K) :
    ∃ t L t1 r L1, runOps (NewRbTree : RbTree K V) ops = .ok t ∧ t.Range = .ok L ∧
      t.Delete k = .ok (t1, r) ∧ t1.Range = .ok L1 ∧
      (r.isSome = true → (L.map Prod.fst).Perm (some k :: L1.map Prod.fst)) ∧
      (r = none → L1 = L) := by
  obtain ⟨t, T, e, h, hrb⟩ := runOps_isRB ops NewRbTree leaf shape_new isRB_leaf
  obtain ⟨t1, T1, r, e1, h1, -, hnone, hsome⟩ := Delete_keys h hrb k
  refine ⟨t, _, t1, r, _, e, h.range, e1, h1.range, ?_, ?_⟩
  · intro hr
    have hp := ((hsome hr).1).map (fun x => some x)
    simpa [calls, Tree.keys, Function.comp_def] using hp
  · intro hr
    rw [(hnone hr).2]

end

end RbSpec
